import Mathlib

/-!
Verification of the betterprompt text-merge core against its specification.

The definitions below are a shallow embedding of the TypeScript sources:

* `src/merge/word-merge.ts` — tokenizer, LCS-based word diff and the
  word-level three-way merge `wordMerge3Way`;
* `src/segmentation/index.ts` — sentence segmentation and `reconstruct`;
* `src/utils/similarity.ts` — `cosineSimilarity`;
* `src/utils/hash.ts` — the FNV-1a `createHash`;
* `src/alignment/index.ts` — `sequentialAlign`, `semanticAlign`,
  `hybridAlign` and the `align` dispatcher;
* `src/merge/index.ts` — the three-way merge orchestrator,
  `tryAutoResolve`, `formatConflictMarker` and `resolveConflict`.

JavaScript numbers only matter here as exact score arithmetic on the
constants −0.5, −0.1 and thresholds, so scores are modelled as `ℚ`
(exact in IEEE semantics for the comparisons performed). Vector
similarity (`cosineSimilarity`) is modelled over `ℝ` with `Real.sqrt` in
place of `Math.sqrt`. The mutable tables and `Map`s of the source are
modelled as association lists with the same replace-or-append update
semantics, and index-based loops as structural recursion over suffixes,
with JavaScript's out-of-range index reads mapped to `drop`/`getD`
saturation. Functions whose loops advance a cursor non-structurally are
given an explicit fuel argument that strictly bounds the number of loop
iterations, so that everything evaluates by kernel reduction.
-/

namespace BetterPrompt

open List

/-! ## Word-merge module: tokenizer (`src/merge/word-merge.ts`, `tokenize`) -/

/-- JavaScript `/\w/` on a single character: `[A-Za-z0-9_]`. -/
def isWordChar (ch : Char) : Bool :=
  (('a' ≤ ch && ch ≤ 'z') || ('A' ≤ ch && ch ≤ 'Z') ||
   ('0' ≤ ch && ch ≤ '9') || ch = '_')

/-- Loop body of `tokenize`: walk the characters carrying the current run
and whether it is a word run; emit the run on every word/non-word
transition, exactly as the source's `for (const char of text)` loop. -/
def tokenizeGo : List Char → List Char → Bool → List String
  | [], current, _ =>
    if current.isEmpty then [] else [String.mk current]
  | ch :: rest, current, inWord =>
    if isWordChar ch = inWord then
      tokenizeGo rest (current ++ [ch]) inWord
    else if current.isEmpty then
      tokenizeGo rest [ch] (isWordChar ch)
    else
      String.mk current :: tokenizeGo rest [ch] (isWordChar ch)

/-- `tokenize`: split into maximal runs of word vs non-word characters,
whitespace and punctuation kept as tokens. -/
def tokenize (text : String) : List String :=
  tokenizeGo text.data [] false

/-! ## Word-merge module: LCS (`lcs` in `src/merge/word-merge.ts`)

The source builds the classic DP table `dp[i][j]` (LCS length of the
first `i` tokens of `a` and first `j` of `b`) and then backtracks from
`(m, n)`. `dpValF` is the table as a memoised recurrence with a fuel
argument (`fuel ≥ i + j` always suffices); `btkF` is the backtracking
loop, with the source's tie-break `dp[i-1][j] > dp[i][j-1] → i--`. -/

/-- The DP table entry `dp[i][j]` of the source's `lcs`, with fuel. -/
def dpValF (a b : List String) : ℕ → ℕ → ℕ → ℕ
  | 0, _, _ => 0
  | _ + 1, 0, _ => 0
  | _ + 1, _ + 1, 0 => 0
  | f + 1, i + 1, j + 1 =>
    if a[i]? = b[j]? then dpValF a b f i j + 1
    else max (dpValF a b f i (j + 1)) (dpValF a b f (i + 1) j)

/-- `dp[i][j]` with the canonical sufficient fuel. -/
def dpVal (a b : List String) (i j : ℕ) : ℕ := dpValF a b (i + j) i j

/-- Backtracking loop of the source's `lcs` (result built via `unshift`,
i.e. the match is appended after the recursive prefix), with fuel. -/
def btkF (a b : List String) : ℕ → ℕ → ℕ → List String
  | 0, _, _ => []
  | _ + 1, 0, _ => []
  | _ + 1, _ + 1, 0 => []
  | f + 1, i + 1, j + 1 =>
    if a[i]? = b[j]? then
      btkF a b f i j ++ [(a[i]?).getD ""]
    else if dpVal a b i (j + 1) > dpVal a b (i + 1) j then
      btkF a b f i (j + 1)
    else
      btkF a b f (i + 1) j

/-- `lcs`: longest common subsequence of two token arrays. -/
def lcs (a b : List String) : List String :=
  btkF a b (a.length + b.length) a.length b.length

/-! ## Word-merge module: `diff2` -/

inductive DiffType where
  | keep
  | delete
  | insert
  deriving DecidableEq, Repr

structure DiffOp where
  type : DiffType
  tokens : List String
  deriving DecidableEq, Repr

/-- One iteration of the source's `diff2` loop collects a run of
deletions (`original` tokens differing from the current common token), a
run of insertions, then consumes one common token; the loop exits when
both inputs are exhausted. Indices are modelled by list suffixes, with
the source's saturating out-of-range increments as `drop`. -/
def diff2Go : List String → List String → List String → List DiffOp
  | restA, restB, [] =>
    (if restA.isEmpty then [] else [⟨.delete, restA⟩]) ++
    (if restB.isEmpty then [] else [⟨.insert, restB⟩])
  | restA, restB, c :: com =>
    if restA.isEmpty && restB.isEmpty then []
    else
      let dels := restA.takeWhile (· ≠ c)
      let inss := restB.takeWhile (· ≠ c)
      (if dels.isEmpty then [] else [⟨.delete, dels⟩]) ++
      (if inss.isEmpty then [] else [⟨.insert, inss⟩]) ++
      [⟨.keep, [c]⟩] ++
      diff2Go (restA.drop (dels.length + 1)) (restB.drop (inss.length + 1)) com

/-- `diff2`: word-level diff of two token arrays via their LCS. -/
def diff2 (original modified : List String) : List DiffOp :=
  diff2Go original modified (lcs original modified)

/-! ## Word-merge module: `wordMerge3Way` -/

/-- Per-A-position change record (`ChangeInfo` in the source; the unused
`insertionBefore` field is omitted, and an absent `insertionAfter` is the
empty list, matching the source's `?? []` reads). -/
structure ChangeInfo where
  deleted : Bool
  insertionAfter : List String
  deriving DecidableEq, Repr

/-- JavaScript `Map<number, ChangeInfo>` as an association list with
`Map.set` replace-or-append semantics. -/
abbrev ChangeMap := List (ℕ × ChangeInfo)

/-- `Map.get`. -/
def mget (m : ChangeMap) (k : ℕ) : Option ChangeInfo :=
  (m.find? (fun p => p.1 == k)).map (·.2)

/-- `Map.set`: replace the binding if the key is present, else append. -/
def mset (m : ChangeMap) (k : ℕ) (v : ChangeInfo) : ChangeMap :=
  if m.any (fun p => p.1 == k) then
    m.map (fun p => if p.1 == k then (k, v) else p)
  else m ++ [(k, v)]

/-- `Map.size`. -/
def msize (m : ChangeMap) : ℕ := m.length

/-- The inner `for (let j ...)` of the delete branch: mark
`op.tokens.length` consecutive positions deleted starting at `aIdx`. -/
def markDeleted : ChangeMap → ℕ → ℕ → ChangeMap
  | m, _, 0 => m
  | m, aIdx, k + 1 => markDeleted (mset m aIdx ⟨true, []⟩) (aIdx + 1) k

/-- The "process A→B diff to extract per-position changes" loop of
`wordMerge3Way`: fold over the diff ops carrying `aIdx`, the
start-insertion list and the change map. -/
def processDiffGo : List DiffOp → ℕ → List String → ChangeMap →
    List String × ChangeMap
  | [], _, startIns, m => (startIns, m)
  | ⟨.insert, toks⟩ :: rest, aIdx, startIns, m =>
    if aIdx = 0 ∧ msize m = 0 then
      processDiffGo rest aIdx toks m
    else if 0 < aIdx then
      let prev := (mget m (aIdx - 1)).getD ⟨false, []⟩
      processDiffGo rest aIdx startIns
        (mset m (aIdx - 1) ⟨prev.deleted, toks⟩)
    else
      processDiffGo rest aIdx startIns m
  | ⟨.delete, toks⟩ :: rest, aIdx, startIns, m =>
    processDiffGo rest (aIdx + toks.length) startIns
      (markDeleted m aIdx toks.length)
  | ⟨.keep, toks⟩ :: rest, aIdx, startIns, m =>
    processDiffGo rest (aIdx + toks.length) startIns m

/-- Extract `(insertionAtStart, changes)` from a diff. -/
def processDiff (ops : List DiffOp) : List String × ChangeMap :=
  processDiffGo ops 0 [] []

structure ConflictRange where
  start : ℕ
  /-- `end` in the source (a Lean keyword). -/
  stop : ℕ
  b : String
  c : String
  deriving DecidableEq, Repr

structure WordMergeResult where
  merged : String
  hasConflict : Bool
  conflictRanges : List ConflictRange
  deriving DecidableEq, Repr

/-- Source local `bIns`/`cIns`: the `insertionAfter` of the change at a
position, `[]` when absent (the `?? []` read). -/
def insOf (m : ChangeMap) (p : ℕ) : List String :=
  ((mget m p).map (·.insertionAfter)).getD []

/-- Source local `bDeleted`/`cDeleted`: the `deleted` flag of the change
at a position, `false` when absent. -/
def delOf (m : ChangeMap) (p : ℕ) : Bool :=
  ((mget m p).map (·.deleted)).getD false

/-- The inline conflict marker `<<<content_b|content_c>>>`. -/
def marker (bs cs : String) : String := "<<<" ++ bs ++ "|" ++ cs ++ ">>>"

/-- The conflict test of the walk: both sides inserted at this position
and the joined contents differ. -/
def conflictAtP (bm cm : ChangeMap) (p : ℕ) : Prop :=
  0 < (insOf bm p).length ∧ 0 < (insOf cm p).length ∧
    String.join (insOf bm p) ≠ String.join (insOf cm p)

instance (bm cm : ChangeMap) (p : ℕ) : Decidable (conflictAtP bm cm p) := by
  unfold conflictAtP
  infer_instance

/-- The "process each A token" loop of `wordMerge3Way`: keep the token
unless either side deleted it, then handle insertions after the
position, conflicting exactly when both sides inserted different joined
content there. -/
def walkGo (bm cm : ChangeMap) : List String → ℕ → List String → Bool →
    List ConflictRange → List String × Bool × List ConflictRange
  | [], _, acc, hc, rs => (acc, hc, rs)
  | tok :: rest, p, acc, hc, rs =>
    let acc1 := if !(delOf bm p) && !(delOf cm p) then acc ++ [tok] else acc
    if 0 < (insOf bm p).length ∨ 0 < (insOf cm p).length then
      if conflictAtP bm cm p then
        walkGo bm cm rest (p + 1)
          (acc1 ++ [marker (String.join (insOf bm p)) (String.join (insOf cm p))])
          true
          (rs ++ [⟨acc1.length, acc1.length + 1, String.join (insOf bm p),
            String.join (insOf cm p)⟩])
      else
        walkGo bm cm rest (p + 1) (acc1 ++ insOf bm p ++ insOf cm p) hc rs
    else
      walkGo bm cm rest (p + 1) acc1 hc rs

/-- `wordMerge3Way`: three-way word-level merge of `(a, b, c)`. -/
def wordMerge3Way (a b c : String) : WordMergeResult :=
  let tokensA := tokenize a
  let tokensB := tokenize b
  let tokensC := tokenize c
  let abDiff := diff2 tokensA tokensB
  let acDiff := diff2 tokensA tokensC
  let bp := processDiff abDiff
  let cp := processDiff acDiff
  let init : List String :=
    if 0 < bp.1.length ∨ 0 < cp.1.length then bp.1 ++ cp.1 else []
  let w := walkGo bp.2 cp.2 tokensA 0 init false []
  ⟨String.join w.1, w.2.1, w.2.2⟩

/-! ## LCS theory

`lcs` returns a maximum-length common sublist of its two arguments.
`dpValF_eq` removes the fuel, `btk_sublist` shows the backtracked list
is a common sublist, `btk_length` ties its length to the DP table, and
`dpVal_is_max` is the optimality of the table. -/

theorem dpValF_zero_left (a b : List String) (f j : ℕ) :
    dpValF a b f 0 j = 0 := by
  cases f <;> rfl

theorem dpValF_zero_right (a b : List String) (f i : ℕ) :
    dpValF a b f i 0 = 0 := by
  cases f <;> cases i <;> rfl

theorem dpValF_fuel (a b : List String) :
    ∀ f g i j, i + j ≤ f → i + j ≤ g → dpValF a b f i j = dpValF a b g i j := by
  intro f
  induction f with
  | zero =>
    intro g i j hf _
    obtain ⟨rfl, rfl⟩ : i = 0 ∧ j = 0 := by omega
    rw [dpValF_zero_left, dpValF_zero_left]
  | succ f ih =>
    intro g i j hf hg
    match i, j with
    | 0, j => rw [dpValF_zero_left, dpValF_zero_left]
    | i + 1, 0 => rw [dpValF_zero_right, dpValF_zero_right]
    | i + 1, j + 1 =>
      obtain ⟨g', rfl⟩ : ∃ g', g = g' + 1 := ⟨g - 1, by omega⟩
      show dpValF a b (f + 1) (i + 1) (j + 1) = dpValF a b (g' + 1) (i + 1) (j + 1)
      simp only [dpValF]
      rw [ih g' i j (by omega) (by omega), ih g' i (j + 1) (by omega) (by omega),
        ih g' (i + 1) j (by omega) (by omega)]

theorem dpVal_zero_left (a b : List String) (j : ℕ) : dpVal a b 0 j = 0 :=
  dpValF_zero_left a b (0 + j) j

theorem dpVal_zero_right (a b : List String) (i : ℕ) : dpVal a b i 0 = 0 :=
  dpValF_zero_right a b (i + 0) i

theorem dpVal_succ (a b : List String) (i j : ℕ) :
    dpVal a b (i + 1) (j + 1) =
      if a[i]? = b[j]? then dpVal a b i j + 1
      else max (dpVal a b i (j + 1)) (dpVal a b (i + 1) j) := by
  show dpValF a b (i + 1 + (j + 1)) (i + 1) (j + 1) = _
  have h : i + 1 + (j + 1) = (i + j + 1) + 1 := by omega
  rw [h]
  simp only [dpValF, dpVal]
  rw [dpValF_fuel a b (i + j + 1) (i + j) i j (by omega) (by omega),
    dpValF_fuel a b (i + j + 1) (i + (j + 1)) i (j + 1) (by omega) (by omega),
    dpValF_fuel a b (i + j + 1) (i + 1 + j) (i + 1) j (by omega) (by omega)]

theorem btkF_zero_left (a b : List String) (f j : ℕ) :
    btkF a b f 0 j = [] := by
  cases f <;> rfl

theorem btkF_zero_right (a b : List String) (f i : ℕ) :
    btkF a b f i 0 = [] := by
  cases f <;> cases i <;> rfl

theorem btkF_fuel (a b : List String) :
    ∀ f g i j, i + j ≤ f → i + j ≤ g → btkF a b f i j = btkF a b g i j := by
  intro f
  induction f with
  | zero =>
    intro g i j hf _
    obtain ⟨rfl, rfl⟩ : i = 0 ∧ j = 0 := by omega
    rw [btkF_zero_left, btkF_zero_left]
  | succ f ih =>
    intro g i j hf hg
    match i, j with
    | 0, j => rw [btkF_zero_left, btkF_zero_left]
    | i + 1, 0 => rw [btkF_zero_right, btkF_zero_right]
    | i + 1, j + 1 =>
      obtain ⟨g', rfl⟩ : ∃ g', g = g' + 1 := ⟨g - 1, by omega⟩
      show btkF a b (f + 1) (i + 1) (j + 1) = btkF a b (g' + 1) (i + 1) (j + 1)
      simp only [btkF]
      rw [ih g' i j (by omega) (by omega), ih g' i (j + 1) (by omega) (by omega),
        ih g' (i + 1) j (by omega) (by omega)]

/-- The backtracking loop at `(i, j)` with canonical fuel. -/
def btk (a b : List String) (i j : ℕ) : List String := btkF a b (i + j) i j

theorem lcs_eq_btk (a b : List String) : lcs a b = btk a b a.length b.length := rfl

theorem btk_zero_left (a b : List String) (j : ℕ) : btk a b 0 j = [] :=
  btkF_zero_left a b (0 + j) j

theorem btk_zero_right (a b : List String) (i : ℕ) : btk a b i 0 = [] :=
  btkF_zero_right a b (i + 0) i

theorem btk_succ (a b : List String) (i j : ℕ) :
    btk a b (i + 1) (j + 1) =
      if a[i]? = b[j]? then btk a b i j ++ [(a[i]?).getD ""]
      else if dpVal a b i (j + 1) > dpVal a b (i + 1) j then btk a b i (j + 1)
      else btk a b (i + 1) j := by
  show btkF a b (i + 1 + (j + 1)) (i + 1) (j + 1) = _
  have h : i + 1 + (j + 1) = (i + j + 1) + 1 := by omega
  rw [h]
  simp only [btkF, btk]
  rw [btkF_fuel a b (i + j + 1) (i + j) i j (by omega) (by omega),
    btkF_fuel a b (i + j + 1) (i + (j + 1)) i (j + 1) (by omega) (by omega),
    btkF_fuel a b (i + j + 1) (i + 1 + j) (i + 1) j (by omega) (by omega)]

/-- The backtracked list is a common sublist of the two prefixes. -/
theorem btk_sublist (a b : List String) :
    ∀ n i j, i + j = n → i ≤ a.length → j ≤ b.length →
      btk a b i j <+ a.take i ∧ btk a b i j <+ b.take j := by
  intro n
  induction n using Nat.strong_induction_on with
  | _ n ih =>
    intro i j hn hi hj
    match i, j with
    | 0, j => rw [btk_zero_left]; exact ⟨List.nil_sublist _, List.nil_sublist _⟩
    | i + 1, 0 => rw [btk_zero_right]; exact ⟨List.nil_sublist _, List.nil_sublist _⟩
    | i + 1, j + 1 =>
      have hia : i < a.length := by omega
      have hjb : j < b.length := by omega
      have iha := ih (i + j) (by omega) i j rfl (by omega) (by omega)
      have ihb := ih (i + (j + 1)) (by omega) i (j + 1) rfl (by omega) (by omega)
      have ihc := ih (i + 1 + j) (by omega) (i + 1) j rfl (by omega) (by omega)
      rw [btk_succ]
      split_ifs with hc hgt
      · -- matched cell
        have ha : a[i]? = some a[i] := List.getElem?_eq_getElem hia
        have hb : b[j]? = some b[j] := List.getElem?_eq_getElem hjb
        have hval : a[i] = b[j] := by
          rw [ha, hb] at hc; exact Option.some.inj hc
        constructor
        · rw [List.take_succ, ha]
          simp only [Option.toList_some, Option.getD_some]
          exact List.Sublist.append iha.1 (List.Sublist.refl _)
        · rw [hc, List.take_succ, hb]
          simp only [Option.toList_some, Option.getD_some]
          exact List.Sublist.append iha.2 (List.Sublist.refl _)
      · constructor
        · calc btk a b i (j + 1) <+ a.take i := ihb.1
            _ <+ a.take (i + 1) := by
              rw [List.take_succ]; exact List.sublist_append_left _ _
        · exact ihb.2
      · constructor
        · exact ihc.1
        · calc btk a b (i + 1) j <+ b.take j := ihc.2
            _ <+ b.take (j + 1) := by
              rw [List.take_succ]; exact List.sublist_append_left _ _

/-- The backtracked list has exactly the DP-table length. -/
theorem btk_length (a b : List String) :
    ∀ n i j, i + j = n → (btk a b i j).length = dpVal a b i j := by
  intro n
  induction n using Nat.strong_induction_on with
  | _ n ih =>
    intro i j hn
    match i, j with
    | 0, j => rw [btk_zero_left, dpVal_zero_left]; rfl
    | i + 1, 0 => rw [btk_zero_right, dpVal_zero_right]; rfl
    | i + 1, j + 1 =>
      rw [btk_succ, dpVal_succ]
      split_ifs with hc hgt
      · simp [ih (i + j) (by omega) i j rfl]
      · rw [ih (i + (j + 1)) (by omega) i (j + 1) rfl]; omega
      · rw [ih (i + 1 + j) (by omega) (i + 1) j rfl]; omega

/-- Adjacent-cell inequalities of the DP table: the value is monotone in
each index and grows by at most one per step. -/
theorem dpVal_adj (a b : List String) :
    ∀ n i j, i + j = n →
      (dpVal a b i j ≤ dpVal a b (i + 1) j ∧
        dpVal a b (i + 1) j ≤ dpVal a b i j + 1) ∧
      (dpVal a b i j ≤ dpVal a b i (j + 1) ∧
        dpVal a b i (j + 1) ≤ dpVal a b i j + 1) := by
  intro n
  induction n using Nat.strong_induction_on with
  | _ n ih =>
    intro i j hn
    match i, j with
    | 0, 0 =>
      refine ⟨⟨?_, ?_⟩, ⟨?_, ?_⟩⟩ <;>
        simp [dpVal_zero_left, dpVal_zero_right]
    | 0, j + 1 =>
      have h1 := (ih j (by omega) 0 j (by omega)).1.2
      rw [dpVal_zero_left] at h1
      refine ⟨⟨?_, ?_⟩, ⟨?_, ?_⟩⟩
      · simp [dpVal_zero_left]
      · rw [dpVal_succ, dpVal_zero_left, dpVal_zero_left]
        split_ifs with hc <;> omega
      · simp [dpVal_zero_left]
      · simp [dpVal_zero_left]
    | i + 1, 0 =>
      have h1 := (ih i (by omega) i 0 (by omega)).2.2
      rw [dpVal_zero_right] at h1
      refine ⟨⟨?_, ?_⟩, ⟨?_, ?_⟩⟩
      · simp [dpVal_zero_right]
      · simp [dpVal_zero_right]
      · simp [dpVal_zero_right]
      · rw [dpVal_succ, dpVal_zero_right, dpVal_zero_right]
        split_ifs with hc <;> omega
    | i + 1, j + 1 =>
      obtain ⟨⟨h00a, h00b⟩, ⟨h00c, h00d⟩⟩ := ih (i + j) (by omega) i j rfl
      obtain ⟨⟨h10a, h10b⟩, -⟩ := ih (i + 1 + j) (by omega) (i + 1) j rfl
      obtain ⟨-, ⟨h01c, h01d⟩⟩ := ih (i + (j + 1)) (by omega) i (j + 1) rfl
      by_cases c1 : a[i]? = b[j]?
      · have e1 : dpVal a b (i + 1) (j + 1) = dpVal a b i j + 1 := by
          rw [dpVal_succ, if_pos c1]
        refine ⟨⟨?_, ?_⟩, ⟨?_, ?_⟩⟩ <;>
          · rw [e1, dpVal_succ]
            split_ifs <;> first | omega | (rw [e1]; omega)
      · have e1 : dpVal a b (i + 1) (j + 1) =
            max (dpVal a b i (j + 1)) (dpVal a b (i + 1) j) := by
          rw [dpVal_succ, if_neg c1]
        refine ⟨⟨?_, ?_⟩, ⟨?_, ?_⟩⟩ <;>
          · rw [e1, dpVal_succ]
            split_ifs <;> first | omega | (rw [e1]; omega)

/-- Optimality of the DP table: no common sublist of the two prefixes is
longer than `dp[i][j]`. -/
theorem dpVal_is_max (a b : List String) :
    ∀ n i j, i + j = n → i ≤ a.length → j ≤ b.length →
      ∀ Z : List String, Z <+ a.take i → Z <+ b.take j →
        Z.length ≤ dpVal a b i j := by
  intro n
  induction n using Nat.strong_induction_on with
  | _ n ih =>
    intro i j hn hi hj Z hZa hZb
    match i, j with
    | 0, j =>
      rw [List.take_zero, List.sublist_nil] at hZa
      simp [hZa]
    | i + 1, 0 =>
      rw [List.take_zero, List.sublist_nil] at hZb
      simp [hZb]
    | i + 1, j + 1 =>
      have hia : i < a.length := by omega
      have hjb : j < b.length := by omega
      have ha : a[i]? = some a[i] := List.getElem?_eq_getElem hia
      have hb : b[j]? = some b[j] := List.getElem?_eq_getElem hjb
      have hZa' : Z <+ a.take i ++ [a[i]] := by
        rw [List.take_succ, ha] at hZa; simpa using hZa
      have hZb' : Z <+ b.take j ++ [b[j]] := by
        rw [List.take_succ, hb] at hZb; simpa using hZb
      obtain ⟨l₁, l₂, hZeq, hl₁, hl₂⟩ := List.sublist_append_iff.mp hZa'
      rcases List.sublist_cons_iff.mp hl₂ with h2 | ⟨r, hreq, hr⟩
      · -- the last token of the `a`-prefix is unused: `Z <+ a.take i`
        rw [List.sublist_nil] at h2
        subst h2
        have hZa'' : Z <+ a.take i := by rw [hZeq]; simpa using hl₁
        have h1 := ih (i + (j + 1)) (by omega) i (j + 1) rfl (by omega) hj
          Z hZa'' hZb
        have h2 := ((dpVal_adj a b (i + (j + 1)) i (j + 1) rfl).1).1
        omega
      · rw [List.sublist_nil] at hr
        subst hr
        obtain ⟨m₁, m₂, hZeq2, hm₁, hm₂⟩ := List.sublist_append_iff.mp hZb'
        rcases List.sublist_cons_iff.mp hm₂ with h2b | ⟨r2, hr2eq, hr2⟩
        · -- the last token of the `b`-prefix is unused: `Z <+ b.take j`
          rw [List.sublist_nil] at h2b
          subst h2b
          have hZb'' : Z <+ b.take j := by rw [hZeq2]; simpa using hm₁
          have h1 := ih (i + 1 + j) (by omega) (i + 1) j rfl hi (by omega)
            Z hZa hZb''
          have h2 := ((dpVal_adj a b (i + 1 + j) (i + 1) j rfl).2).1
          omega
        · -- both last tokens are used, hence equal: the matched case
          rw [List.sublist_nil] at hr2
          subst hr2
          rw [hreq] at hZeq
          rw [hr2eq] at hZeq2
          have hZeq' : l₁ ++ [a[i]] = m₁ ++ [b[j]] := by rw [← hZeq, ← hZeq2]
          obtain ⟨hl₁m, hlast⟩ := List.append_inj' hZeq' (by simp)
          have hab : a[i] = b[j] := by simpa using hlast
          have hc : a[i]? = b[j]? := by rw [ha, hb, hab]
          have h1 := ih (i + j) (by omega) i j rfl (by omega) (by omega)
            l₁ hl₁ (hl₁m ▸ hm₁)
          rw [dpVal_succ, if_pos hc]
          have : Z.length = l₁.length + 1 := by rw [hZeq]; simp
          omega

theorem lcs_sublist_left (a b : List String) : lcs a b <+ a := by
  have h := (btk_sublist a b (a.length + b.length) a.length b.length rfl
    le_rfl le_rfl).1
  rwa [List.take_length, ← lcs_eq_btk] at h

theorem lcs_sublist_right (a b : List String) : lcs a b <+ b := by
  have h := (btk_sublist a b (a.length + b.length) a.length b.length rfl
    le_rfl le_rfl).2
  rwa [List.take_length, ← lcs_eq_btk] at h

theorem lcs_length (a b : List String) :
    (lcs a b).length = dpVal a b a.length b.length := by
  rw [lcs_eq_btk]
  exact btk_length a b (a.length + b.length) a.length b.length rfl

/-- Any common sublist is at most as long as the computed LCS. -/
theorem length_le_lcs_of_common (a b : List String) (Z : List String)
    (hZa : Z <+ a) (hZb : Z <+ b) : Z.length ≤ (lcs a b).length := by
  rw [lcs_length]
  exact dpVal_is_max a b (a.length + b.length) a.length b.length rfl le_rfl
    le_rfl Z (by rwa [List.take_length]) (by rwa [List.take_length])

theorem btk_diag_take (a : List String) :
    ∀ i, i ≤ a.length → btk a a i i = a.take i := by
  intro i
  induction i with
  | zero => intro _; rw [btk_zero_left, List.take_zero]
  | succ i ih =>
    intro hi
    have hia : i < a.length := by omega
    have ha : a[i]? = some a[i] := List.getElem?_eq_getElem hia
    rw [btk_succ, if_pos rfl, ih (by omega), List.take_succ, ha]
    simp

/-- `lcs` of a list with itself is the list. -/
theorem lcs_self (a : List String) : lcs a a = a := by
  rw [lcs_eq_btk, btk_diag_take a a.length le_rfl, List.take_length]

/-- Replacing one token by a fresh one: the computed LCS is exactly the
other tokens.  This pins down the `common` sequence that `diff2` walks
when its second argument is a single-token replacement. -/
theorem lcs_set_of_not_mem (a : List String) (i : ℕ) (x : String)
    (hi : i < a.length) (hx : x ∉ a) :
    lcs a (a.set i x) = a.take i ++ a.drop (i + 1) := by
  have hbl : (a.set i x).length = a.length := List.length_set a i x
  have hb_decomp : a.set i x = a.take i ++ x :: a.drop (i + 1) := by
    rw [List.set_eq_take_append_cons_drop, if_pos hi]
  have hZa : a.take i ++ a.drop (i + 1) <+ a := by
    conv_rhs => rw [← List.take_append_drop i a, List.drop_eq_getElem_cons hi]
    exact List.Sublist.append (List.Sublist.refl _) (List.sublist_cons_self _ _)
  have hZb : a.take i ++ a.drop (i + 1) <+ a.set i x := by
    rw [hb_decomp]
    exact List.Sublist.append (List.Sublist.refl _) (List.sublist_cons_self _ _)
  have hlen : (a.take i ++ a.drop (i + 1)).length = a.length - 1 := by
    simp only [List.length_append, List.length_take, List.length_drop]
    omega
  have h1 : lcs a (a.set i x) <+ a := lcs_sublist_left _ _
  have h2 : lcs a (a.set i x) <+ a.set i x := lcs_sublist_right _ _
  have hxi : x ≠ a[i] := by
    intro h
    exact hx (h ▸ List.getElem_mem hi)
  have hne : (lcs a (a.set i x)).length ≠ a.length := by
    intro h
    have e1 : lcs a (a.set i x) = a := h1.eq_of_length h
    have e2 : lcs a (a.set i x) = a.set i x := h2.eq_of_length (by rw [h, hbl])
    have hab : a = a.set i x := e1.symm.trans e2
    have hsome : a[i]? = some x := by
      conv_lhs => rw [hab]
      exact List.getElem?_set_self hi
    have : a[i] = x := by
      rw [List.getElem?_eq_getElem hi] at hsome
      exact Option.some.inj hsome
    exact hxi this.symm
  have hge : a.length - 1 ≤ (lcs a (a.set i x)).length := by
    have := length_le_lcs_of_common a (a.set i x) _ hZa hZb
    omega
  have hle : (lcs a (a.set i x)).length ≤ a.length := h1.length_le
  have hlen_eq : (lcs a (a.set i x)).length = a.length - 1 := by omega
  have hxl : x ∉ lcs a (a.set i x) := fun hmem => hx (h1.subset hmem)
  have hfinal : lcs a (a.set i x) <+ a.take i ++ a.drop (i + 1) := by
    have h2' : lcs a (a.set i x) <+ a.take i ++ x :: a.drop (i + 1) :=
      hb_decomp ▸ h2
    obtain ⟨l₁, l₂, heq, hl₁, hl₂⟩ := List.sublist_append_iff.mp h2'
    rcases List.sublist_cons_iff.mp hl₂ with h2c | ⟨r, hreq, hr⟩
    · rw [heq]; exact List.Sublist.append hl₁ h2c
    · exfalso
      exact hxl (by rw [heq, hreq]; simp)
  exact hfinal.eq_of_length (by rw [hlen_eq, hlen])

/-! ## Shape of `diff2` on simple inputs -/

/-- A single-token `keep` op. -/
def keepOp (t : String) : DiffOp := ⟨.keep, [t]⟩

/-- `diff2` of a list against itself is all keeps. -/
theorem diff2Go_diag : ∀ S : List String, diff2Go S S S = S.map keepOp := by
  intro S
  induction S with
  | nil => rfl
  | cons s S' ih =>
    show diff2Go (s :: S') (s :: S') (s :: S') = _
    rw [diff2Go]
    simp only [List.isEmpty_cons, Bool.and_self, Bool.false_eq_true, if_false]
    have htw : (s :: S').takeWhile (· ≠ s) = [] := by
      simp [List.takeWhile_cons]
    simp only [htw, List.isEmpty_nil, if_true, List.length_nil, List.nil_append,
      Nat.zero_add, List.drop_one, List.tail_cons]
    rw [ih]
    rfl

/-- Shape of `diff2Go` when the second list is the first with one token
replaced by a fresh one, walking the LCS `P ++ S`. -/
theorem diff2Go_replace :
    ∀ (P S : List String) (w x : String), x ≠ w → x ∉ S →
      (∀ s0, S.head? = some s0 → w ≠ s0) →
      diff2Go (P ++ w :: S) (P ++ x :: S) (P ++ S) =
        P.map keepOp ++ [⟨.delete, [w]⟩, ⟨.insert, [x]⟩] ++ S.map keepOp := by
  intro P
  induction P with
  | nil =>
    intro S w x hxw hxS hwh
    match S with
    | [] =>
      show diff2Go [w] [x] [] = _
      rw [diff2Go]
      simp
    | s :: S' =>
      show diff2Go (w :: s :: S') (x :: s :: S') (s :: S') = _
      rw [diff2Go]
      have hws : w ≠ s := hwh s rfl
      have hxs : x ≠ s := fun h => hxS (h ▸ List.mem_cons_self s S')
      have htwA : (w :: s :: S').takeWhile (· ≠ s) = [w] := by
        simp [List.takeWhile_cons, hws]
      have htwB : (x :: s :: S').takeWhile (· ≠ s) = [x] := by
        simp [List.takeWhile_cons, hxs]
      simp only [List.isEmpty_cons, Bool.and_self, Bool.false_eq_true, if_false,
        htwA, htwB, List.isEmpty_cons, List.length_cons, List.length_nil]
      rw [show (w :: s :: S').drop (0 + 1 + 1) = S' from rfl,
        show (x :: s :: S').drop (0 + 1 + 1) = S' from rfl,
        diff2Go_diag S']
      simp [keepOp]
  | cons p P' ih =>
    intro S w x hxw hxS hwh
    show diff2Go (p :: (P' ++ w :: S)) (p :: (P' ++ x :: S)) (p :: (P' ++ S)) = _
    rw [diff2Go]
    have htwA : (p :: (P' ++ w :: S)).takeWhile (· ≠ p) = [] := by
      simp [List.takeWhile_cons]
    have htwB : (p :: (P' ++ x :: S)).takeWhile (· ≠ p) = [] := by
      simp [List.takeWhile_cons]
    simp only [List.isEmpty_cons, Bool.and_self, Bool.false_eq_true, if_false,
      htwA, htwB, List.isEmpty_nil, if_true, List.length_nil, List.nil_append,
      Nat.zero_add, List.drop_one, List.tail_cons]
    rw [ih S w x hxw hxS hwh]
    rfl

/-! ## Shape of `processDiff` on simple diffs -/

theorem processDiffGo_keeps :
    ∀ (P : List String) (rest : List DiffOp) (aIdx : ℕ) (s : List String)
      (m : ChangeMap),
      processDiffGo (P.map keepOp ++ rest) aIdx s m =
        processDiffGo rest (aIdx + P.length) s m := by
  intro P
  induction P with
  | nil => intro rest aIdx s m; rfl
  | cons p P' ih =>
    intro rest aIdx s m
    show processDiffGo (⟨DiffType.keep, [p]⟩ :: (P'.map keepOp ++ rest)) aIdx s m = _
    rw [processDiffGo, ih]
    have h : aIdx + ([p] : List String).length + P'.length =
        aIdx + (p :: P').length := by
      simp
      omega
    rw [h]

theorem processDiffGo_keeps_only :
    ∀ (S : List String) (aIdx : ℕ) (s : List String) (m : ChangeMap),
      processDiffGo (S.map keepOp) aIdx s m = (s, m) := by
  intro S
  induction S with
  | nil => intro aIdx s m; rfl
  | cons p S' ih =>
    intro aIdx s m
    show processDiffGo (⟨DiffType.keep, [p]⟩ :: S'.map keepOp) aIdx s m = _
    rw [processDiffGo, ih]

theorem mset_nil (k : ℕ) (v : ChangeInfo) : mset [] k v = [(k, v)] := by
  simp [mset]

theorem mget_singleton (k k' : ℕ) (v : ChangeInfo) :
    mget [(k, v)] k' = if k = k' then some v else none := by
  by_cases h : k = k'
  · subst h; simp [mget, List.find?]
  · have hb : (k == k') = false := beq_eq_false_iff_ne.mpr h
    simp [mget, List.find?, hb, h]

theorem mset_singleton_same (k : ℕ) (v v' : ChangeInfo) :
    mset [(k, v)] k v' = [(k, v')] := by
  simp [mset]

/-- Processing a "replace one token" diff yields no start insertion and a
single change entry: the token at `P.length` is deleted with `[x]`
inserted after it. -/
theorem processDiff_replace (P S : List String) (w x : String) :
    processDiff (P.map keepOp ++ [⟨.delete, [w]⟩, ⟨.insert, [x]⟩] ++ S.map keepOp)
      = ([], [(P.length, ⟨true, [x]⟩)]) := by
  rw [processDiff, List.append_assoc, processDiffGo_keeps]
  show processDiffGo (⟨DiffType.delete, [w]⟩ :: ⟨DiffType.insert, [x]⟩ :: S.map keepOp)
    (0 + P.length) [] [] = _
  rw [processDiffGo]
  simp only [markDeleted, mset_nil, List.length_cons, List.length_nil]
  rw [processDiffGo]
  simp only [msize, List.length_cons, List.length_nil]
  have hcond : ¬(0 + P.length + (0 + 1) = 0 ∧ 0 + 1 = 0) := by omega
  rw [if_neg hcond, if_pos (by omega : 0 < 0 + P.length + (0 + 1))]
  have hidx : 0 + P.length + (0 + 1) - 1 = 0 + P.length := by omega
  rw [hidx, mget_singleton]
  simp only [if_pos rfl, Option.getD_some, mset_singleton_same]
  rw [processDiffGo_keeps_only]
  simp

/-! ## Characterisation of the walk -/

/-- Emission of one position of the walk: the kept token (unless a side
deleted it) followed by the insertion handling. -/
def bucketAt (bm cm : ChangeMap) (p : ℕ) (t : String) : List String :=
  (if !(delOf bm p) && !(delOf cm p) then [t] else []) ++
  (if conflictAtP bm cm p then
      [marker (String.join (insOf bm p)) (String.join (insOf cm p))]
    else insOf bm p ++ insOf cm p)

/-- Flat emission of the walk from position `p`. -/
def walkFlat (bm cm : ChangeMap) : List String → ℕ → List String
  | [], _ => []
  | t :: rest, p => bucketAt bm cm p t ++ walkFlat bm cm rest (p + 1)

/-- Whether any position from `p` on conflicts. -/
def anyConf (bm cm : ChangeMap) : List String → ℕ → Bool
  | [], _ => false
  | _ :: rest, p => decide (conflictAtP bm cm p) || anyConf bm cm rest (p + 1)

/-- The `(b, c)` contents of the conflicting positions, in order. -/
def confPairs (bm cm : ChangeMap) : List String → ℕ → List (String × String)
  | [], _ => []
  | _ :: rest, p =>
    (if conflictAtP bm cm p then
        [(String.join (insOf bm p), String.join (insOf cm p))] else []) ++
    confPairs bm cm rest (p + 1)

theorem walkGo_spec (bm cm : ChangeMap) :
    ∀ (A : List String) (p : ℕ) (acc : List String) (hc : Bool)
      (rs : List ConflictRange),
      (walkGo bm cm A p acc hc rs).1 = acc ++ walkFlat bm cm A p ∧
      (walkGo bm cm A p acc hc rs).2.1 = (hc || anyConf bm cm A p) ∧
      (walkGo bm cm A p acc hc rs).2.2.map (fun r => (r.b, r.c)) =
        rs.map (fun r => (r.b, r.c)) ++ confPairs bm cm A p := by
  intro A
  induction A with
  | nil =>
    intro p acc hc rs
    simp [walkGo, walkFlat, anyConf, confPairs]
  | cons t rest ih =>
    intro p acc hc rs
    rw [walkGo, walkFlat, anyConf, confPairs]
    by_cases c2 : conflictAtP bm cm p
    · have c1 : 0 < (insOf bm p).length ∨ 0 < (insOf cm p).length := Or.inl c2.1
      rw [if_pos c1, if_pos c2]
      obtain ⟨h1, h2, h3⟩ := ih (p + 1)
        ((if !(delOf bm p) && !(delOf cm p) then acc ++ [t] else acc) ++
          [marker (String.join (insOf bm p)) (String.join (insOf cm p))])
        true
        (rs ++ [⟨_, _, String.join (insOf bm p), String.join (insOf cm p)⟩])
      refine ⟨?_, ?_, ?_⟩
      · rw [h1, bucketAt, if_pos c2]
        by_cases hd : !(delOf bm p) && !(delOf cm p) <;> simp [hd]
      · rw [h2]
        simp [c2]
      · rw [h3]
        simp [c2]
    · rw [if_neg c2]
      by_cases c1 : 0 < (insOf bm p).length ∨ 0 < (insOf cm p).length
      · rw [if_pos c1]
        obtain ⟨h1, h2, h3⟩ := ih (p + 1)
          ((if !(delOf bm p) && !(delOf cm p) then acc ++ [t] else acc) ++
            insOf bm p ++ insOf cm p) hc rs
        refine ⟨?_, ?_, ?_⟩
        · rw [h1, bucketAt, if_neg c2]
          by_cases hd : !(delOf bm p) && !(delOf cm p) <;> simp [hd]
        · rw [h2]; simp [c2]
        · rw [h3]; simp [c2]
      · rw [if_neg c1]
        obtain ⟨h1, h2, h3⟩ := ih (p + 1)
          (if !(delOf bm p) && !(delOf cm p) then acc ++ [t] else acc) hc rs
        have hbe : insOf bm p = [] := by
          by_contra h
          exact c1 (Or.inl (List.length_pos.mpr h))
        have hce : insOf cm p = [] := by
          by_contra h
          exact c1 (Or.inr (List.length_pos.mpr h))
        refine ⟨?_, ?_, ?_⟩
        · rw [h1, bucketAt, if_neg c2, hbe, hce]
          by_cases hd : !(delOf bm p) && !(delOf cm p) <;> simp [hd]
        · rw [h2]; simp [c2]
        · rw [h3]; simp [c2]

theorem walkFlat_append (bm cm : ChangeMap) :
    ∀ (l₁ l₂ : List String) (p : ℕ),
      walkFlat bm cm (l₁ ++ l₂) p =
        walkFlat bm cm l₁ p ++ walkFlat bm cm l₂ (p + l₁.length) := by
  intro l₁
  induction l₁ with
  | nil => intro l₂ p; simp [walkFlat]
  | cons t rest ih =>
    intro l₂ p
    rw [List.cons_append, walkFlat, walkFlat, ih, List.append_assoc]
    have h : p + 1 + rest.length = p + (rest.length + 1) := by omega
    rw [h]
    rfl

/-! ## The walk on two disjoint single-token replacements -/

theorem join_cons (s : String) (ts : List String) :
    String.join (s :: ts) = s ++ String.join ts := by
  simp [String.join_eq]
  rfl

theorem insOf_singleton (k p : ℕ) (ci : ChangeInfo) :
    insOf [(k, ci)] p = if k = p then ci.insertionAfter else [] := by
  rw [insOf, mget_singleton]
  by_cases h : k = p <;> simp [h]

theorem delOf_singleton (k p : ℕ) (ci : ChangeInfo) :
    delOf [(k, ci)] p = if k = p then ci.deleted else false := by
  rw [delOf, mget_singleton]
  by_cases h : k = p <;> simp [h]

/-- The per-token emission formula of my own walk, for the proofs below. -/
def replTok (i j : ℕ) (x y : String) : List String → ℕ → List String
  | [], _ => []
  | t :: rest, p =>
    (if p = i then x else if p = j then y else t) :: replTok i j x y rest (p + 1)

/-- With `i ≠ j`, two single-position maps never make the walk's
conflict test fire: each position has at most one side inserting. -/
theorem noConflict_two_singletons (i j : ℕ) (x y : String) (hij : i ≠ j)
    (p : ℕ) : ¬conflictAtP [(i, ⟨true, [x]⟩)] [(j, ⟨true, [y]⟩)] p := by
  intro hcf
  have h1 := hcf.1
  have h2 := hcf.2.1
  rw [insOf_singleton] at h1
  rw [insOf_singleton] at h2
  by_cases hpi : i = p
  · rw [if_neg (fun h : j = p => hij (by omega))] at h2
    simp at h2
  · rw [if_neg hpi] at h1
    simp at h1

theorem walkFlat_two_singletons (i j : ℕ) (x y : String) (hij : i ≠ j) :
    ∀ (A : List String) (p : ℕ),
      walkFlat [(i, ⟨true, [x]⟩)] [(j, ⟨true, [y]⟩)] A p =
        replTok i j x y A p := by
  intro A
  induction A with
  | nil => intro p; rfl
  | cons t rest ih =>
    intro p
    rw [walkFlat, replTok, ih]
    have hbucket : bucketAt [(i, ⟨true, [x]⟩)] [(j, ⟨true, [y]⟩)] p t =
        [if p = i then x else if p = j then y else t] := by
      rw [bucketAt, if_neg (noConflict_two_singletons i j x y hij p),
        insOf_singleton, insOf_singleton, delOf_singleton, delOf_singleton]
      by_cases hpi : i = p
      · have hpj : ¬j = p := fun h => hij (by omega)
        rw [if_pos hpi, if_pos hpi, if_neg hpj, if_neg hpj,
          if_pos hpi.symm]
        simp
      · by_cases hpj : j = p
        · rw [if_pos hpj, if_pos hpj, if_neg hpi, if_neg hpi,
            if_neg (fun h : p = i => hpi h.symm), if_pos hpj.symm]
          simp
        · rw [if_neg hpi, if_neg hpi, if_neg hpj, if_neg hpj,
            if_neg (fun h : p = i => hpi h.symm),
            if_neg (fun h : p = j => hpj h.symm)]
          simp
    rw [hbucket]
    rfl

theorem anyConf_two_singletons (i j : ℕ) (x y : String) (hij : i ≠ j) :
    ∀ (A : List String) (p : ℕ),
      anyConf [(i, ⟨true, [x]⟩)] [(j, ⟨true, [y]⟩)] A p = false := by
  intro A
  induction A with
  | nil => intro p; rfl
  | cons t rest ih =>
    intro p
    rw [anyConf, ih]
    simp [noConflict_two_singletons i j x y hij p]

theorem confPairs_two_singletons (i j : ℕ) (x y : String) (hij : i ≠ j) :
    ∀ (A : List String) (p : ℕ),
      confPairs [(i, ⟨true, [x]⟩)] [(j, ⟨true, [y]⟩)] A p = [] := by
  intro A
  induction A with
  | nil => intro p; rfl
  | cons t rest ih =>
    intro p
    rw [confPairs, ih]
    simp [noConflict_two_singletons i j x y hij p]

theorem replTok_getElem? (i j : ℕ) (x y : String) :
    ∀ (A : List String) (p k : ℕ),
      (replTok i j x y A p)[k]? =
        (A[k]?).map
          (fun t => if p + k = i then x else if p + k = j then y else t) := by
  intro A
  induction A with
  | nil => intro p k; simp [replTok]
  | cons t rest ih =>
    intro p k
    match k with
    | 0 => simp [replTok]
    | k + 1 =>
      rw [replTok, List.getElem?_cons_succ, ih (p + 1) k,
        show p + 1 + k = p + (k + 1) from by omega, List.getElem?_cons_succ]

theorem replTok_eq_set_set (i j : ℕ) (x y : String) (A : List String)
    (hi : i < A.length) (hj : j < A.length) (hij : i ≠ j) :
    replTok i j x y A 0 = (A.set i x).set j y := by
  apply List.ext_getElem?
  intro k
  rw [replTok_getElem?, List.getElem?_set, List.getElem?_set]
  simp only [Nat.zero_add]
  by_cases hki : k = i
  · subst hki
    rw [if_neg (fun h : j = k => hij h.symm), if_pos rfl, if_pos hi,
      List.getElem?_eq_getElem hi]
    simp
  · by_cases hkj : k = j
    · subst hkj
      have hji : ¬k = i := hki
      rw [if_pos rfl, if_pos (by simpa [List.length_set] using hj),
        List.getElem?_eq_getElem hj]
      simp [hji]
    · rw [if_neg (fun h : j = k => hkj h.symm),
        if_neg (fun h : i = k => hki h.symm)]
      cases hA : A[k]? with
      | none => simp
      | some t => simp [hki, hkj]

/-! ## `diff2` and `processDiff` on a single fresh-token replacement -/

theorem diff2_set_shape (A : List String) (i : ℕ) (x : String)
    (hi : i < A.length) (hx : x ∉ A)
    (hadj : ∀ h : i + 1 < A.length, A[i] ≠ A[i + 1]) :
    diff2 A (A.set i x) =
      (A.take i).map keepOp ++ [⟨.delete, [A[i]]⟩, ⟨.insert, [x]⟩] ++
        (A.drop (i + 1)).map keepOp := by
  have hlcs := lcs_set_of_not_mem A i x hi hx
  have hdecompA : A = A.take i ++ A[i] :: A.drop (i + 1) := by
    conv_lhs => rw [← List.take_append_drop i A]
    rw [List.drop_eq_getElem_cons hi]
  have hsetdecomp : A.set i x = A.take i ++ x :: A.drop (i + 1) := by
    rw [List.set_eq_take_append_cons_drop, if_pos hi]
  have hxw : x ≠ A[i] := fun h => hx (h ▸ List.getElem_mem hi)
  have hxS : x ∉ A.drop (i + 1) := fun h => hx ((List.drop_sublist _ _).subset h)
  have hwh : ∀ s0, (A.drop (i + 1)).head? = some s0 → A[i] ≠ s0 := by
    intro s0 hs0
    rw [List.head?_drop] at hs0
    have hlt : i + 1 < A.length := by
      by_contra h
      rw [List.getElem?_eq_none (by omega)] at hs0
      exact Option.noConfusion hs0
    rw [List.getElem?_eq_getElem hlt] at hs0
    have : s0 = A[i + 1] := (Option.some.inj hs0).symm
    rw [this]
    exact hadj hlt
  have hshape := diff2Go_replace (A.take i) (A.drop (i + 1)) (A[i]) x hxw hxS hwh
  rw [← hdecompA] at hshape
  rw [diff2, hlcs, hsetdecomp]
  exact hshape

theorem processDiff_set_shape (A : List String) (i : ℕ) (x : String)
    (hi : i < A.length) (hx : x ∉ A)
    (hadj : ∀ h : i + 1 < A.length, A[i] ≠ A[i + 1]) :
    processDiff (diff2 A (A.set i x)) = ([], [(i, ⟨true, [x]⟩)]) := by
  rw [diff2_set_shape A i x hi hx hadj, processDiff_replace]
  have hlen : (A.take i).length = i := by
    rw [List.length_take]
    omega
  rw [hlen]

/-- **C2.** When the upgraded side replaces one word token of `a` by a
fresh token `x` at position `i` and the customised side replaces a
different position `j` by a fresh `y`, the word merge is conflict-free
and its result is exactly `a`'s token sequence with both replacements
applied. -/
theorem wordMerge3Way_disjoint_replacements (a b c : String) (i j : ℕ)
    (x y : String)
    (hi : i < (tokenize a).length) (hj : j < (tokenize a).length)
    (hij : i ≠ j)
    (hb : tokenize b = (tokenize a).set i x)
    (hc : tokenize c = (tokenize a).set j y)
    (hx : x ∉ tokenize a) (hy : y ∉ tokenize a)
    (hadjx : ∀ h : i + 1 < (tokenize a).length,
      (tokenize a)[i] ≠ (tokenize a)[i + 1])
    (hadjy : ∀ h : j + 1 < (tokenize a).length,
      (tokenize a)[j] ≠ (tokenize a)[j + 1]) :
    wordMerge3Way a b c =
      ⟨String.join (((tokenize a).set i x).set j y), false, []⟩ := by
  have hbp : processDiff (diff2 (tokenize a) (tokenize b)) =
      ([], [(i, ⟨true, [x]⟩)]) := by
    rw [hb]
    exact processDiff_set_shape (tokenize a) i x hi hx hadjx
  have hcp : processDiff (diff2 (tokenize a) (tokenize c)) =
      ([], [(j, ⟨true, [y]⟩)]) := by
    rw [hc]
    exact processDiff_set_shape (tokenize a) j y hj hy hadjy
  simp only [wordMerge3Way]
  rw [hbp, hcp]
  simp only [List.length_nil, Nat.lt_irrefl, or_self, if_false]
  obtain ⟨h1, h2, h3⟩ := walkGo_spec [(i, ⟨true, [x]⟩)] [(j, ⟨true, [y]⟩)]
    (tokenize a) 0 [] false []
  have hmap : (walkGo [(i, ⟨true, [x]⟩)] [(j, ⟨true, [y]⟩)]
      (tokenize a) 0 [] false []).2.2 = [] := by
    rw [confPairs_two_singletons i j x y hij] at h3
    simpa using h3
  rw [WordMergeResult.mk.injEq]
  refine ⟨?_, ?_, hmap⟩
  · rw [h1, walkFlat_two_singletons i j x y hij,
      replTok_eq_set_set i j x y (tokenize a) hi hj hij]
    simp
  · rw [h2, anyConf_two_singletons i j x y hij]
    simp

/-- Witness for C2: the specification's own example, `A = "The quick
brown fox"`, `B` replaces `quick` by `fast` (token position 2), `C`
replaces `brown` by `red` (token position 4). -/
theorem wordMerge3Way_disjoint_replacements_witness :
    tokenize "The fast brown fox" = (tokenize "The quick brown fox").set 2 "fast" ∧
    tokenize "The quick red fox" = (tokenize "The quick brown fox").set 4 "red" ∧
    wordMerge3Way "The quick brown fox" "The fast brown fox" "The quick red fox" =
      ⟨"The fast red fox", false, []⟩ := by
  refine ⟨by decide, by decide, ?_⟩
  have h := wordMerge3Way_disjoint_replacements "The quick brown fox"
    "The fast brown fox" "The quick red fox" 2 4 "fast" "red"
    (by decide) (by decide) (by decide) (by decide) (by decide)
    (by decide) (by decide) (by decide) (by decide)
  rw [h]
  decide

/-! ## Insertion and deletion behaviour of `wordMerge3Way` -/

/-- The `(insertionAtStart, changes)` pair extracted from the word diff
of `a` against a modified side (source locals `bInsertionAtStart` /
`bChanges`, resp. `cInsertionAtStart` / `cChanges`). -/
def sideChanges (a modified : String) : List String × ChangeMap :=
  processDiff (diff2 (tokenize a) (tokenize modified))

theorem startIns_append (b1 c1 : List String) :
    (if 0 < b1.length ∨ 0 < c1.length then b1 ++ c1 else []) = b1 ++ c1 := by
  split_ifs with h
  · rfl
  · push_neg at h
    have hb : b1 = [] := List.eq_nil_of_length_eq_zero (by omega)
    have hc : c1 = [] := List.eq_nil_of_length_eq_zero (by omega)
    rw [hb, hc]
    rfl

/-- `wordMerge3Way` through the walk characterisation: the merged text
joins the two start insertions (B's, then C's) followed by the
per-position emissions; the conflict flag and the recorded `(b, c)`
contents come from the per-position conflict test. -/
theorem wordMerge3Way_spec (a b c : String) :
    (wordMerge3Way a b c).merged =
      String.join (((sideChanges a b).1 ++ (sideChanges a c).1) ++
        walkFlat (sideChanges a b).2 (sideChanges a c).2 (tokenize a) 0) ∧
    (wordMerge3Way a b c).hasConflict =
      anyConf (sideChanges a b).2 (sideChanges a c).2 (tokenize a) 0 ∧
    (wordMerge3Way a b c).conflictRanges.map (fun rg => (rg.b, rg.c)) =
      confPairs (sideChanges a b).2 (sideChanges a c).2 (tokenize a) 0 := by
  simp only [wordMerge3Way, sideChanges]
  rw [startIns_append]
  obtain ⟨h1, h2, h3⟩ := walkGo_spec
    (processDiff (diff2 (tokenize a) (tokenize b))).2
    (processDiff (diff2 (tokenize a) (tokenize c))).2 (tokenize a) 0
    ((processDiff (diff2 (tokenize a) (tokenize b))).1 ++
      (processDiff (diff2 (tokenize a) (tokenize c))).1) false []
  refine ⟨by rw [h1], by rw [h2]; simp, by rw [h3]; simp⟩

theorem anyConf_iff_exists (bm cm : ChangeMap) :
    ∀ (A : List String) (p : ℕ),
      anyConf bm cm A p = true ↔
        ∃ k, k < A.length ∧ conflictAtP bm cm (p + k) := by
  intro A
  induction A with
  | nil =>
    intro p
    simp [anyConf]
  | cons t rest ih =>
    intro p
    rw [anyConf]
    simp only [Bool.or_eq_true, decide_eq_true_eq, ih (p + 1), List.length_cons]
    constructor
    · rintro (h | ⟨k, hk, hc⟩)
      · exact ⟨0, by omega, by simpa using h⟩
      · exact ⟨k + 1, by omega, by rw [show p + (k + 1) = p + 1 + k from by omega]; exact hc⟩
    · rintro ⟨k, hk, hc⟩
      match k with
      | 0 => exact Or.inl (by simpa using hc)
      | k + 1 =>
        exact Or.inr ⟨k, by omega, by rw [show p + 1 + k = p + (k + 1) from by omega]; exact hc⟩

/-- The conflict test reads only the insertion components: any two maps
with the same insertions (and arbitrary deletion flags) produce the same
conflict outcome. -/
theorem anyConf_ins_congr (bm cm bm' cm' : ChangeMap)
    (hb : ∀ p, insOf bm' p = insOf bm p)
    (hc : ∀ p, insOf cm' p = insOf cm p) :
    ∀ (A : List String) (p : ℕ),
      anyConf bm' cm' A p = anyConf bm cm A p := by
  intro A
  induction A with
  | nil => intro p; rfl
  | cons t rest ih =>
    intro p
    rw [anyConf, anyConf, ih]
    have : conflictAtP bm' cm' p ↔ conflictAtP bm cm p := by
      rw [conflictAtP, conflictAtP, hb, hc]
    simp [this]

theorem marker_mem_walkFlat (bm cm : ChangeMap) :
    ∀ (A : List String) (p k : ℕ), k < A.length →
      conflictAtP bm cm (p + k) →
      marker (String.join (insOf bm (p + k))) (String.join (insOf cm (p + k))) ∈
        walkFlat bm cm A p := by
  intro A
  induction A with
  | nil => intro p k hk; simp at hk
  | cons t rest ih =>
    intro p k hk hcf
    rw [walkFlat]
    match k with
    | 0 =>
      apply List.mem_append_left
      rw [bucketAt]
      apply List.mem_append_right
      rw [if_pos (by simpa using hcf)]
      simp
    | k + 1 =>
      apply List.mem_append_right
      have := ih (p + 1) k (by simpa using hk)
        (by rw [show p + 1 + k = p + (k + 1) from by omega]; exact hcf)
      rwa [show p + 1 + k = p + (k + 1) from by omega] at this

/-- **C3, counterexample.** At the insertion point before the first
A-token the two sides inserted different text (`"Big "` vs `"Red "`),
yet `wordMerge3Way` reports no conflict and concatenates both (B first,
then C), contradicting the claim that the conflict rule covers the point
before the first A-token. -/
theorem c3_start_insertion_counterexample :
    (sideChanges "fox" "Big fox").1 = ["Big", " "] ∧
    (sideChanges "fox" "Red fox").1 = ["Red", " "] ∧
    String.join ["Big", " "] ≠ String.join ["Red", " "] ∧
    wordMerge3Way "fox" "Big fox" "Red fox" = ⟨"Big Red fox", false, []⟩ := by
  refine ⟨by decide, by decide, by decide, by decide⟩

/-- **C3 (amended).** For insertion points attached to an A-token
position, the walk conflicts exactly when both sides inserted
non-identical joined content there; each conflicting point contributes a
`(b, c)` record of the two literal insertion strings, in order, and
splices the inline `<<<b|c>>>` marker into the merged token stream; a
point where only one side inserted, or both inserted identical text,
emits both insertion lists (B's, then C's) without any conflict — so an
identical double insertion appears twice.  Insertions before the first
A-token are always emitted (B's, then C's) with no conflict check. -/
theorem wordMerge3Way_insertion_conflict_rule (a b c : String) :
    ((wordMerge3Way a b c).hasConflict = true ↔
      ∃ k, k < (tokenize a).length ∧
        conflictAtP (sideChanges a b).2 (sideChanges a c).2 k) ∧
    ((wordMerge3Way a b c).conflictRanges.map (fun rg => (rg.b, rg.c)) =
      confPairs (sideChanges a b).2 (sideChanges a c).2 (tokenize a) 0) ∧
    (∀ k, k < (tokenize a).length →
      conflictAtP (sideChanges a b).2 (sideChanges a c).2 k →
      marker (String.join (insOf (sideChanges a b).2 k))
          (String.join (insOf (sideChanges a c).2 k)) ∈
        walkFlat (sideChanges a b).2 (sideChanges a c).2 (tokenize a) 0) ∧
    (∀ k t, ¬conflictAtP (sideChanges a b).2 (sideChanges a c).2 k →
      bucketAt (sideChanges a b).2 (sideChanges a c).2 k t =
        (if !(delOf (sideChanges a b).2 k) && !(delOf (sideChanges a c).2 k)
          then [t] else []) ++
        (insOf (sideChanges a b).2 k ++ insOf (sideChanges a c).2 k)) ∧
    ((wordMerge3Way a b c).merged =
      String.join (((sideChanges a b).1 ++ (sideChanges a c).1) ++
        walkFlat (sideChanges a b).2 (sideChanges a c).2 (tokenize a) 0)) := by
  obtain ⟨h1, h2, h3⟩ := wordMerge3Way_spec a b c
  refine ⟨?_, h3, ?_, ?_, h1⟩
  · rw [h2]
    have := anyConf_iff_exists (sideChanges a b).2 (sideChanges a c).2
      (tokenize a) 0
    simpa using this
  · intro k hk hcf
    have := marker_mem_walkFlat (sideChanges a b).2 (sideChanges a c).2
      (tokenize a) 0 k hk (by simpa using hcf)
    simpa using this
  · intro k t hcf
    rw [bucketAt, if_neg hcf]

/-- Witness for the amended C3: the specification's conflicting example
`A = "The quick brown fox"`, `B = "The fast brown fox"`,
`C = "The slow brown fox"` has a conflict at token position 2, records
`(b, c) = ("fast", "slow")`, and splices the inline marker. -/
theorem wordMerge3Way_insertion_conflict_rule_witness :
    (wordMerge3Way "The quick brown fox" "The fast brown fox"
        "The slow brown fox").hasConflict = true ∧
    (wordMerge3Way "The quick brown fox" "The fast brown fox"
        "The slow brown fox").conflictRanges.map (fun rg => (rg.b, rg.c)) =
      [("fast", "slow")] ∧
    (wordMerge3Way "The quick brown fox" "The fast brown fox"
        "The slow brown fox").merged = "The <<<fast|slow>>> brown fox" := by
  obtain ⟨h1, h2, h3, h4, h5⟩ := wordMerge3Way_insertion_conflict_rule
    "The quick brown fox" "The fast brown fox" "The slow brown fox"
  refine ⟨?_, ?_, ?_⟩
  · rw [h1]
    exact ⟨2, by decide, by decide⟩
  · rw [h2]
    decide
  · rw [h5]
    decide

/-- **C4.** Deletion reconciliation of `wordMerge3Way`: the merged token
stream is the start insertions followed by one bucket per A-position;
a deleted position (either side) contributes no kept token, an undeleted
position contributes exactly its A-token, and the conflict flag is
exactly the existence of an insertion-conflicting position — it reads
only the insertion components, so deletions (one- or two-sided) never
contribute a conflict. -/
theorem wordMerge3Way_deletion_reconciliation (a b c : String) :
    ((wordMerge3Way a b c).merged =
      String.join (((sideChanges a b).1 ++ (sideChanges a c).1) ++
        walkFlat (sideChanges a b).2 (sideChanges a c).2 (tokenize a) 0)) ∧
    (∀ k t, ((delOf (sideChanges a b).2 k) || (delOf (sideChanges a c).2 k)) = true →
      bucketAt (sideChanges a b).2 (sideChanges a c).2 k t =
        (if conflictAtP (sideChanges a b).2 (sideChanges a c).2 k then
            [marker (String.join (insOf (sideChanges a b).2 k))
              (String.join (insOf (sideChanges a c).2 k))]
          else insOf (sideChanges a b).2 k ++ insOf (sideChanges a c).2 k)) ∧
    (∀ k t, ((delOf (sideChanges a b).2 k) || (delOf (sideChanges a c).2 k)) = false →
      bucketAt (sideChanges a b).2 (sideChanges a c).2 k t =
        t :: (if conflictAtP (sideChanges a b).2 (sideChanges a c).2 k then
            [marker (String.join (insOf (sideChanges a b).2 k))
              (String.join (insOf (sideChanges a c).2 k))]
          else insOf (sideChanges a b).2 k ++ insOf (sideChanges a c).2 k)) ∧
    ((wordMerge3Way a b c).hasConflict = true ↔
      ∃ k, k < (tokenize a).length ∧
        conflictAtP (sideChanges a b).2 (sideChanges a c).2 k) ∧
    (∀ bm' cm' : ChangeMap,
      (∀ p, insOf bm' p = insOf (sideChanges a b).2 p) →
      (∀ p, insOf cm' p = insOf (sideChanges a c).2 p) →
      anyConf bm' cm' (tokenize a) 0 =
        anyConf (sideChanges a b).2 (sideChanges a c).2 (tokenize a) 0) := by
  obtain ⟨h1, h2, h3⟩ := wordMerge3Way_spec a b c
  refine ⟨h1, ?_, ?_, ?_, ?_⟩
  · intro k t hdel
    rw [bucketAt]
    have : (!(delOf (sideChanges a b).2 k) && !(delOf (sideChanges a c).2 k)) = false := by
      rcases Bool.or_eq_true_iff.mp hdel with h | h <;> simp [h]
    rw [this]
    simp
  · intro k t hdel
    have hb : delOf (sideChanges a b).2 k = false := by
      rcases Bool.or_eq_false_iff.mp hdel with ⟨h, _⟩
      exact h
    have hcdel : delOf (sideChanges a c).2 k = false := by
      rcases Bool.or_eq_false_iff.mp hdel with ⟨_, h⟩
      exact h
    rw [bucketAt, hb, hcdel]
    simp
  · rw [h2]
    have := anyConf_iff_exists (sideChanges a b).2 (sideChanges a c).2
      (tokenize a) 0
    simpa using this
  · intro bm' cm' hbi hci
    exact anyConf_ins_congr _ _ _ _ hbi hci (tokenize a) 0

/-- Witness for C4: a one-sided deletion (`B` drops `brown`) and a
two-sided deletion (`B` and `C` both drop `very`) are honored without
conflict. -/
theorem wordMerge3Way_deletion_reconciliation_witness :
    (delOf (sideChanges "quick brown fox" "quick fox").2 2 ||
      delOf (sideChanges "quick brown fox" "quick brown fox").2 2) = true ∧
    wordMerge3Way "quick brown fox" "quick fox" "quick brown fox" =
      ⟨"quick fox", false, []⟩ ∧
    wordMerge3Way "a very big dog" "a big dog" "a big dog" =
      ⟨"a big dog", false, []⟩ ∧
    (wordMerge3Way "quick brown fox" "quick fox" "quick brown fox").hasConflict
        = false := by
  obtain ⟨h1, h2, h3, h4, h5⟩ := wordMerge3Way_deletion_reconciliation
    "quick brown fox" "quick fox" "quick brown fox"
  refine ⟨by decide, by decide, by decide, ?_⟩
  have hnone : ¬∃ k, k < (tokenize "quick brown fox").length ∧
      conflictAtP (sideChanges "quick brown fox" "quick fox").2
        (sideChanges "quick brown fox" "quick brown fox").2 k := by
    decide
  rcases hhc : (wordMerge3Way "quick brown fox" "quick fox"
      "quick brown fox").hasConflict with _ | _
  · rfl
  · exact absurd (h4.mp hhc) hnone

/-! ## General characterisation of `processDiff ∘ diff2Go` and the walk

For claim C10 (`wordMerge3Way a b a` reproduces `b`) the change map
extracted from an arbitrary `diff2` is described chunk-by-chunk:
`fAttE` is the insertion the first chunk attaches before its own
positions, `delEntries`/`entsBody` are the remaining entries, and `bEm`
is the emission of the walk over them. -/

/-- The insertion run of the first `diff2Go` chunk when that chunk has no
deletions (the run the loop attaches to the position before the chunk,
or records as the start insertion when there is none). -/
def fAttE : List String → List String → List String → List String
  | rA, rB, [] => if rA.isEmpty then rB else []
  | rA, rB, c :: _ =>
    if (rA.takeWhile (· ≠ c)).isEmpty then rB.takeWhile (· ≠ c) else []

/-- Map entries of one deletion run: `k` consecutive deleted positions
from `p`, the last one carrying the following insertion `e`. -/
def delEntries : ℕ → ℕ → List String → ChangeMap
  | _, 0, _ => []
  | p, k + 1, e =>
    if k = 0 then [(p, ⟨true, e⟩)]
    else (p, ⟨true, []⟩) :: delEntries (p + 1) k e

/-- All map entries produced from position `p` on, excluding the first
chunk's attached-before insertion (handled by the caller). -/
def entsBody : List String → ℕ → List String → List String → ChangeMap
  | [], p, rA, rB => if rA.isEmpty then [] else delEntries p rA.length rB
  | c :: com', p, rA, rB =>
    let d := rA.takeWhile (· ≠ c)
    let e := rB.takeWhile (· ≠ c)
    let rA' := rA.drop (d.length + 1)
    let rB' := rB.drop (e.length + 1)
    (if d.isEmpty then [] else delEntries p d.length e) ++
    (if (fAttE rA' rB' com').isEmpty then []
      else [(p + d.length, ⟨false, fAttE rA' rB' com'⟩)]) ++
    entsBody com' (p + d.length + 1) rA' rB'

/-- Expected walk emission from the first chunk on (the first chunk's
attached-before insertion excluded). -/
def bEm : List String → List String → List String → List String
  | [], rA, rB => if rA.isEmpty then [] else rB
  | c :: com', rA, rB =>
    let d := rA.takeWhile (· ≠ c)
    let e := rB.takeWhile (· ≠ c)
    let rA' := rA.drop (d.length + 1)
    let rB' := rB.drop (e.length + 1)
    (if d.isEmpty then [] else e) ++ [c] ++ fAttE rA' rB' com' ++
      bEm com' rA' rB'

/-! ### Decomposition at the first occurrence of a common token -/

theorem takeWhile_ne_decomp {c : String} :
    ∀ l : List String, c ∈ l →
      l = l.takeWhile (· ≠ c) ++
        c :: l.drop ((l.takeWhile (· ≠ c)).length + 1) := by
  intro l
  induction l with
  | nil => intro h; simp at h
  | cons h l' ih =>
    intro hm
    by_cases hhc : h = c
    · subst hhc
      simp [List.takeWhile_cons]
    · have hm' : c ∈ l' := by
        rcases List.mem_cons.mp hm with h1 | h1
        · exact absurd h1.symm hhc
        · exact h1
      have ht : (h :: l').takeWhile (fun x => decide (x ≠ c)) =
          h :: l'.takeWhile (fun x => decide (x ≠ c)) := by
        simp [List.takeWhile_cons, hhc]
      show h :: l' = (h :: l').takeWhile (fun x => decide (x ≠ c)) ++
        c :: (h :: l').drop
          (((h :: l').takeWhile (fun x => decide (x ≠ c))).length + 1)
      rw [ht, List.cons_append]
      congr 1
      show l' = l'.takeWhile (fun x => decide (x ≠ c)) ++
        c :: l'.drop ((l'.takeWhile (fun x => decide (x ≠ c))).length + 1)
      exact ih hm'

theorem sublist_drop_after {c : String} {t : List String} :
    ∀ l : List String, c :: t <+ l →
      t <+ l.drop ((l.takeWhile (· ≠ c)).length + 1) := by
  intro l
  induction l with
  | nil => intro h; exact absurd h (by simp)
  | cons h l' ih =>
    intro hs
    by_cases hhc : h = c
    · subst hhc
      have ht : (h :: l').takeWhile (fun x => decide (x ≠ h)) = [] := by
        simp [List.takeWhile_cons]
      show t <+ (h :: l').drop
        (((h :: l').takeWhile (fun x => decide (x ≠ h))).length + 1)
      rw [ht]
      show t <+ l'
      rcases List.sublist_cons_iff.mp hs with h1 | ⟨r, hr1, hr2⟩
      · exact ((List.sublist_cons_self h t).trans h1)
      · injection hr1 with _ h2
        exact h2 ▸ hr2
    · have ht : (h :: l').takeWhile (fun x => decide (x ≠ c)) =
          h :: l'.takeWhile (fun x => decide (x ≠ c)) := by
        simp [List.takeWhile_cons, hhc]
      show t <+ (h :: l').drop
        (((h :: l').takeWhile (fun x => decide (x ≠ c))).length + 1)
      rw [ht]
      show t <+ l'.drop ((l'.takeWhile (fun x => decide (x ≠ c))).length + 1)
      apply ih
      rcases List.sublist_cons_iff.mp hs with h1 | ⟨r, hr1, hr2⟩
      · exact h1
      · exact absurd (by injection hr1 with h2 _; exact h2.symm) hhc

/-! ### Lookup and update through appended maps -/

theorem mget_append (m₁ m₂ : ChangeMap) (k : ℕ) :
    mget (m₁ ++ m₂) k = (mget m₁ k).or (mget m₂ k) := by
  unfold mget
  rw [List.find?_append]
  cases List.find? (fun p => p.1 == k) m₁ <;> simp

theorem mget_none_of_forall (m : ChangeMap) (k : ℕ)
    (h : ∀ q v, (q, v) ∈ m → q ≠ k) : mget m k = none := by
  unfold mget
  have hf : List.find? (fun p => p.1 == k) m = none := by
    rw [List.find?_eq_none]
    intro x hx
    have hne := h x.1 x.2 (by simpa using hx)
    simp [hne]
  rw [hf]
  rfl

theorem mget_append_left_none (m₁ m₂ : ChangeMap) (k : ℕ)
    (h : mget m₁ k = none) : mget (m₁ ++ m₂) k = mget m₂ k := by
  rw [mget_append, h]
  rfl

theorem mget_cons_self (k : ℕ) (v : ChangeInfo) (m : ChangeMap) :
    mget ((k, v) :: m) k = some v := by
  simp [mget, List.find?]

theorem mget_cons_ne (k k' : ℕ) (v : ChangeInfo) (m : ChangeMap)
    (h : k ≠ k') : mget ((k, v) :: m) k' = mget m k' := by
  unfold mget
  rw [List.find?_cons_of_neg]
  simp [h]

theorem mset_append_fresh (m : ChangeMap) (k : ℕ) (v : ChangeInfo)
    (h : ∀ q w, (q, w) ∈ m → q ≠ k) : mset m k v = m ++ [(k, v)] := by
  unfold mset
  rw [if_neg]
  intro hc
  rw [List.any_eq_true] at hc
  obtain ⟨x, hx, hxk⟩ := hc
  exact h x.1 x.2 (by simpa using hx) (by simpa using hxk)

/-! ### Facts about `delEntries` -/

theorem delEntries_keys :
    ∀ (k p : ℕ) (e : List String) (q : ℕ) (v : ChangeInfo),
      (q, v) ∈ delEntries p k e → p ≤ q ∧ q < p + k := by
  intro k
  induction k with
  | zero => intro p e q v h; simp [delEntries] at h
  | succ k ih =>
    intro p e q v h
    rw [delEntries] at h
    by_cases hk : k = 0
    · subst hk
      rw [if_pos rfl] at h
      simp only [List.mem_singleton, Prod.mk.injEq] at h
      obtain ⟨h1, -⟩ := h
      omega
    · rw [if_neg hk] at h
      rcases List.mem_cons.mp h with h1 | h1
      · have h2 : q = p := congrArg Prod.fst h1
        omega
      · have := ih (p + 1) e q v h1
        omega

theorem delEntries_cons (p k : ℕ) (e : List String) :
    delEntries p (k + 1 + 1) e = (p, ⟨true, []⟩) :: delEntries (p + 1) (k + 1) e := by
  rw [delEntries, if_neg (Nat.succ_ne_zero k)]

theorem mget_delEntries_mid :
    ∀ (k p i : ℕ) (e : List String), i < k →
      mget (delEntries p k e) (p + i) =
        some (if i = k - 1 then ⟨true, e⟩ else ⟨true, []⟩) := by
  intro k
  induction k with
  | zero => intro p i e h; omega
  | succ k ih =>
    intro p i e hi
    by_cases hk : k = 0
    · subst hk
      have hi0 : i = 0 := by omega
      subst hi0
      rw [delEntries, if_pos rfl]
      simp [mget_cons_self]
    · obtain ⟨k', rfl⟩ : ∃ k', k = k' + 1 := ⟨k - 1, by omega⟩
      rw [delEntries_cons]
      by_cases hi0 : i = 0
      · subst hi0
        rw [if_neg (by omega : ¬(0 : ℕ) = k' + 1 + 1 - 1)]
        simp [mget_cons_self]
      · obtain ⟨i', rfl⟩ : ∃ i', i = i' + 1 := ⟨i - 1, by omega⟩
        rw [mget_cons_ne p (p + (i' + 1)) _ _ (by omega)]
        have h2 := ih (p + 1) i' e (by omega)
        have he : p + 1 + i' = p + (i' + 1) := by omega
        rw [he] at h2
        rw [h2]
        by_cases hik : i' = k' + 1 - 1
        · rw [if_pos hik, if_pos (by omega)]
        · rw [if_neg hik, if_neg (by omega)]

theorem delEntries_last_mem :
    ∀ (k p : ℕ) (e : List String), (p + k, (⟨true, e⟩ : ChangeInfo)) ∈
      delEntries p (k + 1) e := by
  intro k
  induction k with
  | zero =>
    intro p e
    rw [delEntries, if_pos rfl]
    simp
  | succ k ih =>
    intro p e
    rw [delEntries_cons]
    refine List.mem_cons.mpr (Or.inr ?_)
    have := ih (p + 1) e
    have he : p + 1 + k = p + (k + 1) := by omega
    rw [he] at this
    exact this

theorem delEntries_map_set :
    ∀ (k p : ℕ) (e : List String),
      (delEntries p (k + 1) []).map
          (fun pr => if pr.1 == p + k then (p + k, (⟨true, e⟩ : ChangeInfo))
            else pr) =
        delEntries p (k + 1) e := by
  intro k
  induction k with
  | zero =>
    intro p e
    rw [delEntries, if_pos rfl, delEntries, if_pos rfl]
    simp
  | succ k ih =>
    intro p e
    rw [delEntries_cons, delEntries_cons, List.map_cons]
    have h1 : ((p, (⟨true, []⟩ : ChangeInfo)).1 == p + (k + 1)) = false := by
      simp
    rw [h1, if_neg Bool.false_ne_true]
    congr 1
    have he : p + (k + 1) = p + 1 + k := by omega
    rw [he]
    exact ih (p + 1) e

theorem mset_delEntries_last (m0 : ChangeMap) (p k : ℕ) (e : List String)
    (h : ∀ q v, (q, v) ∈ m0 → q < p) :
    mset (m0 ++ delEntries p (k + 1) []) (p + k) ⟨true, e⟩ =
      m0 ++ delEntries p (k + 1) e := by
  unfold mset
  rw [if_pos, List.map_append]
  · congr 1
    · refine (List.map_congr_left ?_).trans (List.map_id m0)
      intro x hx
      have hq := h x.1 x.2 (by simpa using hx)
      have : (x.1 == p + k) = false := by simp; omega
      simp [this]
    · exact delEntries_map_set k p e
  · rw [List.any_eq_true]
    exact ⟨(p + k, ⟨true, []⟩), List.mem_append_right _ (delEntries_last_mem k p []),
      by simp⟩

theorem markDeleted_append :
    ∀ (k : ℕ) (m : ChangeMap) (p : ℕ),
      (∀ q v, (q, v) ∈ m → q < p) →
      markDeleted m p k = m ++ delEntries p k [] := by
  intro k
  induction k with
  | zero => intro m p _; simp [markDeleted, delEntries]
  | succ k ih =>
    intro m p h
    rw [markDeleted]
    have hset : mset m p ⟨true, []⟩ = m ++ [(p, ⟨true, []⟩)] :=
      mset_append_fresh m p _ (fun q v hq => by have := h q v hq; omega)
    have hrec := ih (m ++ [(p, ⟨true, []⟩)]) (p + 1) (by
      intro q v hq
      rcases List.mem_append.mp hq with h1 | h1
      · have := h q v h1; omega
      · have h2 : q = p := congrArg Prod.fst (List.mem_singleton.mp h1)
        omega)
    rw [hset, hrec, List.append_assoc]
    congr 1
    cases k with
    | zero => simp [delEntries]
    | succ k' => rw [delEntries_cons]; rfl

theorem mget_append_left_some (m₁ m₂ : ChangeMap) (k : ℕ) (v : ChangeInfo)
    (h : mget m₁ k = some v) : mget (m₁ ++ m₂) k = some v := by
  rw [mget_append, h]
  rfl

theorem mget_delEntries_first (k p : ℕ) (e : List String) (h : 0 < k) :
    mget (delEntries p k e) p =
      some (if k = 1 then ⟨true, e⟩ else ⟨true, []⟩) := by
  have h2 := mget_delEntries_mid k p 0 e h
  rw [Nat.add_zero] at h2
  rw [h2]
  by_cases h1 : k = 1
  · rw [if_pos (by omega : (0 : ℕ) = k - 1), if_pos h1]
  · rw [if_neg (by omega : ¬(0 : ℕ) = k - 1), if_neg h1]

/-! ### The walk with no C-side changes -/

theorem insOf_nil (p : ℕ) : insOf [] p = [] := rfl

theorem delOf_nil (p : ℕ) : delOf [] p = false := rfl

theorem conflictAtP_nil_right (bm : ChangeMap) (p : ℕ) :
    ¬conflictAtP bm [] p := by
  intro h
  obtain ⟨-, h2, -⟩ := h
  rw [insOf_nil] at h2
  simp at h2

theorem bucketAt_nil_right (bm : ChangeMap) (p : ℕ) (t : String) :
    bucketAt bm [] p t =
      (if delOf bm p = false then [t] else []) ++ insOf bm p := by
  rw [bucketAt, if_neg (conflictAtP_nil_right bm p), insOf_nil, delOf_nil]
  cases h : delOf bm p <;> simp [h]

theorem anyConf_nil_right (bm : ChangeMap) :
    ∀ (A : List String) (p : ℕ), anyConf bm [] A p = false := by
  intro A
  induction A with
  | nil => intro p; rfl
  | cons t rest ih =>
    intro p
    rw [anyConf, ih, decide_eq_false (conflictAtP_nil_right bm p)]
    rfl

theorem confPairs_nil_right (bm : ChangeMap) :
    ∀ (A : List String) (p : ℕ), confPairs bm [] A p = [] := by
  intro A
  induction A with
  | nil => intro p; rfl
  | cons t rest ih =>
    intro p
    rw [confPairs, if_neg (conflictAtP_nil_right bm p), ih]
    rfl

theorem insOf_eq_of_mget (m : ChangeMap) (p : ℕ) (v : ChangeInfo)
    (h : mget m p = some v) : insOf m p = v.insertionAfter := by
  rw [insOf, h]
  rfl

theorem insOf_eq_nil_of_mget (m : ChangeMap) (p : ℕ)
    (h : mget m p = none) : insOf m p = [] := by
  rw [insOf, h]
  rfl

theorem delOf_eq_of_mget (m : ChangeMap) (p : ℕ) (v : ChangeInfo)
    (h : mget m p = some v) : delOf m p = v.deleted := by
  rw [delOf, h]
  rfl

theorem delOf_eq_false_of_mget (m : ChangeMap) (p : ℕ)
    (h : mget m p = none) : delOf m p = false := by
  rw [delOf, h]
  rfl

/-- Walking the deleted run of one chunk emits exactly the insertion
attached to its last position. -/
theorem walkFlat_delEntries :
    ∀ (d : List String) (p : ℕ) (e : List String) (mPre mPost : ChangeMap),
      d ≠ [] →
      (∀ q v, (q, v) ∈ mPre → q < p) →
      walkFlat (mPre ++ (delEntries p d.length e ++ mPost)) [] d p = e := by
  intro d
  induction d with
  | nil => intro p e mPre mPost h _; exact absurd rfl h
  | cons t d' ih =>
    intro p e mPre mPost _ hPre
    have hPreNone : mget mPre p = none :=
      mget_none_of_forall mPre p (fun q v hq => by have := hPre q v hq; omega)
    by_cases hd' : d' = []
    · subst hd'
      have hget : mget (mPre ++ (delEntries p [t].length e ++ mPost)) p =
          some ⟨true, e⟩ := by
        rw [mget_append_left_none _ _ _ hPreNone]
        refine mget_append_left_some _ _ _ _ ?_
        have h2 := mget_delEntries_first [t].length p e (by simp)
        rw [if_pos (by simp : [t].length = 1)] at h2
        exact h2
      rw [walkFlat, bucketAt_nil_right, delOf_eq_of_mget _ _ _ hget,
        insOf_eq_of_mget _ _ _ hget, walkFlat]
      simp
    · obtain ⟨n, hn⟩ : ∃ n, d'.length = n + 1 :=
        ⟨d'.length - 1, by have := List.length_pos.mpr hd'; omega⟩
      have hget : mget (mPre ++ (delEntries p (t :: d').length e ++ mPost)) p =
          some ⟨true, []⟩ := by
        rw [mget_append_left_none _ _ _ hPreNone]
        refine mget_append_left_some _ _ _ _ ?_
        have h2 := mget_delEntries_first (t :: d').length p e (by simp)
        rw [if_neg (by simp [hn] : ¬(t :: d').length = 1)] at h2
        exact h2
      have hrw : delEntries p (t :: d').length e ++ mPost =
          (p, (⟨true, []⟩ : ChangeInfo)) ::
            (delEntries (p + 1) d'.length e ++ mPost) := by
        show delEntries p (d'.length + 1) e ++ mPost = _
        rw [hn, delEntries_cons, ← hn]
        rfl
      have hstep : walkFlat (mPre ++ (delEntries p (t :: d').length e ++ mPost))
          [] d' (p + 1) = e := by
        rw [hrw]
        have hassoc : mPre ++ ((p, (⟨true, []⟩ : ChangeInfo)) ::
            (delEntries (p + 1) d'.length e ++ mPost)) =
            (mPre ++ [(p, ⟨true, []⟩)]) ++
              (delEntries (p + 1) d'.length e ++ mPost) := by
          simp
        rw [hassoc]
        refine ih (p + 1) e _ mPost hd' ?_
        intro q v hq
        rcases List.mem_append.mp hq with h1 | h1
        · have := hPre q v h1; omega
        · have h2 : q = p := congrArg Prod.fst (List.mem_singleton.mp h1)
          omega
      rw [walkFlat, bucketAt_nil_right, delOf_eq_of_mget _ _ _ hget,
        insOf_eq_of_mget _ _ _ hget, hstep]
      simp

theorem entsBody_keys :
    ∀ (com : List String) (p : ℕ) (rA rB : List String) (q : ℕ)
      (v : ChangeInfo), (q, v) ∈ entsBody com p rA rB → p ≤ q := by
  intro com
  induction com with
  | nil =>
    intro p rA rB q v h
    rw [entsBody] at h
    split_ifs at h with h1
    · simp at h
    · exact (delEntries_keys _ _ _ _ _ h).1
  | cons c com' ih =>
    intro p rA rB q v h
    simp only [entsBody] at h
    rcases List.mem_append.mp h with h1 | h1
    · rcases List.mem_append.mp h1 with h2 | h2
      · split_ifs at h2 with hd
        · simp at h2
        · exact (delEntries_keys _ _ _ _ _ h2).1
      · split_ifs at h2 with hf
        · simp at h2
        · have h3 : q = p + (rA.takeWhile (· ≠ c)).length :=
            congrArg Prod.fst (List.mem_singleton.mp h2)
          omega
    · have := ih (p + (rA.takeWhile (· ≠ c)).length + 1) _ _ q v h1
      omega

theorem fAttE_nil_nil (com : List String) : fAttE [] [] com = [] := by
  cases com <;> rfl

theorem entsBody_nil_nil :
    ∀ (com : List String) (p : ℕ), entsBody com p [] [] = [] := by
  intro com
  induction com with
  | nil => intro p; rw [entsBody]; rfl
  | cons c com' ih =>
    intro p
    simp [entsBody, fAttE_nil_nil, ih]

/-- The bucket at the kept position of a chunk: the common token followed
by the insertion attached there (if any). -/
theorem bucketAt_attach (m₁ : ChangeMap) (fA : List String) (m₂ : ChangeMap)
    (P : ℕ) (c : String)
    (h₁ : mget m₁ P = none) (h₂ : ∀ q v, (q, v) ∈ m₂ → q ≠ P) :
    bucketAt (m₁ ++ ((if fA.isEmpty then [] else [(P, ⟨false, fA⟩)]) ++ m₂))
      [] P c = [c] ++ fA := by
  by_cases hfA : fA = []
  · subst hfA
    have hred : (if ([] : List String).isEmpty then ([] : ChangeMap)
        else [(P, ⟨false, []⟩)]) = [] := rfl
    rw [hred]
    have hnone : mget (m₁ ++ (([] : ChangeMap) ++ m₂)) P = none := by
      rw [mget_append_left_none _ _ _ h₁]
      show mget m₂ P = none
      exact mget_none_of_forall m₂ P h₂
    rw [bucketAt_nil_right, delOf_eq_false_of_mget _ _ hnone,
      insOf_eq_nil_of_mget _ _ hnone]
    simp
  · have hsome : mget (m₁ ++
        ((if fA.isEmpty then [] else [(P, ⟨false, fA⟩)]) ++ m₂)) P =
        some ⟨false, fA⟩ := by
      rw [mget_append_left_none _ _ _ h₁,
        if_neg (by simpa using hfA : ¬fA.isEmpty = true)]
      show mget ((P, (⟨false, fA⟩ : ChangeInfo)) :: m₂) P = _
      exact mget_cons_self P _ m₂
    rw [bucketAt_nil_right, delOf_eq_of_mget _ _ _ hsome,
      insOf_eq_of_mget _ _ _ hsome]
    simp

/-- Walking the A suffix against the map extracted from its diff chunks
emits exactly the expected chunk emissions. -/
theorem walkFlat_entsBody :
    ∀ (com rA rB : List String) (p : ℕ) (mPre : ChangeMap),
      com <+ rA →
      (∀ q v, (q, v) ∈ mPre → q < p) →
      walkFlat (mPre ++ entsBody com p rA rB) [] rA p = bEm com rA rB := by
  intro com
  induction com with
  | nil =>
    intro rA rB p mPre _ hPre
    rw [entsBody, bEm]
    by_cases hA : rA = []
    · subst hA
      simp [walkFlat]
    · rw [if_neg (by simpa using hA : ¬rA.isEmpty = true),
        if_neg (by simpa using hA : ¬rA.isEmpty = true)]
      have h := walkFlat_delEntries rA p rB mPre [] hA hPre
      simpa using h
  | cons c com' ih =>
    intro rA rB p mPre hsub hPre
    have hcmem : c ∈ rA := hsub.subset (List.mem_cons_self c com')
    simp only [entsBody, bEm]
    set d := rA.takeWhile (· ≠ c) with hd
    set e := rB.takeWhile (· ≠ c) with he
    set rA' := rA.drop (d.length + 1) with hA'
    set rB' := rB.drop (e.length + 1) with hB'
    set fA := fAttE rA' rB' com' with hfA
    set aPart := (if fA.isEmpty then ([] : ChangeMap)
      else [(p + d.length, ⟨false, fA⟩)]) with haP
    set tailM := entsBody com' (p + d.length + 1) rA' rB' with htM
    have hdecomp : rA = d ++ c :: rA' := by
      rw [hA', hd]
      exact takeWhile_ne_decomp rA hcmem
    have hsub' : com' <+ rA' := by
      rw [hA', hd]
      exact sublist_drop_after rA hsub
    rw [hdecomp, walkFlat_append, walkFlat]
    set M0 := mPre ++ ((if d.isEmpty then [] else delEntries p d.length e) ++
      aPart ++ tailM) with hM0
    have hP1 : walkFlat M0 [] d p = (if d.isEmpty then [] else e) := by
      by_cases hdE : d = []
      · rw [hdE, if_pos (by simp : ([] : List String).isEmpty = true)]
        rfl
      · have hne : ¬d.isEmpty = true := by simpa using hdE
        rw [hM0, if_neg hne, if_neg hne]
        have hA2 : mPre ++ (delEntries p d.length e ++ aPart ++ tailM) =
            mPre ++ (delEntries p d.length e ++ (aPart ++ tailM)) := by
          simp
        rw [hA2]
        exact walkFlat_delEntries d p e mPre (aPart ++ tailM) hdE hPre
    have hP2 : bucketAt M0 [] (p + d.length) c = [c] ++ fA := by
      have h₁ : mget (mPre ++
          (if d.isEmpty then [] else delEntries p d.length e))
          (p + d.length) = none := by
        refine mget_none_of_forall _ _ ?_
        intro q v hq
        rcases List.mem_append.mp hq with h1 | h1
        · have := hPre q v h1; omega
        · split_ifs at h1 with hdd
          · simp at h1
          · have := delEntries_keys d.length p e q v h1
            omega
      have h₂ : ∀ q v, (q, v) ∈ tailM → q ≠ p + d.length := by
        intro q v hq
        rw [htM] at hq
        have := entsBody_keys com' _ _ _ q v hq
        omega
      have h3 := bucketAt_attach
        (mPre ++ (if d.isEmpty then [] else delEntries p d.length e))
        fA tailM (p + d.length) c h₁ h₂
      rw [← haP] at h3
      rw [hM0]
      have hA2 : mPre ++ ((if d.isEmpty then [] else delEntries p d.length e) ++
          aPart ++ tailM) =
          (mPre ++ (if d.isEmpty then [] else delEntries p d.length e)) ++
            (aPart ++ tailM) := by
        simp
      rw [hA2]
      exact h3
    have hP3 : walkFlat M0 [] rA' (p + d.length + 1) = bEm com' rA' rB' := by
      rw [hM0]
      have hA3 : mPre ++ ((if d.isEmpty then [] else delEntries p d.length e) ++
          aPart ++ tailM) =
          (mPre ++ ((if d.isEmpty then [] else delEntries p d.length e) ++
            aPart)) ++ tailM := by
        simp
      rw [hA3, htM]
      refine ih rA' rB' (p + d.length + 1) _ hsub' ?_
      intro q v hq
      rcases List.mem_append.mp hq with h1 | h1
      · have := hPre q v h1; omega
      · rcases List.mem_append.mp h1 with h2 | h2
        · split_ifs at h2 with hdd
          · simp at h2
          · have := delEntries_keys d.length p e q v h2
            omega
        · rw [haP] at h2
          split_ifs at h2 with hf
          · simp at h2
          · have h4 : q = p + d.length :=
              congrArg Prod.fst (List.mem_singleton.mp h2)
            omega
    rw [hP1, hP2, hP3]
    simp [List.append_assoc]

theorem fAttE_nil_eq (rA rB : List String) :
    fAttE rA rB [] = if rA.isEmpty then rB else [] := rfl

theorem fAttE_cons (rA rB : List String) (c : String) (l : List String) :
    fAttE rA rB (c :: l) =
      if (rA.takeWhile (· ≠ c)).isEmpty then rB.takeWhile (· ≠ c) else [] := rfl

/-- The combined chunk emissions reproduce the modified token list. -/
theorem fAttE_append_bEm :
    ∀ (com rA rB : List String), com <+ rB →
      fAttE rA rB com ++ bEm com rA rB = rB := by
  intro com
  induction com with
  | nil =>
    intro rA rB _
    by_cases hA : rA = []
    · subst hA
      show (if ([] : List String).isEmpty then rB else []) ++
        (if ([] : List String).isEmpty then [] else rB) = rB
      simp
    · show (if rA.isEmpty then rB else []) ++
        (if rA.isEmpty then [] else rB) = rB
      rw [if_neg (by simpa using hA : ¬rA.isEmpty = true),
        if_neg (by simpa using hA : ¬rA.isEmpty = true)]
      rfl
  | cons c com' ih =>
    intro rA rB hsub
    have hcmem : c ∈ rB := hsub.subset (List.mem_cons_self c com')
    simp only [fAttE_cons, bEm]
    set d := rA.takeWhile (· ≠ c) with hd
    set e := rB.takeWhile (· ≠ c) with he
    set rA' := rA.drop (d.length + 1) with hA'
    set rB' := rB.drop (e.length + 1) with hB'
    have hdecomp : rB = e ++ c :: rB' := by
      rw [hB', he]
      exact takeWhile_ne_decomp rB hcmem
    have hsub' : com' <+ rB' := by
      rw [hB', he]
      exact sublist_drop_after rB hsub
    have hIH := ih rA' rB' hsub'
    by_cases hdE : d = []
    · rw [if_pos (by simpa using hdE : d.isEmpty = true),
        if_pos (by simpa using hdE : d.isEmpty = true), hdecomp]
      simp only [List.nil_append, List.append_assoc]
      rw [hIH]
      rfl
    · rw [if_neg (by simpa using hdE : ¬d.isEmpty = true),
        if_neg (by simpa using hdE : ¬d.isEmpty = true), hdecomp]
      simp only [List.nil_append, List.append_assoc]
      rw [hIH]
      rfl

/-! ### The extraction loop over `diff2Go` chunks -/

theorem processDiff_insert_step (rest : List DiffOp) (toks : List String)
    (p : ℕ) (s0 : List String) (m0 : ChangeMap) (hp : 1 ≤ p)
    (hkeys : ∀ q v, (q, v) ∈ m0 → q + 2 ≤ p) :
    processDiffGo (⟨.insert, toks⟩ :: rest) p s0 m0 =
      processDiffGo rest p s0 (m0 ++ [(p - 1, ⟨false, toks⟩)]) := by
  rw [processDiffGo,
    if_neg (by intro h; omega : ¬(p = 0 ∧ msize m0 = 0)),
    if_pos (by omega : 0 < p)]
  have hnone : mget m0 (p - 1) = none :=
    mget_none_of_forall m0 (p - 1)
      (fun q v hq => by have := hkeys q v hq; omega)
  simp only [hnone, Option.getD_none]
  rw [mset_append_fresh m0 (p - 1) _
    (fun q v hq => by have := hkeys q v hq; omega)]

theorem processDiff_delete_step (rest : List DiffOp) (toks : List String)
    (p : ℕ) (s0 : List String) (m0 : ChangeMap)
    (hkeys : ∀ q v, (q, v) ∈ m0 → q < p) :
    processDiffGo (⟨.delete, toks⟩ :: rest) p s0 m0 =
      processDiffGo rest (p + toks.length) s0
        (m0 ++ delEntries p toks.length []) := by
  rw [processDiffGo, markDeleted_append toks.length m0 p hkeys]

theorem processDiff_insert_after_delete (rest : List DiffOp)
    (toks : List String) (p n : ℕ) (s0 : List String) (m0 : ChangeMap)
    (hkeys : ∀ q v, (q, v) ∈ m0 → q < p) :
    processDiffGo (⟨.insert, toks⟩ :: rest) (p + (n + 1)) s0
        (m0 ++ delEntries p (n + 1) []) =
      processDiffGo rest (p + (n + 1)) s0
        (m0 ++ delEntries p (n + 1) toks) := by
  rw [processDiffGo,
    if_neg (by intro h; omega :
      ¬(p + (n + 1) = 0 ∧ msize (m0 ++ delEntries p (n + 1) []) = 0)),
    if_pos (by omega : 0 < p + (n + 1))]
  have hget : mget (m0 ++ delEntries p (n + 1) []) (p + (n + 1) - 1) =
      some ⟨true, []⟩ := by
    have h1 : p + (n + 1) - 1 = p + n := by omega
    rw [h1, mget_append_left_none _ _ _ (mget_none_of_forall m0 (p + n)
      (fun q v hq => by have := hkeys q v hq; omega))]
    have h2 := mget_delEntries_mid (n + 1) p n [] (by omega)
    rw [if_pos (by omega : n = n + 1 - 1)] at h2
    exact h2
  simp only [hget, Option.getD_some]
  have h1 : p + (n + 1) - 1 = p + n := by omega
  rw [h1, mset_delEntries_last m0 p n toks hkeys]

theorem diff2Go_cons_ne (rA rB : List String) (c : String) (com : List String)
    (h : (rA.isEmpty && rB.isEmpty) = false) :
    diff2Go rA rB (c :: com) =
      (if (rA.takeWhile (· ≠ c)).isEmpty then []
        else [⟨.delete, rA.takeWhile (· ≠ c)⟩]) ++
      (if (rB.takeWhile (· ≠ c)).isEmpty then []
        else [⟨.insert, rB.takeWhile (· ≠ c)⟩]) ++
      [⟨.keep, [c]⟩] ++
      diff2Go (rA.drop ((rA.takeWhile (· ≠ c)).length + 1))
        (rB.drop ((rB.takeWhile (· ≠ c)).length + 1)) com := by
  rw [diff2Go, if_neg (by simp [h])]

/-- Running the extraction loop over the ops of `diff2Go` from position
`p ≥ 1` (just after a kept token): the chunk entries are appended to the
carried map, the first chunk's no-deletion insertion attaching at
`p - 1`. -/
theorem processDiffGo_diff2Go :
    ∀ (com rA rB : List String) (p : ℕ) (s0 : List String) (m0 : ChangeMap),
      1 ≤ p →
      (∀ q v, (q, v) ∈ m0 → q + 2 ≤ p) →
      processDiffGo (diff2Go rA rB com) p s0 m0 =
        (s0, m0 ++
          ((if (fAttE rA rB com).isEmpty then []
            else [(p - 1, ⟨false, fAttE rA rB com⟩)]) ++
          entsBody com p rA rB)) := by
  intro com
  induction com with
  | nil =>
    intro rA rB p s0 m0 hp hkeys
    have hkeys' : ∀ q v, (q, v) ∈ m0 → q < p := fun q v hq => by
      have := hkeys q v hq; omega
    rw [diff2Go]
    by_cases hA : rA = []
    · subst hA
      rw [if_pos (by simp : ([] : List String).isEmpty = true)]
      by_cases hB : rB = []
      · subst hB
        rw [if_pos (by simp : ([] : List String).isEmpty = true)]
        show processDiffGo [] p s0 m0 = _
        rw [processDiffGo]
        simp [fAttE_nil_eq, entsBody]
      · rw [if_neg (by simpa using hB : ¬rB.isEmpty = true)]
        show processDiffGo (⟨DiffType.insert, rB⟩ :: []) p s0 m0 = _
        rw [processDiff_insert_step [] rB p s0 m0 hp hkeys, processDiffGo,
          fAttE_nil_eq, if_pos (by simp : ([] : List String).isEmpty = true),
          if_neg (by simpa using hB : ¬rB.isEmpty = true), entsBody,
          if_pos (by simp : ([] : List String).isEmpty = true)]
        simp
    · rw [if_neg (by simpa using hA : ¬rA.isEmpty = true)]
      by_cases hB : rB = []
      · subst hB
        rw [if_pos (by simp : ([] : List String).isEmpty = true)]
        show processDiffGo (⟨DiffType.delete, rA⟩ :: []) p s0 m0 = _
        rw [processDiff_delete_step [] rA p s0 m0 hkeys', processDiffGo,
          fAttE_nil_eq, if_neg (by simpa using hA : ¬rA.isEmpty = true),
          entsBody, if_neg (by simpa using hA : ¬rA.isEmpty = true)]
        simp
      · rw [if_neg (by simpa using hB : ¬rB.isEmpty = true)]
        show processDiffGo
          (⟨DiffType.delete, rA⟩ :: ⟨DiffType.insert, rB⟩ :: []) p s0 m0 = _
        obtain ⟨n, hn⟩ : ∃ n, rA.length = n + 1 :=
          ⟨rA.length - 1, by have := List.length_pos.mpr hA; omega⟩
        rw [processDiff_delete_step _ rA p s0 m0 hkeys', hn,
          processDiff_insert_after_delete [] rB p n s0 m0 hkeys', processDiffGo,
          fAttE_nil_eq, if_neg (by simpa using hA : ¬rA.isEmpty = true),
          entsBody, if_neg (by simpa using hA : ¬rA.isEmpty = true), hn]
        simp
  | cons c com' ih =>
    intro rA rB p s0 m0 hp hkeys
    have hkeys' : ∀ q v, (q, v) ∈ m0 → q < p := fun q v hq => by
      have := hkeys q v hq; omega
    by_cases hAB : (rA.isEmpty && rB.isEmpty) = true
    · rw [diff2Go, if_pos hAB]
      have h12 := hAB
      rw [Bool.and_eq_true] at h12
      have hA : rA = [] := by simpa using h12.1
      have hB : rB = [] := by simpa using h12.2
      subst hA
      subst hB
      rw [processDiffGo, fAttE_cons, entsBody_nil_nil]
      simp
    · have hAB' : (rA.isEmpty && rB.isEmpty) = false := Bool.eq_false_iff.mpr hAB
      rw [diff2Go_cons_ne rA rB c com' hAB', fAttE_cons]
      simp only [entsBody]
      set d := rA.takeWhile (· ≠ c) with hd
      set e := rB.takeWhile (· ≠ c) with he
      set rA' := rA.drop (d.length + 1) with hA'
      set rB' := rB.drop (e.length + 1) with hB'
      by_cases hdd : d = []
      · have hdIsE : d.isEmpty = true := by simpa using hdd
        rw [if_pos hdIsE, if_pos hdIsE, if_pos hdIsE]
        by_cases hee : e = []
        · have heIsE : e.isEmpty = true := by simpa using hee
          rw [if_pos heIsE]
          show processDiffGo
            (⟨DiffType.keep, [c]⟩ :: diff2Go rA' rB' com') p s0 m0 = _
          rw [processDiffGo]
          show processDiffGo (diff2Go rA' rB' com') (p + 1) s0 m0 = _
          have hIH := ih rA' rB' (p + 1) s0 m0 (by omega)
            (fun q v hq => by have := hkeys q v hq; omega)
          rw [hIH, hee, hdd]
          simp
        · have heIsE : ¬e.isEmpty = true := by simpa using hee
          rw [if_neg heIsE]
          show processDiffGo
            (⟨DiffType.insert, e⟩ :: ⟨DiffType.keep, [c]⟩ ::
              diff2Go rA' rB' com') p s0 m0 = _
          rw [processDiff_insert_step _ e p s0 m0 hp hkeys, processDiffGo]
          show processDiffGo (diff2Go rA' rB' com') (p + 1) s0
            (m0 ++ [(p - 1, ⟨false, e⟩)]) = _
          have hIH := ih rA' rB' (p + 1) s0 (m0 ++ [(p - 1, ⟨false, e⟩)])
            (by omega)
            (fun q v hq => by
              rcases List.mem_append.mp hq with h1 | h1
              · have := hkeys q v h1; omega
              · have h2 : q = p - 1 :=
                  congrArg Prod.fst (List.mem_singleton.mp h1)
                omega)
          rw [hIH, if_neg heIsE, hdd]
          simp
      · have hdIsE : ¬d.isEmpty = true := by simpa using hdd
        rw [if_neg hdIsE, if_neg hdIsE, if_neg hdIsE,
          if_pos (by simp : ([] : List String).isEmpty = true)]
        obtain ⟨n, hn⟩ : ∃ n, d.length = n + 1 :=
          ⟨d.length - 1, by have := List.length_pos.mpr hdd; omega⟩
        by_cases hee : e = []
        · have heIsE : e.isEmpty = true := by simpa using hee
          rw [if_pos heIsE]
          show processDiffGo
            (⟨DiffType.delete, d⟩ :: ⟨DiffType.keep, [c]⟩ ::
              diff2Go rA' rB' com') p s0 m0 = _
          rw [processDiff_delete_step _ d p s0 m0 hkeys', processDiffGo]
          show processDiffGo (diff2Go rA' rB' com') (p + d.length + 1) s0
            (m0 ++ delEntries p d.length []) = _
          have hIH := ih rA' rB' (p + d.length + 1) s0
            (m0 ++ delEntries p d.length []) (by omega)
            (fun q v hq => by
              rcases List.mem_append.mp hq with h1 | h1
              · have := hkeys q v h1; omega
              · have := delEntries_keys d.length p [] q v h1; omega)
          rw [hIH, hee]
          simp
        · have heIsE : ¬e.isEmpty = true := by simpa using hee
          rw [if_neg heIsE]
          show processDiffGo
            (⟨DiffType.delete, d⟩ :: ⟨DiffType.insert, e⟩ ::
              ⟨DiffType.keep, [c]⟩ :: diff2Go rA' rB' com') p s0 m0 = _
          rw [processDiff_delete_step _ d p s0 m0 hkeys', hn,
            processDiff_insert_after_delete _ e p n s0 m0 hkeys', processDiffGo]
          show processDiffGo (diff2Go rA' rB' com') (p + (n + 1) + 1) s0
            (m0 ++ delEntries p (n + 1) e) = _
          have hIH := ih rA' rB' (p + (n + 1) + 1) s0
            (m0 ++ delEntries p (n + 1) e) (by omega)
            (fun q v hq => by
              rcases List.mem_append.mp hq with h1 | h1
              · have := hkeys q v h1; omega
              · have := delEntries_keys (n + 1) p e q v h1; omega)
          rw [hIH]
          simp

/-- Top-level extraction from a full `diff2Go` run: the first chunk's
no-deletion insertion becomes the start insertion and the remaining
entries form the change map. -/
theorem processDiff_diff2Go (rA rB com : List String) :
    processDiff (diff2Go rA rB com) =
      (fAttE rA rB com, entsBody com 0 rA rB) := by
  have hvac : ∀ q v, (q, v) ∈ ([] : ChangeMap) → q < 0 := by
    intro q v hq
    simp at hq
  rw [processDiff]
  cases com with
  | nil =>
    rw [diff2Go]
    by_cases hA : rA = []
    · subst hA
      rw [if_pos (by simp : ([] : List String).isEmpty = true)]
      by_cases hB : rB = []
      · subst hB
        rw [if_pos (by simp : ([] : List String).isEmpty = true)]
        show processDiffGo [] 0 [] [] = _
        rw [processDiffGo]
        simp [fAttE_nil_eq, entsBody]
      · rw [if_neg (by simpa using hB : ¬rB.isEmpty = true)]
        show processDiffGo (⟨DiffType.insert, rB⟩ :: []) 0 [] [] = _
        rw [processDiffGo, if_pos ⟨rfl, rfl⟩, processDiffGo]
        simp [fAttE_nil_eq, entsBody]
    · rw [if_neg (by simpa using hA : ¬rA.isEmpty = true)]
      by_cases hB : rB = []
      · subst hB
        rw [if_pos (by simp : ([] : List String).isEmpty = true)]
        show processDiffGo (⟨DiffType.delete, rA⟩ :: []) 0 [] [] = _
        rw [processDiff_delete_step [] rA 0 [] [] hvac, processDiffGo,
          fAttE_nil_eq, if_neg (by simpa using hA : ¬rA.isEmpty = true),
          entsBody, if_neg (by simpa using hA : ¬rA.isEmpty = true)]
        simp
      · rw [if_neg (by simpa using hB : ¬rB.isEmpty = true)]
        show processDiffGo
          (⟨DiffType.delete, rA⟩ :: ⟨DiffType.insert, rB⟩ :: []) 0 [] [] = _
        obtain ⟨n, hn⟩ : ∃ n, rA.length = n + 1 :=
          ⟨rA.length - 1, by have := List.length_pos.mpr hA; omega⟩
        rw [processDiff_delete_step _ rA 0 [] [] hvac, hn,
          processDiff_insert_after_delete [] rB 0 n [] [] hvac, processDiffGo,
          fAttE_nil_eq, if_neg (by simpa using hA : ¬rA.isEmpty = true),
          entsBody, if_neg (by simpa using hA : ¬rA.isEmpty = true), hn]
        simp
  | cons c com' =>
    by_cases hAB : (rA.isEmpty && rB.isEmpty) = true
    · rw [diff2Go, if_pos hAB]
      have h12 := hAB
      rw [Bool.and_eq_true] at h12
      have hA : rA = [] := by simpa using h12.1
      have hB : rB = [] := by simpa using h12.2
      subst hA
      subst hB
      rw [processDiffGo, fAttE_cons, entsBody_nil_nil]
      simp
    · have hAB' : (rA.isEmpty && rB.isEmpty) = false := Bool.eq_false_iff.mpr hAB
      rw [diff2Go_cons_ne rA rB c com' hAB', fAttE_cons]
      simp only [entsBody]
      set d := rA.takeWhile (· ≠ c) with hd
      set e := rB.takeWhile (· ≠ c) with he
      set rA' := rA.drop (d.length + 1) with hA'
      set rB' := rB.drop (e.length + 1) with hB'
      by_cases hdd : d = []
      · have hdIsE : d.isEmpty = true := by simpa using hdd
        rw [if_pos hdIsE, if_pos hdIsE, if_pos hdIsE]
        by_cases hee : e = []
        · have heIsE : e.isEmpty = true := by simpa using hee
          rw [if_pos heIsE]
          show processDiffGo
            (⟨DiffType.keep, [c]⟩ :: diff2Go rA' rB' com') 0 [] [] = _
          rw [processDiffGo]
          show processDiffGo (diff2Go rA' rB' com') 1 [] [] = _
          have hIH := processDiffGo_diff2Go com' rA' rB' 1 [] [] (by omega)
            (by intro q v hq; simp at hq)
          rw [hIH, hee, hdd]
          simp
        · have heIsE : ¬e.isEmpty = true := by simpa using hee
          rw [if_neg heIsE]
          show processDiffGo
            (⟨DiffType.insert, e⟩ :: ⟨DiffType.keep, [c]⟩ ::
              diff2Go rA' rB' com') 0 [] [] = _
          rw [processDiffGo, if_pos ⟨rfl, rfl⟩, processDiffGo]
          show processDiffGo (diff2Go rA' rB' com') 1 e [] = _
          have hIH := processDiffGo_diff2Go com' rA' rB' 1 e [] (by omega)
            (by intro q v hq; simp at hq)
          rw [hIH, hdd]
          simp
      · have hdIsE : ¬d.isEmpty = true := by simpa using hdd
        rw [if_neg hdIsE, if_neg hdIsE, if_neg hdIsE]
        obtain ⟨n, hn⟩ : ∃ n, d.length = n + 1 :=
          ⟨d.length - 1, by have := List.length_pos.mpr hdd; omega⟩
        by_cases hee : e = []
        · have heIsE : e.isEmpty = true := by simpa using hee
          rw [if_pos heIsE]
          show processDiffGo
            (⟨DiffType.delete, d⟩ :: ⟨DiffType.keep, [c]⟩ ::
              diff2Go rA' rB' com') 0 [] [] = _
          rw [processDiff_delete_step _ d 0 [] [] hvac, processDiffGo]
          show processDiffGo (diff2Go rA' rB' com') (0 + d.length + 1) []
            ([] ++ delEntries 0 d.length []) = _
          have hIH := processDiffGo_diff2Go com' rA' rB' (0 + d.length + 1) []
            ([] ++ delEntries 0 d.length []) (by omega)
            (fun q v hq => by
              rcases List.mem_append.mp hq with h1 | h1
              · simp at h1
              · have := delEntries_keys d.length 0 [] q v h1
                omega)
          rw [hIH, hee]
          simp
        · have heIsE : ¬e.isEmpty = true := by simpa using hee
          rw [if_neg heIsE]
          show processDiffGo
            (⟨DiffType.delete, d⟩ :: ⟨DiffType.insert, e⟩ ::
              ⟨DiffType.keep, [c]⟩ :: diff2Go rA' rB' com') 0 [] [] = _
          rw [processDiff_delete_step _ d 0 [] [] hvac, hn,
            processDiff_insert_after_delete _ e 0 n [] [] hvac, processDiffGo]
          show processDiffGo (diff2Go rA' rB' com') (0 + (n + 1) + 1) []
            ([] ++ delEntries 0 (n + 1) e) = _
          have hIH := processDiffGo_diff2Go com' rA' rB' (0 + (n + 1) + 1) []
            ([] ++ delEntries 0 (n + 1) e) (by omega)
            (fun q v hq => by
              rcases List.mem_append.mp hq with h1 | h1
              · simp at h1
              · have := delEntries_keys (n + 1) 0 e q v h1
                omega)
          rw [hIH]
          simp

/-! ### Concatenating the tokens restores the input -/

theorem string_append_data (a b : String) :
    (a ++ b).data = a.data ++ b.data := by
  cases a
  cases b
  rfl

theorem tokenizeGo_join :
    ∀ (cs cur : List Char) (w : Bool),
      (String.join (tokenizeGo cs cur w)).data = cur ++ cs := by
  intro cs
  induction cs with
  | nil =>
    intro cur w
    rw [tokenizeGo]
    by_cases hc : cur = []
    · rw [if_pos (by simpa using hc : cur.isEmpty = true), hc]
      rfl
    · rw [if_neg (by simpa using hc : ¬cur.isEmpty = true), join_cons]
      show (String.mk cur ++ String.join []).data = cur ++ []
      rw [string_append_data]
      show cur ++ ([] : List Char) = cur ++ []
      rfl
  | cons ch rest ih =>
    intro cur w
    rw [tokenizeGo]
    by_cases h1 : isWordChar ch = w
    · rw [if_pos h1, ih (cur ++ [ch]) w]
      simp
    · rw [if_neg h1]
      by_cases h2 : cur = []
      · rw [if_pos (by simpa using h2 : cur.isEmpty = true),
          ih [ch] (isWordChar ch), h2]
        simp
      · rw [if_neg (by simpa using h2 : ¬cur.isEmpty = true), join_cons,
          string_append_data, ih [ch] (isWordChar ch)]
        show cur ++ ([ch] ++ rest) = cur ++ ch :: rest
        simp

theorem join_tokenize (s : String) : String.join (tokenize s) = s := by
  have h := tokenizeGo_join s.data [] false
  have h2 : (String.join (tokenize s)).data = s.data := by
    rw [tokenize]
    simpa using h
  cases hs : String.join (tokenize s) with
  | mk l =>
    rw [hs] at h2
    cases s with
    | mk l2 =>
      simp at h2
      rw [h2]

/-- **C10.** Word-merge pass-through of the upgraded side: for all
strings `a` and `b`, `wordMerge3Way a b a` (C unchanged from A) returns
`merged` exactly equal to `b`, with `hasConflict = false` and empty
`conflictRanges` — the word-level merge reproduces B verbatim, the
tokenizer partitioning the input so that concatenating its tokens
restores the original string. -/
theorem wordMerge3Way_pass_through (a b : String) :
    wordMerge3Way a b a = ⟨b, false, []⟩ := by
  obtain ⟨h1, h2, h3⟩ := wordMerge3Way_spec a b a
  have hself : sideChanges a a = ([], []) := by
    rw [sideChanges, diff2, lcs_self, diff2Go_diag, processDiff,
      processDiffGo_keeps_only]
  have hself1 : (sideChanges a a).1 = [] := by rw [hself]
  have hself2 : (sideChanges a a).2 = [] := by rw [hself]
  have hb : sideChanges a b =
      (fAttE (tokenize a) (tokenize b) (lcs (tokenize a) (tokenize b)),
        entsBody (lcs (tokenize a) (tokenize b)) 0 (tokenize a)
          (tokenize b)) := by
    rw [sideChanges, diff2, processDiff_diff2Go]
  have hb1 : (sideChanges a b).1 =
      fAttE (tokenize a) (tokenize b) (lcs (tokenize a) (tokenize b)) := by
    rw [hb]
  have hb2 : (sideChanges a b).2 =
      entsBody (lcs (tokenize a) (tokenize b)) 0 (tokenize a)
        (tokenize b) := by
    rw [hb]
  have hw := walkFlat_entsBody (lcs (tokenize a) (tokenize b)) (tokenize a)
    (tokenize b) 0 [] (lcs_sublist_left _ _) (by intro q v hq; simp at hq)
  rw [List.nil_append] at hw
  have hm : (wordMerge3Way a b a).merged = b := by
    rw [h1, hb1, hb2, hself1, hself2, hw]
    have hfold : (fAttE (tokenize a) (tokenize b)
          (lcs (tokenize a) (tokenize b)) ++ []) ++
        bEm (lcs (tokenize a) (tokenize b)) (tokenize a) (tokenize b) =
        fAttE (tokenize a) (tokenize b) (lcs (tokenize a) (tokenize b)) ++
          bEm (lcs (tokenize a) (tokenize b)) (tokenize a) (tokenize b) := by
      simp
    rw [hfold, fAttE_append_bEm (lcs (tokenize a) (tokenize b)) (tokenize a)
      (tokenize b) (lcs_sublist_right _ _), join_tokenize]
  have hhc : (wordMerge3Way a b a).hasConflict = false := by
    rw [h2, hself2, anyConf_nil_right]
  have hrng : (wordMerge3Way a b a).conflictRanges = [] := by
    rw [hself2, confPairs_nil_right] at h3
    exact List.map_eq_nil_iff.mp h3
  have hres : wordMerge3Way a b a =
      ⟨(wordMerge3Way a b a).merged, (wordMerge3Way a b a).hasConflict,
        (wordMerge3Way a b a).conflictRanges⟩ := rfl
  rw [hres, hm, hhc, hrng]

/-! ## Similarity utilities: `cosineSimilarity`
(`src/segmentation/index.ts` lines 310–331)

JavaScript numbers are modelled as `ℝ` and `throw` as `Except.error`.
The loop accumulates `dotProduct`/`normA`/`normB` over the indices of
`a`; it only runs after the length check, where `b[i] ?? 0` always hits
a value, so the iterations are exactly the entries of `a.zip b`. -/

/-- The three loop accumulators `(dotProduct, normA, normB)`. -/
noncomputable def cosineAcc (a b : List ℝ) : ℝ × ℝ × ℝ :=
  (a.zip b).foldl
    (fun s p => (s.1 + p.1 * p.2, s.2.1 + p.1 * p.1, s.2.2 + p.2 * p.2))
    (0, 0, 0)

noncomputable def cosineSimilarity (a b : List ℝ) : Except String ℝ :=
  if a.length ≠ b.length then
    Except.error ("Vector dimensions must match: " ++ toString a.length ++
      " vs " ++ toString b.length)
  else if Real.sqrt (cosineAcc a b).2.1 * Real.sqrt (cosineAcc a b).2.2 = 0 then
    Except.ok 0
  else
    Except.ok ((cosineAcc a b).1 /
      (Real.sqrt (cosineAcc a b).2.1 * Real.sqrt (cosineAcc a b).2.2))

/-- Standard dot product (over the paired entries). -/
noncomputable def dotProduct (a b : List ℝ) : ℝ :=
  ((a.zip b).map (fun p => p.1 * p.2)).sum

/-- Squared Euclidean norm. -/
noncomputable def norm2 (a : List ℝ) : ℝ := (a.map (fun x => x * x)).sum

theorem cosineAcc_foldl :
    ∀ (l : List (ℝ × ℝ)) (d na nb : ℝ),
      l.foldl
        (fun s p => (s.1 + p.1 * p.2, s.2.1 + p.1 * p.1, s.2.2 + p.2 * p.2))
        (d, na, nb) =
        (d + (l.map (fun p => p.1 * p.2)).sum,
          na + (l.map (fun p => p.1 * p.1)).sum,
          nb + (l.map (fun p => p.2 * p.2)).sum) := by
  intro l
  induction l with
  | nil => intro d na nb; simp
  | cons p l ih =>
    intro d na nb
    rw [List.foldl_cons, ih]
    simp only [List.map_cons, List.sum_cons, Prod.mk.injEq]
    exact ⟨by ring, by ring, by ring⟩

theorem norm2_nonneg (a : List ℝ) : 0 ≤ norm2 a := by
  refine List.sum_nonneg ?_
  intro x hx
  rcases List.mem_map.mp hx with ⟨y, -, rfl⟩
  exact mul_self_nonneg y

theorem norm2_eq_zero_iff (a : List ℝ) : norm2 a = 0 ↔ ∀ x ∈ a, x = 0 := by
  induction a with
  | nil => simp [norm2]
  | cons x l ih =>
    have hx2 : (0 : ℝ) ≤ x * x := mul_self_nonneg x
    have hl : (0 : ℝ) ≤ norm2 l := norm2_nonneg l
    have hcons : norm2 (x :: l) = x * x + norm2 l := by
      simp [norm2]
    rw [hcons]
    constructor
    · intro h
      have h1 : x * x = 0 := by nlinarith
      have h2 : norm2 l = 0 := by nlinarith
      intro y hy
      rcases List.mem_cons.mp hy with hy1 | hy1
      · subst hy1; exact mul_self_eq_zero.mp h1
      · exact ih.mp h2 y hy1
    · intro h
      have h1 : x = 0 := h x (List.mem_cons_self x l)
      have h2 : norm2 l = 0 := ih.mpr (fun y hy => h y (List.mem_cons_of_mem x hy))
      rw [h1, h2]
      ring

theorem cosineAcc_eq (a b : List ℝ) (hlen : a.length = b.length) :
    cosineAcc a b = (dotProduct a b, norm2 a, norm2 b) := by
  have hzip1 : (a.zip b).map (fun p => p.1 * p.1) = a.map (fun x => x * x) := by
    have h1 : (a.zip b).map Prod.fst = a := List.map_fst_zip a b (by omega)
    calc (a.zip b).map (fun p => p.1 * p.1)
        = ((a.zip b).map Prod.fst).map (fun x => x * x) := by
          rw [List.map_map]
          rfl
      _ = a.map (fun x => x * x) := by rw [h1]
  have hzip2 : (a.zip b).map (fun p => p.2 * p.2) = b.map (fun x => x * x) := by
    have h1 : (a.zip b).map Prod.snd = b := List.map_snd_zip a b (by omega)
    calc (a.zip b).map (fun p => p.2 * p.2)
        = ((a.zip b).map Prod.snd).map (fun x => x * x) := by
          rw [List.map_map]
          rfl
      _ = b.map (fun x => x * x) := by rw [h1]
  rw [cosineAcc, cosineAcc_foldl]
  simp [dotProduct, norm2, hzip1, hzip2]

/-- **C9.** `cosineSimilarity` errors exactly when the two vectors have
different lengths; for equal lengths it returns `0` whenever either
vector is all-zero (never a division by a zero magnitude), and the
standard dot-product-over-norms value otherwise. -/
theorem cosineSimilarity_spec (a b : List ℝ) :
    ((∃ msg, cosineSimilarity a b = Except.error msg) ↔
      a.length ≠ b.length) ∧
    (a.length = b.length →
      (((∀ x ∈ a, x = 0) ∨ (∀ x ∈ b, x = 0)) →
        cosineSimilarity a b = Except.ok 0) ∧
      (¬((∀ x ∈ a, x = 0) ∨ (∀ x ∈ b, x = 0)) →
        cosineSimilarity a b = Except.ok (dotProduct a b /
          (Real.sqrt (norm2 a) * Real.sqrt (norm2 b))))) := by
  constructor
  · constructor
    · rintro ⟨msg, hmsg⟩
      intro hlen
      rw [cosineSimilarity, if_neg (fun h => h hlen)] at hmsg
      split_ifs at hmsg <;> simp at hmsg
    · intro hne
      exact ⟨_, by rw [cosineSimilarity, if_pos hne]⟩
  · intro hlen
    have hacc := cosineAcc_eq a b hlen
    constructor
    · intro hzero
      have hmag : Real.sqrt (cosineAcc a b).2.1 *
          Real.sqrt (cosineAcc a b).2.2 = 0 := by
        rw [hacc]
        show Real.sqrt (norm2 a) * Real.sqrt (norm2 b) = 0
        rcases hzero with h | h
        · rw [(norm2_eq_zero_iff a).mpr h, Real.sqrt_zero, zero_mul]
        · rw [(norm2_eq_zero_iff b).mpr h, Real.sqrt_zero, mul_zero]
      rw [cosineSimilarity, if_neg (fun h => h hlen), if_pos hmag]
    · intro hnz
      have hmag : ¬(Real.sqrt (cosineAcc a b).2.1 *
          Real.sqrt (cosineAcc a b).2.2 = 0) := by
        rw [hacc]
        show ¬(Real.sqrt (norm2 a) * Real.sqrt (norm2 b) = 0)
        intro h0
        rcases mul_eq_zero.mp h0 with h | h
        · have hle := Real.sqrt_eq_zero'.mp h
          have hz : norm2 a = 0 := le_antisymm hle (norm2_nonneg a)
          exact hnz (Or.inl ((norm2_eq_zero_iff a).mp hz))
        · have hle := Real.sqrt_eq_zero'.mp h
          have hz : norm2 b = 0 := le_antisymm hle (norm2_nonneg b)
          exact hnz (Or.inr ((norm2_eq_zero_iff b).mp hz))
      rw [cosineSimilarity, if_neg (fun h => h hlen), if_neg hmag, hacc]

theorem cosineSimilarity_spec_witness :
    cosineSimilarity [(0 : ℝ)] [(0 : ℝ)] = Except.ok 0 ∧
    cosineSimilarity [(1 : ℝ)] [(1 : ℝ)] =
      Except.ok (dotProduct [(1 : ℝ)] [(1 : ℝ)] /
        (Real.sqrt (norm2 [(1 : ℝ)]) * Real.sqrt (norm2 [(1 : ℝ)]))) :=
  ⟨((cosineSimilarity_spec [(0 : ℝ)] [(0 : ℝ)]).2 rfl).1
      (Or.inl (fun x hx => by simpa using hx)),
    ((cosineSimilarity_spec [(1 : ℝ)] [(1 : ℝ)]).2 rfl).2
      (by
        rintro (h | h)
        · have := h 1 (by simp)
          norm_num at this
        · have := h 1 (by simp)
          norm_num at this)⟩

/-! ## Alignment module (`src/alignment/index.ts`)

Scores are `ℚ`. The embedding provider is out of scope: `align` and the
three strategies take the similarity matrix as a function
`simM : ℕ → ℕ → ℚ` (the source also passes `similarityMatrix` to each
strategy), and `thr` is `opts.matchThreshold`. `SemanticUnit.prefix` and
`.suffix` are Lean keywords/banned names and appear as `pre`/`suf`;
`end` appears as `stop`; the optional `metadata` record is not read by
any verified path and is omitted. JavaScript `Set<number>` is a list
with membership, and stable `Array.prototype.sort` with comparator `c`
is `mergeSort` with `le x y = ¬c y x < 0`. -/

structure SemanticUnit where
  content : String
  hash : String
  index : ℕ
  start : ℕ
  stop : ℕ
  pre : String
  suf : String
  deriving DecidableEq, Repr

structure AlignedPair where
  source : Option SemanticUnit
  target : Option SemanticUnit
  similarity : ℚ
  type : String
  deriving DecidableEq, Repr

structure AlignmentResult where
  pairs : List AlignedPair
  unmatchedSource : List SemanticUnit
  unmatchedTarget : List SemanticUnit
  deriving DecidableEq, Repr

/-- The `dp` table of `sequentialAlign` as a fuelled recurrence
(`fuel ≥ i + j` suffices); rows 0 and columns 0 stay at the initial 0. -/
def dpAF (simM : ℕ → ℕ → ℚ) (thr : ℚ) : ℕ → ℕ → ℕ → ℚ
  | _, 0, _ => 0
  | _, _ + 1, 0 => 0
  | 0, _ + 1, _ + 1 => 0
  | f + 1, i + 1, j + 1 =>
    let sim := simM i j
    let matchScore := dpAF simM thr f i j +
      (if thr ≤ sim then sim else -(0.5 : ℚ))
    let deleteScore := dpAF simM thr f i (j + 1) - (0.1 : ℚ)
    let insertScore := dpAF simM thr f (i + 1) j - (0.1 : ℚ)
    if deleteScore ≤ matchScore ∧ insertScore ≤ matchScore then matchScore
    else if insertScore ≤ deleteScore then deleteScore
    else insertScore

/-- `dp[i][j]` with canonical fuel. -/
def dpA (simM : ℕ → ℕ → ℚ) (thr : ℚ) (i j : ℕ) : ℚ :=
  dpAF simM thr (i + j) i j

/-- The `backtrack` table: edges are prefilled `"delete"`/`"insert"`,
`(0,0)` keeps the initial `""`, and the inner cells record which branch
of the score comparison was taken. -/
def btA (simM : ℕ → ℕ → ℚ) (thr : ℚ) : ℕ → ℕ → String
  | _ + 1, 0 => "delete"
  | 0, _ + 1 => "insert"
  | 0, 0 => ""
  | i + 1, j + 1 =>
    let sim := simM i j
    let matchScore := dpA simM thr i j +
      (if thr ≤ sim then sim else -(0.5 : ℚ))
    let deleteScore := dpA simM thr i (j + 1) - (0.1 : ℚ)
    let insertScore := dpA simM thr (i + 1) j - (0.1 : ℚ)
    if deleteScore ≤ matchScore ∧ insertScore ≤ matchScore then "match"
    else if insertScore ≤ deleteScore then "delete"
    else "insert"

/-- The backtracking `while (i > 0 || j > 0)` loop of `sequentialAlign`
(pairs built via `unshift`), with fuel. -/
def btkAF (src tgt : List SemanticUnit) (simM : ℕ → ℕ → ℚ) (thr : ℚ) :
    ℕ → ℕ → ℕ → List AlignedPair
  | 0, _, _ => []
  | f + 1, i, j =>
    if i = 0 ∧ j = 0 then []
    else if btA simM thr i j = "match" ∧ 0 < i ∧ 0 < j then
      btkAF src tgt simM thr f (i - 1) (j - 1) ++
        [⟨src[i - 1]?, tgt[j - 1]?, simM (i - 1) (j - 1),
          if thr ≤ simM (i - 1) (j - 1) then "match" else "modification"⟩]
    else if btA simM thr i j = "delete" ∧ 0 < i then
      btkAF src tgt simM thr f (i - 1) j ++
        [⟨src[i - 1]?, none, 0, "deletion"⟩]
    else if 0 < j then
      btkAF src tgt simM thr f i (j - 1) ++
        [⟨none, tgt[j - 1]?, 0, "insertion"⟩]
    else []

/-- The backtracking loop at `(i, j)` with canonical fuel. -/
def btkA (src tgt : List SemanticUnit) (simM : ℕ → ℕ → ℚ) (thr : ℚ)
    (i j : ℕ) : List AlignedPair :=
  btkAF src tgt simM thr (i + j) i j

/-- `sequentialAlign`: order-preserving DP alignment. -/
def sequentialAlign (src tgt : List SemanticUnit) (simM : ℕ → ℕ → ℚ)
    (thr : ℚ) : AlignmentResult :=
  ⟨btkA src tgt simM thr src.length tgt.length, [], []⟩

/-- Candidate matches of `semanticAlign`, in row-major order. -/
def semanticCandidates (src tgt : List SemanticUnit) (simM : ℕ → ℕ → ℚ)
    (thr : ℚ) : List (ℕ × ℕ × ℚ) :=
  ((List.range src.length).map (fun i =>
    (List.range tgt.length).filterMap (fun j =>
      if thr ≤ simM i j then some (i, j, simM i j) else none))).flatten

/-- Greedy matching loop of `semanticAlign` over the sorted candidates,
carrying `(pairs, matchedSource, matchedTarget)`. -/
def greedyGo (src tgt : List SemanticUnit) :
    List (ℕ × ℕ × ℚ) → List AlignedPair × List ℕ × List ℕ →
      List AlignedPair × List ℕ × List ℕ
  | [], st => st
  | c :: rest, (ps, ms, mt) =>
    if c.1 ∉ ms ∧ c.2.1 ∉ mt then
      greedyGo src tgt rest
        (ps ++ [⟨src[c.1]?, tgt[c.2.1]?, c.2.2,
          if (0.99 : ℚ) ≤ c.2.2 then "match" else "modification"⟩],
          c.1 :: ms, c.2.1 :: mt)
    else greedyGo src tgt rest (ps, ms, mt)

/-- Sort key of `semanticAlign`'s final sort:
`target?.index ?? source?.index ?? 0`. -/
def pairPos (p : AlignedPair) : ℕ :=
  match p.target with
  | some t => t.index
  | none =>
    match p.source with
    | some s => s.index
    | none => 0

/-- The `(pairs, matchedSource, matchedTarget)` state after the greedy
loop (candidates sorted by similarity descending, stably). -/
def semanticGreedyState (src tgt : List SemanticUnit) (simM : ℕ → ℕ → ℚ)
    (thr : ℚ) : List AlignedPair × List ℕ × List ℕ :=
  greedyGo src tgt
    ((semanticCandidates src tgt simM thr).mergeSort
      (fun x y => decide (y.2.2 ≤ x.2.2)))
    ([], [], [])

/-- `semanticAlign`: greedy order-free matching by similarity, unmatched
units appended as deletions/insertions, final stable sort by position. -/
def semanticAlign (src tgt : List SemanticUnit) (simM : ℕ → ℕ → ℚ)
    (thr : ℚ) : AlignmentResult :=
  ⟨((semanticGreedyState src tgt simM thr).1 ++
    (List.range src.length).filterMap (fun i =>
      if i ∈ (semanticGreedyState src tgt simM thr).2.1 then none
      else some (⟨src[i]?, none, 0, "deletion"⟩ : AlignedPair)) ++
    (List.range tgt.length).filterMap (fun j =>
      if j ∈ (semanticGreedyState src tgt simM thr).2.2 then none
      else some (⟨none, tgt[j]?, 0, "insertion"⟩ : AlignedPair))).mergeSort
    (fun x y => decide (pairPos x ≤ pairPos y)), [], []⟩

/-- One inner-loop body of `hybridAlign`'s move detection: positions
`di`/`ii` of the pair array are the aliased `del`/`ins` objects; a
qualifying pair of a deletion and an insertion mutates both into
modifications. -/
def hybridStep (src tgt : List SemanticUnit) (simM : ℕ → ℕ → ℚ) (thr : ℚ)
    (ps : List AlignedPair) (di ii : ℕ) : List AlignedPair :=
  match ps[di]?, ps[ii]? with
  | some del, some ins =>
    match del.source, ins.target with
    | some ds, some it =>
      if ds ∈ src ∧ it ∈ tgt then
        if thr ≤ simM (src.indexOf ds) (tgt.indexOf it) then
          (ps.set di ⟨some ds, some it,
            simM (src.indexOf ds) (tgt.indexOf it), "modification"⟩).set ii
            ⟨some ds, ins.target, ins.similarity, "modification"⟩
        else ps
      else ps
    | _, _ => ps
  | _, _ => ps

/-- Key of the post-move deduplication:
`source?.hash ?? "null"` - `target?.hash ?? "null"`. -/
def pairKey (p : AlignedPair) : String :=
  (match p.source with | some s => s.hash | none => "null") ++ "-" ++
  (match p.target with | some t => t.hash | none => "null")

/-- The `seen`-set filter keeping the first pair of each key. -/
def dedupGo : List AlignedPair → List String → List AlignedPair
  | [], _ => []
  | p :: rest, seen =>
    if pairKey p ∈ seen then dedupGo rest seen
    else p :: dedupGo rest (pairKey p :: seen)

/-- Positions of the sequential result's pairs whose (original) type is
`ty` — the `filter` snapshots taken before any mutation. -/
def hybridIdxs (src tgt : List SemanticUnit) (simM : ℕ → ℕ → ℚ) (thr : ℚ)
    (ty : String) : List ℕ :=
  (List.range (sequentialAlign src tgt simM thr).pairs.length).filter
    (fun p => decide
      ((((sequentialAlign src tgt simM thr).pairs[p]?).map
        (fun q => q.type)).getD "" = ty))

/-- The pair array after the nested move-detection loops. -/
def hybridMutated (src tgt : List SemanticUnit) (simM : ℕ → ℕ → ℚ)
    (thr : ℚ) : List AlignedPair :=
  (hybridIdxs src tgt simM thr "deletion").foldl
    (fun ps di =>
      (hybridIdxs src tgt simM thr "insertion").foldl
        (fun ps2 ii => hybridStep src tgt simM thr ps2 di ii) ps)
    (sequentialAlign src tgt simM thr).pairs

/-- `hybridAlign`: sequential first, then move reclassification over the
(original) deletion/insertion positions, then deduplication. -/
def hybridAlign (src tgt : List SemanticUnit) (simM : ℕ → ℕ → ℚ)
    (thr : ℚ) : AlignmentResult :=
  ⟨dedupGo (hybridMutated src tgt simM thr) [], [], []⟩

/-- `align`: edge cases for empty inputs, then strategy dispatch
(`"hybrid"` is also the `default` case of the `switch`). -/
def align (src tgt : List SemanticUnit) (strategy : String)
    (simM : ℕ → ℕ → ℚ) (thr : ℚ) : AlignmentResult :=
  if src.length = 0 ∧ tgt.length = 0 then ⟨[], [], []⟩
  else if src.length = 0 then
    ⟨tgt.map (fun t => ⟨none, some t, 0, "insertion"⟩), [], []⟩
  else if tgt.length = 0 then
    ⟨src.map (fun s => ⟨some s, none, 0, "deletion"⟩), [], []⟩
  else if strategy = "sequential" then sequentialAlign src tgt simM thr
  else if strategy = "semantic" then semanticAlign src tgt simM thr
  else hybridAlign src tgt simM thr

/-! ### The sequential DP as stated by the spec

`dpSpec`/`btSpec`/`pairsSpec` follow the specification's words: match =
diagonal + (similarity if ≥ threshold else −0.5), delete = up − 0.1,
insert = left − 0.1, ties preferring match, then delete, then insert;
backtracking from `(m, n)` to `(0, 0)` recovers the pairs in original
order, tagging a matched pair `"modification"` exactly when its
similarity is below the threshold. -/

def dpSpec (simM : ℕ → ℕ → ℚ) (thr : ℚ) : ℕ → ℕ → ℚ
  | 0, _ => 0
  | _ + 1, 0 => 0
  | i + 1, j + 1 =>
    if dpSpec simM thr i (j + 1) - (0.1 : ℚ) ≤
        dpSpec simM thr i j +
          (if thr ≤ simM i j then simM i j else -(0.5 : ℚ)) ∧
      dpSpec simM thr (i + 1) j - (0.1 : ℚ) ≤
        dpSpec simM thr i j +
          (if thr ≤ simM i j then simM i j else -(0.5 : ℚ)) then
      dpSpec simM thr i j +
        (if thr ≤ simM i j then simM i j else -(0.5 : ℚ))
    else if dpSpec simM thr (i + 1) j - (0.1 : ℚ) ≤
        dpSpec simM thr i (j + 1) - (0.1 : ℚ) then
      dpSpec simM thr i (j + 1) - (0.1 : ℚ)
    else dpSpec simM thr (i + 1) j - (0.1 : ℚ)
termination_by i j => (i, j)

def btSpec (simM : ℕ → ℕ → ℚ) (thr : ℚ) : ℕ → ℕ → String
  | _ + 1, 0 => "delete"
  | 0, _ + 1 => "insert"
  | 0, 0 => ""
  | i + 1, j + 1 =>
    if dpSpec simM thr i (j + 1) - (0.1 : ℚ) ≤
        dpSpec simM thr i j +
          (if thr ≤ simM i j then simM i j else -(0.5 : ℚ)) ∧
      dpSpec simM thr (i + 1) j - (0.1 : ℚ) ≤
        dpSpec simM thr i j +
          (if thr ≤ simM i j then simM i j else -(0.5 : ℚ)) then "match"
    else if dpSpec simM thr (i + 1) j - (0.1 : ℚ) ≤
        dpSpec simM thr i (j + 1) - (0.1 : ℚ) then "delete"
    else "insert"

def pairsSpec (src tgt : List SemanticUnit) (simM : ℕ → ℕ → ℚ) (thr : ℚ) :
    ℕ → ℕ → List AlignedPair
  | 0, 0 => []
  | i + 1, 0 =>
    pairsSpec src tgt simM thr i 0 ++ [⟨src[i]?, none, 0, "deletion"⟩]
  | 0, j + 1 =>
    pairsSpec src tgt simM thr 0 j ++ [⟨none, tgt[j]?, 0, "insertion"⟩]
  | i + 1, j + 1 =>
    if btSpec simM thr (i + 1) (j + 1) = "match" then
      pairsSpec src tgt simM thr i j ++
        [⟨src[i]?, tgt[j]?, simM i j,
          if thr ≤ simM i j then "match" else "modification"⟩]
    else if btSpec simM thr (i + 1) (j + 1) = "delete" then
      pairsSpec src tgt simM thr i (j + 1) ++
        [⟨src[i]?, none, 0, "deletion"⟩]
    else
      pairsSpec src tgt simM thr (i + 1) j ++
        [⟨none, tgt[j]?, 0, "insertion"⟩]
termination_by i j => (i, j)

theorem dpAF_zero_left (simM : ℕ → ℕ → ℚ) (thr : ℚ) (f j : ℕ) :
    dpAF simM thr f 0 j = 0 := by
  cases f <;> rfl

theorem dpAF_zero_right (simM : ℕ → ℕ → ℚ) (thr : ℚ) (f i : ℕ) :
    dpAF simM thr f i 0 = 0 := by
  cases f <;> cases i <;> rfl

theorem dpAF_fuel (simM : ℕ → ℕ → ℚ) (thr : ℚ) :
    ∀ f g i j, i + j ≤ f → i + j ≤ g →
      dpAF simM thr f i j = dpAF simM thr g i j := by
  intro f
  induction f with
  | zero =>
    intro g i j hf _
    obtain ⟨rfl, rfl⟩ : i = 0 ∧ j = 0 := by omega
    rw [dpAF_zero_left, dpAF_zero_left]
  | succ f ih =>
    intro g i j hf hg
    match i, j with
    | 0, j => rw [dpAF_zero_left, dpAF_zero_left]
    | i + 1, 0 => rw [dpAF_zero_right, dpAF_zero_right]
    | i + 1, j + 1 =>
      obtain ⟨g', rfl⟩ : ∃ g', g = g' + 1 := ⟨g - 1, by omega⟩
      show dpAF simM thr (f + 1) (i + 1) (j + 1) =
        dpAF simM thr (g' + 1) (i + 1) (j + 1)
      simp only [dpAF]
      rw [ih g' i j (by omega) (by omega),
        ih g' i (j + 1) (by omega) (by omega),
        ih g' (i + 1) j (by omega) (by omega)]

theorem dpA_zero_left (simM : ℕ → ℕ → ℚ) (thr : ℚ) (j : ℕ) :
    dpA simM thr 0 j = 0 :=
  dpAF_zero_left simM thr (0 + j) j

theorem dpA_zero_right (simM : ℕ → ℕ → ℚ) (thr : ℚ) (i : ℕ) :
    dpA simM thr i 0 = 0 :=
  dpAF_zero_right simM thr (i + 0) i

theorem dpA_succ (simM : ℕ → ℕ → ℚ) (thr : ℚ) (i j : ℕ) :
    dpA simM thr (i + 1) (j + 1) =
      if dpA simM thr i (j + 1) - (0.1 : ℚ) ≤
          dpA simM thr i j +
            (if thr ≤ simM i j then simM i j else -(0.5 : ℚ)) ∧
        dpA simM thr (i + 1) j - (0.1 : ℚ) ≤
          dpA simM thr i j +
            (if thr ≤ simM i j then simM i j else -(0.5 : ℚ)) then
        dpA simM thr i j +
          (if thr ≤ simM i j then simM i j else -(0.5 : ℚ))
      else if dpA simM thr (i + 1) j - (0.1 : ℚ) ≤
          dpA simM thr i (j + 1) - (0.1 : ℚ) then
        dpA simM thr i (j + 1) - (0.1 : ℚ)
      else dpA simM thr (i + 1) j - (0.1 : ℚ) := by
  show dpAF simM thr (i + 1 + (j + 1)) (i + 1) (j + 1) = _
  have h : i + 1 + (j + 1) = (i + j + 1) + 1 := by omega
  rw [h]
  simp only [dpAF, dpA]
  rw [dpAF_fuel simM thr (i + j + 1) (i + j) i j (by omega) (by omega),
    dpAF_fuel simM thr (i + j + 1) (i + (j + 1)) i (j + 1) (by omega)
      (by omega),
    dpAF_fuel simM thr (i + j + 1) (i + 1 + j) (i + 1) j (by omega)
      (by omega)]

theorem dpSpec_zero_left (simM : ℕ → ℕ → ℚ) (thr : ℚ) (j : ℕ) :
    dpSpec simM thr 0 j = 0 := by
  simp only [dpSpec]

theorem dpSpec_zero_right (simM : ℕ → ℕ → ℚ) (thr : ℚ) (i : ℕ) :
    dpSpec simM thr i 0 = 0 := by
  cases i <;> simp only [dpSpec]

theorem dpA_eq_dpSpecN (simM : ℕ → ℕ → ℚ) (thr : ℚ) :
    ∀ N i j, i + j ≤ N → dpA simM thr i j = dpSpec simM thr i j := by
  intro N
  induction N with
  | zero =>
    intro i j h
    obtain ⟨rfl, rfl⟩ : i = 0 ∧ j = 0 := by omega
    rw [dpA_zero_left, dpSpec_zero_left]
  | succ N ih =>
    intro i j h
    match i, j with
    | 0, j => rw [dpA_zero_left, dpSpec_zero_left]
    | i + 1, 0 => rw [dpA_zero_right, dpSpec_zero_right]
    | i + 1, j + 1 =>
      rw [dpA_succ, ih i j (by omega), ih i (j + 1) (by omega),
        ih (i + 1) j (by omega)]
      rw [show dpSpec simM thr (i + 1) (j + 1) =
        (if dpSpec simM thr i (j + 1) - (0.1 : ℚ) ≤
            dpSpec simM thr i j +
              (if thr ≤ simM i j then simM i j else -(0.5 : ℚ)) ∧
          dpSpec simM thr (i + 1) j - (0.1 : ℚ) ≤
            dpSpec simM thr i j +
              (if thr ≤ simM i j then simM i j else -(0.5 : ℚ)) then
          dpSpec simM thr i j +
            (if thr ≤ simM i j then simM i j else -(0.5 : ℚ))
        else if dpSpec simM thr (i + 1) j - (0.1 : ℚ) ≤
            dpSpec simM thr i (j + 1) - (0.1 : ℚ) then
          dpSpec simM thr i (j + 1) - (0.1 : ℚ)
        else dpSpec simM thr (i + 1) j - (0.1 : ℚ)) from by
          simp only [dpSpec]]

theorem dpA_eq_dpSpec (simM : ℕ → ℕ → ℚ) (thr : ℚ) (i j : ℕ) :
    dpA simM thr i j = dpSpec simM thr i j :=
  dpA_eq_dpSpecN simM thr (i + j) i j le_rfl

theorem btA_eq_btSpec (simM : ℕ → ℕ → ℚ) (thr : ℚ) (i j : ℕ) :
    btA simM thr i j = btSpec simM thr i j := by
  match i, j with
  | 0, 0 => rfl
  | i + 1, 0 => rfl
  | 0, j + 1 => rfl
  | i + 1, j + 1 =>
    show (if dpA simM thr i (j + 1) - (0.1 : ℚ) ≤
          dpA simM thr i j +
            (if thr ≤ simM i j then simM i j else -(0.5 : ℚ)) ∧
        dpA simM thr (i + 1) j - (0.1 : ℚ) ≤
          dpA simM thr i j +
            (if thr ≤ simM i j then simM i j else -(0.5 : ℚ)) then "match"
      else if dpA simM thr (i + 1) j - (0.1 : ℚ) ≤
          dpA simM thr i (j + 1) - (0.1 : ℚ) then "delete"
      else "insert") = btSpec simM thr (i + 1) (j + 1)
    rw [dpA_eq_dpSpec, dpA_eq_dpSpec, dpA_eq_dpSpec]
    rw [show btSpec simM thr (i + 1) (j + 1) =
      (if dpSpec simM thr i (j + 1) - (0.1 : ℚ) ≤
          dpSpec simM thr i j +
            (if thr ≤ simM i j then simM i j else -(0.5 : ℚ)) ∧
        dpSpec simM thr (i + 1) j - (0.1 : ℚ) ≤
          dpSpec simM thr i j +
            (if thr ≤ simM i j then simM i j else -(0.5 : ℚ)) then "match"
      else if dpSpec simM thr (i + 1) j - (0.1 : ℚ) ≤
          dpSpec simM thr i (j + 1) - (0.1 : ℚ) then "delete"
      else "insert") from by simp only [btSpec]]

theorem btkAF_zero_zero (src tgt : List SemanticUnit) (simM : ℕ → ℕ → ℚ)
    (thr : ℚ) (f : ℕ) : btkAF src tgt simM thr f 0 0 = [] := by
  cases f <;> rfl

theorem btkAF_fuel (src tgt : List SemanticUnit) (simM : ℕ → ℕ → ℚ)
    (thr : ℚ) :
    ∀ f g i j, i + j ≤ f → i + j ≤ g →
      btkAF src tgt simM thr f i j = btkAF src tgt simM thr g i j := by
  intro f
  induction f with
  | zero =>
    intro g i j hf _
    obtain ⟨rfl, rfl⟩ : i = 0 ∧ j = 0 := by omega
    rw [btkAF_zero_zero, btkAF_zero_zero]
  | succ f ih =>
    intro g i j hf hg
    by_cases hz : i = 0 ∧ j = 0
    · obtain ⟨rfl, rfl⟩ := hz
      rw [btkAF_zero_zero, btkAF_zero_zero]
    · obtain ⟨g', rfl⟩ : ∃ g', g = g' + 1 := ⟨g - 1, by omega⟩
      rw [btkAF, btkAF, if_neg hz, if_neg hz]
      by_cases h1 : btA simM thr i j = "match" ∧ 0 < i ∧ 0 < j
      · rw [if_pos h1, if_pos h1]
        obtain ⟨-, hi, hj⟩ := h1
        rw [ih g' (i - 1) (j - 1) (by omega) (by omega)]
      · rw [if_neg h1, if_neg h1]
        by_cases h2 : btA simM thr i j = "delete" ∧ 0 < i
        · rw [if_pos h2, if_pos h2]
          obtain ⟨-, hi⟩ := h2
          rw [ih g' (i - 1) j (by omega) (by omega)]
        · rw [if_neg h2, if_neg h2]
          by_cases h3 : 0 < j
          · rw [if_pos h3, if_pos h3,
              ih g' i (j - 1) (by omega) (by omega)]
          · rw [if_neg h3, if_neg h3]

theorem pairsSpec_zero (src tgt : List SemanticUnit) (simM : ℕ → ℕ → ℚ)
    (thr : ℚ) : pairsSpec src tgt simM thr 0 0 = [] := by
  simp only [pairsSpec]

theorem pairsSpec_del (src tgt : List SemanticUnit) (simM : ℕ → ℕ → ℚ)
    (thr : ℚ) (i : ℕ) :
    pairsSpec src tgt simM thr (i + 1) 0 =
      pairsSpec src tgt simM thr i 0 ++ [⟨src[i]?, none, 0, "deletion"⟩] := by
  simp only [pairsSpec]

theorem pairsSpec_ins (src tgt : List SemanticUnit) (simM : ℕ → ℕ → ℚ)
    (thr : ℚ) (j : ℕ) :
    pairsSpec src tgt simM thr 0 (j + 1) =
      pairsSpec src tgt simM thr 0 j ++ [⟨none, tgt[j]?, 0, "insertion"⟩] := by
  simp only [pairsSpec]

theorem pairsSpec_succ (src tgt : List SemanticUnit) (simM : ℕ → ℕ → ℚ)
    (thr : ℚ) (i j : ℕ) :
    pairsSpec src tgt simM thr (i + 1) (j + 1) =
      if btSpec simM thr (i + 1) (j + 1) = "match" then
        pairsSpec src tgt simM thr i j ++
          [⟨src[i]?, tgt[j]?, simM i j,
            if thr ≤ simM i j then "match" else "modification"⟩]
      else if btSpec simM thr (i + 1) (j + 1) = "delete" then
        pairsSpec src tgt simM thr i (j + 1) ++
          [⟨src[i]?, none, 0, "deletion"⟩]
      else
        pairsSpec src tgt simM thr (i + 1) j ++
          [⟨none, tgt[j]?, 0, "insertion"⟩] := by
  simp only [pairsSpec]

theorem btA_succ_eq (simM : ℕ → ℕ → ℚ) (thr : ℚ) (i j : ℕ) :
    btA simM thr (i + 1) (j + 1) =
      if dpA simM thr i (j + 1) - (0.1 : ℚ) ≤
          dpA simM thr i j +
            (if thr ≤ simM i j then simM i j else -(0.5 : ℚ)) ∧
        dpA simM thr (i + 1) j - (0.1 : ℚ) ≤
          dpA simM thr i j +
            (if thr ≤ simM i j then simM i j else -(0.5 : ℚ)) then "match"
      else if dpA simM thr (i + 1) j - (0.1 : ℚ) ≤
          dpA simM thr i (j + 1) - (0.1 : ℚ) then "delete"
      else "insert" := by
  simp only [btA]

theorem btA_values (simM : ℕ → ℕ → ℚ) (thr : ℚ) (i j : ℕ) :
    btA simM thr (i + 1) (j + 1) = "match" ∨
    btA simM thr (i + 1) (j + 1) = "delete" ∨
    btA simM thr (i + 1) (j + 1) = "insert" := by
  rw [btA_succ_eq]
  split_ifs <;> simp

theorem btkA_eq_pairsSpecN (src tgt : List SemanticUnit)
    (simM : ℕ → ℕ → ℚ) (thr : ℚ) :
    ∀ N i j, i + j ≤ N →
      btkA src tgt simM thr i j = pairsSpec src tgt simM thr i j := by
  intro N
  induction N with
  | zero =>
    intro i j h
    obtain ⟨rfl, rfl⟩ : i = 0 ∧ j = 0 := by omega
    rw [pairsSpec_zero]
    exact btkAF_zero_zero src tgt simM thr 0
  | succ N ih =>
    intro i j h
    match i, j with
    | 0, 0 =>
      rw [pairsSpec_zero]
      exact btkAF_zero_zero src tgt simM thr 0
    | i + 1, 0 =>
      show btkAF src tgt simM thr (i + 1) (i + 1) 0 = _
      rw [btkAF, if_neg (by omega : ¬(i + 1 = 0 ∧ (0 : ℕ) = 0)),
        if_neg (by simp : ¬(btA simM thr (i + 1) 0 = "match" ∧
          0 < i + 1 ∧ (0 : ℕ) < 0)),
        if_pos (⟨rfl, by omega⟩ : btA simM thr (i + 1) 0 = "delete" ∧
          0 < i + 1)]
      simp only [Nat.add_sub_cancel]
      have hbtk : btkAF src tgt simM thr i i 0 = btkA src tgt simM thr i 0 := by
        show _ = btkAF src tgt simM thr (i + 0) i 0
        rw [Nat.add_zero]
      rw [hbtk, ih i 0 (by omega), pairsSpec_del]
    | 0, j + 1 =>
      show btkAF src tgt simM thr (0 + (j + 1)) 0 (j + 1) = _
      rw [show (0 : ℕ) + (j + 1) = j + 1 from by omega]
      rw [btkAF, if_neg (by omega : ¬((0 : ℕ) = 0 ∧ j + 1 = 0)),
        if_neg (by simp : ¬(btA simM thr 0 (j + 1) = "match" ∧
          (0 : ℕ) < 0 ∧ 0 < j + 1)),
        if_neg (by simp : ¬(btA simM thr 0 (j + 1) = "delete" ∧
          (0 : ℕ) < 0)),
        if_pos (by omega : 0 < j + 1)]
      simp only [Nat.add_sub_cancel]
      have hbtk : btkAF src tgt simM thr j 0 j = btkA src tgt simM thr 0 j := by
        show _ = btkAF src tgt simM thr (0 + j) 0 j
        rw [Nat.zero_add]
      rw [hbtk, ih 0 j (by omega), pairsSpec_ins]
    | i + 1, j + 1 =>
      show btkAF src tgt simM thr (i + 1 + (j + 1)) (i + 1) (j + 1) = _
      rw [show i + 1 + (j + 1) = (i + j + 1) + 1 from by omega]
      rw [btkAF, if_neg (by omega : ¬(i + 1 = 0 ∧ j + 1 = 0)),
        pairsSpec_succ, ← btA_eq_btSpec]
      simp only [Nat.add_sub_cancel]
      rcases btA_values simM thr i j with hv | hv | hv
      · rw [if_pos ⟨hv, by omega, by omega⟩, if_pos hv]
        have hbtk : btkAF src tgt simM thr (i + j + 1) i j =
            btkA src tgt simM thr i j :=
          btkAF_fuel src tgt simM thr (i + j + 1) (i + j) i j (by omega)
            (by omega)
        rw [hbtk, ih i j (by omega)]
      · rw [if_neg (by simp [hv] : ¬(btA simM thr (i + 1) (j + 1) = "match" ∧
            0 < i + 1 ∧ 0 < j + 1)),
          if_pos ⟨hv, by omega⟩, if_neg (by simp [hv]), if_pos hv]
        have hbtk : btkAF src tgt simM thr (i + j + 1) i (j + 1) =
            btkA src tgt simM thr i (j + 1) :=
          btkAF_fuel src tgt simM thr (i + j + 1) (i + (j + 1)) i (j + 1)
            (by omega) (by omega)
        rw [hbtk, ih i (j + 1) (by omega)]
      · rw [if_neg (by simp [hv] : ¬(btA simM thr (i + 1) (j + 1) = "match" ∧
            0 < i + 1 ∧ 0 < j + 1)),
          if_neg (by simp [hv] : ¬(btA simM thr (i + 1) (j + 1) = "delete" ∧
            0 < i + 1)),
          if_pos (by omega : 0 < j + 1), if_neg (by simp [hv]),
          if_neg (by simp [hv])]
        have hbtk : btkAF src tgt simM thr (i + j + 1) (i + 1) j =
            btkA src tgt simM thr (i + 1) j :=
          btkAF_fuel src tgt simM thr (i + j + 1) (i + 1 + j) (i + 1) j
            (by omega) (by omega)
        rw [hbtk, ih (i + 1) j (by omega)]

/-- **C6.** Sequential alignment DP: the code's `dp` table satisfies the
specified recurrence (match = diagonal + similarity-or-−0.5, delete =
up − 0.1, insert = left − 0.1), its `backtrack` table records the
specified tie-break (match, then delete, then insert), and for non-empty
inputs the returned pairs are the backtrack from `(m, n)` to `(0, 0)` in
original order, a match-transition pair tagged `"modification"` exactly
when its similarity is below the threshold. -/
theorem sequentialAlign_implements_dp (src tgt : List SemanticUnit)
    (simM : ℕ → ℕ → ℚ) (thr : ℚ) (h1 : src ≠ []) (h2 : tgt ≠ []) :
    (∀ i j, dpA simM thr i j = dpSpec simM thr i j) ∧
    (∀ i j, btA simM thr i j = btSpec simM thr i j) ∧
    (sequentialAlign src tgt simM thr).pairs =
      pairsSpec src tgt simM thr src.length tgt.length :=
  ⟨fun i j => dpA_eq_dpSpec simM thr i j,
    fun i j => btA_eq_btSpec simM thr i j,
    btkA_eq_pairsSpecN src tgt simM thr (src.length + tgt.length)
      src.length tgt.length le_rfl⟩

theorem sequentialAlign_implements_dp_witness :
    ([⟨"A", "hA", 0, 0, 0, "", ""⟩] : List SemanticUnit) ≠ [] ∧
    ([⟨"B", "hB", 0, 0, 0, "", ""⟩] : List SemanticUnit) ≠ [] ∧
    (sequentialAlign [⟨"A", "hA", 0, 0, 0, "", ""⟩]
        [⟨"B", "hB", 0, 0, 0, "", ""⟩] (fun _ _ => 1) (3/4)).pairs =
      pairsSpec [⟨"A", "hA", 0, 0, 0, "", ""⟩]
        [⟨"B", "hB", 0, 0, 0, "", ""⟩] (fun _ _ => 1) (3/4) 1 1 :=
  ⟨by simp, by simp,
    (sequentialAlign_implements_dp [⟨"A", "hA", 0, 0, 0, "", ""⟩]
      [⟨"B", "hB", 0, 0, 0, "", ""⟩] (fun _ _ => 1) (3/4)
      (by simp) (by simp)).2.2⟩

/-! ### The `AlignedPair` shape invariant -/

/-- The claimed invariant: insertions have only a target, deletions only
a source, matches/modifications both. -/
def pairShapeOk (p : AlignedPair) : Prop :=
  (p.type = "insertion" → p.source = none ∧ p.target ≠ none) ∧
  (p.type = "deletion" → p.source ≠ none ∧ p.target = none) ∧
  (p.type = "match" ∨ p.type = "modification" →
    p.source ≠ none ∧ p.target ≠ none)

theorem pairShapeOk_ins (v : SemanticUnit) (s : ℚ) :
    pairShapeOk ⟨none, some v, s, "insertion"⟩ := by
  refine ⟨fun _ => ⟨rfl, by simp⟩, fun h => ?_, fun h => ?_⟩
  · exact absurd h (by simp)
  · rcases h with h | h <;> exact absurd h (by simp)

theorem pairShapeOk_del (u : SemanticUnit) (s : ℚ) :
    pairShapeOk ⟨some u, none, s, "deletion"⟩ := by
  refine ⟨fun h => ?_, fun _ => ⟨by simp, rfl⟩, fun h => ?_⟩
  · exact absurd h (by simp)
  · rcases h with h | h <;> exact absurd h (by simp)

theorem pairShapeOk_both (u v : SemanticUnit) (s : ℚ) (ty : String)
    (hty : ty = "match" ∨ ty = "modification") :
    pairShapeOk ⟨some u, some v, s, ty⟩ := by
  refine ⟨fun h => ?_, fun h => ?_, fun _ => ⟨by simp, by simp⟩⟩
  · rcases hty with h2 | h2 <;> rw [h2] at h <;> exact absurd h (by simp)
  · rcases hty with h2 | h2 <;> rw [h2] at h <;> exact absurd h (by simp)

theorem getSome_of_lt {l : List SemanticUnit} {n : ℕ} (h : n < l.length) :
    ∃ u, l[n]? = some u :=
  ⟨l[n], List.getElem?_eq_getElem h⟩

theorem btkAF_shape (src tgt : List SemanticUnit) (simM : ℕ → ℕ → ℚ)
    (thr : ℚ) :
    ∀ f i j, i ≤ src.length → j ≤ tgt.length →
      ∀ p ∈ btkAF src tgt simM thr f i j, pairShapeOk p := by
  intro f
  induction f with
  | zero => intro i j _ _ p hp; simp [btkAF] at hp
  | succ f ih =>
    intro i j hi hj p hp
    rw [btkAF] at hp
    by_cases hz : i = 0 ∧ j = 0
    · rw [if_pos hz] at hp; simp at hp
    · rw [if_neg hz] at hp
      by_cases h1 : btA simM thr i j = "match" ∧ 0 < i ∧ 0 < j
      · rw [if_pos h1] at hp
        obtain ⟨-, hi0, hj0⟩ := h1
        rcases List.mem_append.mp hp with hp2 | hp2
        · exact ih (i - 1) (j - 1) (by omega) (by omega) p hp2
        · obtain ⟨u, hu⟩ := getSome_of_lt (by omega : i - 1 < src.length)
          obtain ⟨v, hv⟩ := getSome_of_lt (by omega : j - 1 < tgt.length)
          rw [List.mem_singleton.mp hp2, hu, hv]
          refine pairShapeOk_both u v _ _ ?_
          split_ifs <;> simp
      · rw [if_neg h1] at hp
        by_cases h2 : btA simM thr i j = "delete" ∧ 0 < i
        · rw [if_pos h2] at hp
          obtain ⟨-, hi0⟩ := h2
          rcases List.mem_append.mp hp with hp2 | hp2
          · exact ih (i - 1) j (by omega) hj p hp2
          · obtain ⟨u, hu⟩ := getSome_of_lt (by omega : i - 1 < src.length)
            rw [List.mem_singleton.mp hp2, hu]
            exact pairShapeOk_del u 0
        · rw [if_neg h2] at hp
          by_cases h3 : 0 < j
          · rw [if_pos h3] at hp
            rcases List.mem_append.mp hp with hp2 | hp2
            · exact ih i (j - 1) hi (by omega) p hp2
            · obtain ⟨v, hv⟩ := getSome_of_lt (by omega : j - 1 < tgt.length)
              rw [List.mem_singleton.mp hp2, hv]
              exact pairShapeOk_ins v 0
          · rw [if_neg h3] at hp
            simp at hp

theorem semanticCandidates_bounds (src tgt : List SemanticUnit)
    (simM : ℕ → ℕ → ℚ) (thr : ℚ) :
    ∀ c ∈ semanticCandidates src tgt simM thr,
      c.1 < src.length ∧ c.2.1 < tgt.length := by
  intro c hc
  rw [semanticCandidates, List.mem_flatten] at hc
  obtain ⟨row, hrow, hcrow⟩ := hc
  rw [List.mem_map] at hrow
  obtain ⟨i, hi, rfl⟩ := hrow
  rw [List.mem_filterMap] at hcrow
  obtain ⟨j, hj, hcj⟩ := hcrow
  rw [List.mem_range] at hi
  rw [List.mem_range] at hj
  split_ifs at hcj with hthr
  injection hcj with h
  rw [← h]
  exact ⟨hi, hj⟩

theorem greedyGo_shape (src tgt : List SemanticUnit) :
    ∀ (cl : List (ℕ × ℕ × ℚ)) (st : List AlignedPair × List ℕ × List ℕ),
      (∀ p ∈ st.1, pairShapeOk p) →
      (∀ c ∈ cl, c.1 < src.length ∧ c.2.1 < tgt.length) →
      ∀ p ∈ (greedyGo src tgt cl st).1, pairShapeOk p := by
  intro cl
  induction cl with
  | nil => intro st h _ p hp; exact h p hp
  | cons c rest ih =>
    intro st h hb p hp
    obtain ⟨ps, ms, mt⟩ := st
    rw [greedyGo] at hp
    by_cases hc : c.1 ∉ ms ∧ c.2.1 ∉ mt
    · rw [if_pos hc] at hp
      refine ih _ ?_ (fun c2 hc2 => hb c2 (List.mem_cons_of_mem c hc2)) p hp
      intro q hq
      rcases List.mem_append.mp hq with hq2 | hq2
      · exact h q hq2
      · obtain ⟨hcs, hct⟩ := hb c (List.mem_cons_self c rest)
        obtain ⟨u, hu⟩ := getSome_of_lt hcs
        obtain ⟨v, hv⟩ := getSome_of_lt hct
        rw [List.mem_singleton.mp hq2, hu, hv]
        refine pairShapeOk_both u v _ _ ?_
        split_ifs <;> simp
    · rw [if_neg hc] at hp
      exact ih _ h (fun c2 hc2 => hb c2 (List.mem_cons_of_mem c hc2)) p hp

theorem semanticAlign_shape (src tgt : List SemanticUnit)
    (simM : ℕ → ℕ → ℚ) (thr : ℚ) :
    ∀ p ∈ (semanticAlign src tgt simM thr).pairs, pairShapeOk p := by
  intro p hp
  rw [semanticAlign] at hp
  rw [List.mem_mergeSort] at hp
  rcases List.mem_append.mp hp with hp1 | hp1
  · rcases List.mem_append.mp hp1 with hp2 | hp2
    · refine greedyGo_shape src tgt _ _ (by intro q hq; simp at hq) ?_ p hp2
      intro c hc
      exact semanticCandidates_bounds src tgt simM thr c
        (List.mem_mergeSort.mp hc)
    · rw [List.mem_filterMap] at hp2
      obtain ⟨i, hi, hpi⟩ := hp2
      rw [List.mem_range] at hi
      split_ifs at hpi with hmem
      injection hpi with h
      obtain ⟨u, hu⟩ := getSome_of_lt hi
      rw [← h, hu]
      exact pairShapeOk_del u 0
  · rw [List.mem_filterMap] at hp1
    obtain ⟨j, hj, hpj⟩ := hp1
    rw [List.mem_range] at hj
    split_ifs at hpj with hmem
    injection hpj with h
    obtain ⟨v, hv⟩ := getSome_of_lt hj
    rw [← h, hv]
    exact pairShapeOk_ins v 0

theorem hybridStep_mem (src tgt : List SemanticUnit) (simM : ℕ → ℕ → ℚ)
    (thr : ℚ) (ps : List AlignedPair) (di ii : ℕ) (p : AlignedPair)
    (hp : p ∈ hybridStep src tgt simM thr ps di ii) :
    p ∈ ps ∨ ∃ u v s, p = ⟨some u, some v, s, "modification"⟩ := by
  unfold hybridStep at hp
  split at hp
  case _ del ins hdel hins =>
    split at hp
    case _ ds it hds hit =>
      split_ifs at hp with hmem hsim
      · rcases List.mem_or_eq_of_mem_set hp with hp2 | hp2
        · rcases List.mem_or_eq_of_mem_set hp2 with hp3 | hp3
          · exact Or.inl hp3
          · exact Or.inr ⟨ds, it, _, hp3⟩
        · refine Or.inr ⟨ds, it, ins.similarity, ?_⟩
          rw [hp2, hit]
      · exact Or.inl hp
      · exact Or.inl hp
    case _ h => exact Or.inl hp
  case _ h => exact Or.inl hp

theorem foldl_preserve {α β : Type} (f : α → β → α) (P : α → Prop) :
    ∀ (l : List β) (init : α), P init → (∀ a b, P a → P (f a b)) →
      P (l.foldl f init) := by
  intro l
  induction l with
  | nil => intro init h _; exact h
  | cons b l ih =>
    intro init h hstep
    exact ih (f init b) (hstep init b h) hstep

theorem dedupGo_subset :
    ∀ (l : List AlignedPair) (seen : List String) (p : AlignedPair),
      p ∈ dedupGo l seen → p ∈ l := by
  intro l
  induction l with
  | nil => intro seen p hp; simp [dedupGo] at hp
  | cons q l ih =>
    intro seen p hp
    rw [dedupGo] at hp
    split_ifs at hp
    · exact List.mem_cons_of_mem q (ih _ p hp)
    · rcases List.mem_cons.mp hp with hp2 | hp2
      · exact hp2 ▸ List.mem_cons_self q l
      · exact List.mem_cons_of_mem q (ih _ p hp2)

theorem hybridAlign_shape (src tgt : List SemanticUnit)
    (simM : ℕ → ℕ → ℚ) (thr : ℚ) :
    ∀ p ∈ (hybridAlign src tgt simM thr).pairs, pairShapeOk p := by
  intro p hp
  rw [hybridAlign] at hp
  have hseq : ∀ q ∈ (sequentialAlign src tgt simM thr).pairs,
      pairShapeOk q := by
    intro q hq
    exact btkAF_shape src tgt simM thr (src.length + tgt.length)
      src.length tgt.length le_rfl le_rfl q hq
  have hmut : ∀ q ∈ hybridMutated src tgt simM thr, pairShapeOk q := by
    rw [hybridMutated]
    refine foldl_preserve _ (fun ps => ∀ q ∈ ps, pairShapeOk q) _ _ hseq ?_
    intro ps di hps
    refine foldl_preserve _ (fun ps2 => ∀ q ∈ ps2, pairShapeOk q) _ _ hps ?_
    intro ps2 ii hps2 q hq
    rcases hybridStep_mem src tgt simM thr ps2 di ii q hq with hq2 | ⟨u, v, s, rfl⟩
    · exact hps2 q hq2
    · exact pairShapeOk_both u v s _ (Or.inr rfl)
  exact hmut p (dedupGo_subset _ _ p hp)

/-- **C7.** `AlignedPair` shape invariant: every pair returned by
`align` under any strategy (including hybrid's move reclassification and
deduplication) has only a target for `"insertion"`, only a source for
`"deletion"`, and both for `"match"`/`"modification"`. -/
theorem align_pair_shape (src tgt : List SemanticUnit) (strategy : String)
    (simM : ℕ → ℕ → ℚ) (thr : ℚ) :
    ∀ p ∈ (align src tgt strategy simM thr).pairs, pairShapeOk p := by
  intro p hp
  rw [align] at hp
  split_ifs at hp with hzz hz1 hz2 hs1 hs2
  · simp at hp
  · rw [List.mem_map] at hp
    obtain ⟨t, -, rfl⟩ := hp
    exact pairShapeOk_ins t 0
  · rw [List.mem_map] at hp
    obtain ⟨s, -, rfl⟩ := hp
    exact pairShapeOk_del s 0
  · exact btkAF_shape src tgt simM thr (src.length + tgt.length)
      src.length tgt.length le_rfl le_rfl p hp
  · exact semanticAlign_shape src tgt simM thr p hp
  · exact hybridAlign_shape src tgt simM thr p hp

theorem align_pair_shape_witness :
    (⟨none, some ⟨"T", "hT", 0, 0, 0, "", ""⟩, 0, "insertion"⟩ :
        AlignedPair) ∈
      (align [] [⟨"T", "hT", 0, 0, 0, "", ""⟩] "hybrid"
        (fun _ _ => 1) 1).pairs ∧
    pairShapeOk
      (⟨none, some ⟨"T", "hT", 0, 0, 0, "", ""⟩, 0, "insertion"⟩ :
        AlignedPair) :=
  ⟨by decide,
    align_pair_shape [] [⟨"T", "hT", 0, 0, 0, "", ""⟩] "hybrid"
      (fun _ _ => 1) 1 _ (by decide)⟩

/-!
### Segmentation — `src/segmentation/index.ts` and `src/utils/hash.ts`

Strings are modelled as their character lists (`String.data`); JavaScript
code units coincide with Lean code points on the BMP, which covers every
character appearing below.  `segment` is embedded for the default options
`{ granularity: "sentence", preserveMarkdown: true }`, the ones claim C1
is about (markdown `metadata` is dropped from `SemanticUnit`: it does not
feed `reconstruct` or any claim).
-/

/-- JavaScript regex class whitespace character, as in JS `\s`. -/
def isJsWS (c : Char) : Bool :=
  c == ' ' || c == '\t' || c == '\n' || c.toNat == 11 || c.toNat == 12 ||
  c == '\r' || c.toNat == 0xa0 || c.toNat == 0x1680 ||
  (0x2000 ≤ c.toNat && c.toNat ≤ 0x200a) || c.toNat == 0x2028 ||
  c.toNat == 0x2029 || c.toNat == 0x202f || c.toNat == 0x205f ||
  c.toNat == 0x3000 || c.toNat == 0xfeff

/-- JS `String.prototype.trimEnd`. -/
def jsTrimEnd (l : List Char) : List Char :=
  (l.reverse.dropWhile isJsWS).reverse

/-- JS `String.prototype.trim`. -/
def jsTrim (l : List Char) : List Char :=
  jsTrimEnd (l.dropWhile isJsWS)

/-- The FNV-1a loop of `createHash`: per character,
`hash ^= charCodeAt; hash = Math.imul(hash, 16777619)`, modelled on
naturals modulo `2^32` (JS int32 arithmetic is congruent mod `2^32`, and
the final `>>> 0` reduces to exactly this residue). -/
def fnv1aGo : ℕ → List Char → ℕ
  | h, [] => h
  | h, c :: cs => fnv1aGo ((h ^^^ c.toNat) * 16777619 % 2 ^ 32) cs

/-- `(hash >>> 0).toString(16).padStart(8, "0")`. -/
def toHex8 (n : ℕ) : List Char :=
  let ds := Nat.toDigits 16 n
  List.replicate (8 - ds.length) '0' ++ ds

/-- `createHash` from `src/utils/hash.ts`: FNV-1a, rendered as an
8-digit lowercase hex string. -/
def createHash (s : List Char) : String :=
  ⟨toHex8 (fnv1aGo 2166136261 s)⟩

/-- One pass of `.replace(/\s+/g, " ")`: each maximal whitespace run
becomes a single space.  The flag records whether the previous character
was part of a whitespace run. -/
def collapseWSGo : Bool → List Char → List Char
  | _, [] => []
  | prevWS, c :: cs =>
    if isJsWS c then
      if prevWS then collapseWSGo true cs else ' ' :: collapseWSGo true cs
    else c :: collapseWSGo false cs

/-- `normalizeForHash`: lowercase, collapse whitespace, strip `[^\w\s]`,
trim.  (`toLowerCase` is modelled by `Char.toLower`; they agree on
ASCII, the only range exercised here.) -/
def normalizeForHash (l : List Char) : List Char :=
  jsTrim ((collapseWSGo false (l.map Char.toLower)).filter
    (fun c => isWordChar c || isJsWS c))

/-- `extractWhitespace`: leading `\s*` run, trailing `\s*` run, and the
`slice` between them. -/
def extractWS (l : List Char) : List Char × List Char × List Char :=
  let pre := l.takeWhile isJsWS
  let suf := (l.reverse.takeWhile isJsWS).reverse
  (pre, (l.drop pre.length).take (l.length - suf.length - pre.length), suf)

/-- Scan of `String.prototype.indexOf`: first index `≥ i` where `pat`
is a prefix of the remaining text. -/
def indexOfFromGo (pat : List Char) : List Char → ℕ → Option ℕ
  | [], i => if pat.isEmpty then some i else none
  | c :: cs, i =>
    if pat.isPrefixOf (c :: cs) then some i else indexOfFromGo pat cs (i + 1)

/-- JS `s.indexOf(pat, st)` (`none` for `-1`); the start position is
clamped to the string length as in JS. -/
def jsIndexOf (s pat : List Char) (st : ℕ) : Option ℕ :=
  indexOfFromGo pat (s.drop (min st s.length)) (min st s.length)

/-- The class `[.!?]` of the sentence-boundary regex. -/
def isSB (c : Char) : Bool := c == '.' || c == '!' || c == '?'

/-- The class `[A-Z]`. -/
def isUpperAZ (c : Char) : Bool := 65 ≤ c.toNat && c.toNat ≤ 90

/-- Test a character predicate at an index, `false` out of range. -/
def testCharAt (p : Char → Bool) (s : List Char) (i : ℕ) : Bool :=
  match s[i]? with
  | some c => p c
  | none => false

/-- Sticky match of `SENTENCE_BOUNDARY =
`/(?<=[.!?])\s+(?=[A-Z])|(?<=[.!?])(?=\s*$)|(?<=\n\n)/` at position `q`,
returning the end position of the match.  The first alternative can only
succeed on the full whitespace run (a shorter `\s+` is followed by a
whitespace character, never `[A-Z]`); the second holds exactly when the
whole remaining text is whitespace; the third is the lookbehind on two
newlines.  Alternatives are tried left to right. -/
def matchBoundaryAt (s : List Char) (q : ℕ) : Option ℕ :=
  let k := ((s.drop q).takeWhile isJsWS).length
  if q ≠ 0 && testCharAt isSB s (q - 1) && k ≠ 0 && testCharAt isUpperAZ s (q + k) then
    some (q + k)
  else if q ≠ 0 && testCharAt isSB s (q - 1) && (s.drop q).all isJsWS then
    some q
  else if 2 ≤ q && testCharAt (· == '\n') s (q - 1) && testCharAt (· == '\n') s (q - 2) then
    some q
  else none

/-- The ES `String.prototype.split(regexp)` loop (the spec's
`RegExp[Symbol.split]`, which matches with the sticky flag at each `q`):
`p` is the start of the pending piece, `q` the scan position; a zero-width
match at `p` is skipped; fuel `2|s| + 2` dominates the loop (each step
increases `q` or strictly increases `p`). -/
def splitBoundaryGo (s : List Char) : ℕ → ℕ → ℕ → List (List Char)
  | 0, p, _ => [s.drop p]
  | fuel + 1, p, q =>
    if q < s.length then
      match matchBoundaryAt s q with
      | none => splitBoundaryGo s fuel p (q + 1)
      | some e =>
        if e = p then splitBoundaryGo s fuel p (q + 1)
        else ((s.drop p).take (q - p)) :: splitBoundaryGo s fuel e e
    else [s.drop p]

/-- `text.split(SENTENCE_BOUNDARY)`. -/
def splitBoundary (s : List Char) : List (List Char) :=
  splitBoundaryGo s (2 * s.length + 2) 0 0

/-- The `ABBREVIATIONS` set, as a list of character lists. -/
def abbreviationsL : List (List Char) :=
  (["Mr.", "Mrs.", "Ms.", "Dr.", "Prof.", "Sr.", "Jr.", "vs.", "etc.",
    "i.e.", "e.g.", "cf.", "al.", "Fig.", "fig.", "Vol.", "vol.", "No.",
    "no.", "pp.", "p."] : List String).map String.data

/-- The `endsWithAbbr` test of `splitSentences`, applied to the
`trimEnd`ed buffer: some abbreviation is a suffix, and the text before it
is empty or matches `/[\s,;:(]$/`. -/
def endsWithAbbr (buf : List Char) : Bool :=
  abbreviationsL.any fun abbr =>
    abbr.isSuffixOf buf &&
      (let before := buf.take (buf.length - abbr.length)
       before.isEmpty ||
         (match before.getLast? with
          | some c => isJsWS c || c == ',' || c == ';' || c == ':' || c == '('
          | none => false))

/-- The abbreviation-merging loop of `splitSentences`: accumulate parts
into `buffer` (joined by a single space), flushing whenever the buffer
does not end with a standalone abbreviation; a final non-empty buffer is
flushed. -/
def mergeAbbrGo : List Char → List (List Char) → List (List Char)
  | buffer, [] => if buffer.isEmpty then [] else [buffer]
  | buffer, part :: rest =>
    let buf := if buffer.isEmpty then part else buffer ++ ' ' :: part
    if endsWithAbbr (jsTrimEnd buf) then mergeAbbrGo buf rest
    else buf :: mergeAbbrGo [] rest

/-- `splitSentences`: split on the boundary regex, drop parts whose trim
is empty (JS truthiness of `s.trim()`), merge abbreviations back. -/
def splitSentencesL (s : List Char) : List (List Char) :=
  mergeAbbrGo [] ((splitBoundary s).filter fun p => !(jsTrim p).isEmpty)

/-- The literal three-backtick fence. -/
def tripleTick : List Char := ("```" : String).data

/-- The `"\u0000CODE_BLOCK_"` placeholder head. -/
def placeholderL : List Char := ("\x00CODE_BLOCK_" : String).data

/-- `text.replace(/` three backticks `[\s\S]*?` three backticks `/g, ...)`
of `splitPreservingCodeBlocks`: each lazily-matched fenced block is
replaced by `placeholder + idx + "\u0000"` and collected.  A match exists
iff a fence occurs and another fence starts at least 3 characters later;
the leftmost-then-laziest match is the first fence paired with the
earliest fence after it — which is what the nested `jsIndexOf` computes. -/
def cbExtractGo : ℕ → List Char → List (List Char) → List Char × List (List Char)
  | 0, s, blocks => (s, blocks)
  | fuel + 1, s, blocks =>
    match jsIndexOf s tripleTick 0 with
    | none => (s, blocks)
    | some i =>
      match jsIndexOf (s.drop (i + 3)) tripleTick 0 with
      | none => (s, blocks)
      | some j =>
        let res := cbExtractGo fuel (s.drop (i + j + 6))
          (blocks ++ [(s.drop i).take (j + 6)])
        (s.take i ++ placeholderL ++ Nat.toDigits 10 blocks.length ++
          '\x00' :: res.1, res.2)

/-- `parseInt(d, 10)` on a digit string. -/
def parseDec (l : List Char) : ℕ :=
  l.foldl (fun n c => n * 10 + (c.toNat - 48)) 0

/-- `part.replace(new RegExp(placeholder + "(\\d+)\u0000", "g"), ...)`:
every placeholder occurrence is replaced by the indexed code block
(`?? ""` for an out-of-range index).  The `\d+` capture is the maximal
digit run (a shorter run is followed by a digit, never `\u0000`). -/
def cbRestoreGo (blocks : List (List Char)) : ℕ → List Char → List Char
  | 0, s => s
  | _ + 1, [] => []
  | fuel + 1, c :: cs =>
    if placeholderL.isPrefixOf (c :: cs) then
      let after := (c :: cs).drop placeholderL.length
      let ds := after.takeWhile Char.isDigit
      match ds.isEmpty, after.drop ds.length with
      | false, '\x00' :: rest =>
        blocks.getD (parseDec ds) [] ++ cbRestoreGo blocks fuel rest
      | _, _ => c :: cbRestoreGo blocks fuel cs
    else c :: cbRestoreGo blocks fuel cs

/-- `splitPreservingCodeBlocks(text, splitSentences)`. -/
def splitPreservingCodeBlocksL (text : List Char) : List (List Char) :=
  let res := cbExtractGo (text.length + 1) text []
  (splitSentencesL res.1).map fun part =>
    cbRestoreGo res.2 (part.length + 1) part

/-- The main loop of `segment`: for each raw part, skip empty parts,
locate the part in the original text from `currentOffset` (skip on
`indexOf === -1`), split off whitespace, skip empty normalized content,
and emit a unit whose prefix absorbs the skipped-over original text;
returns the units and the final `currentOffset`. -/
def segmentGo (text : List Char) :
    List (List Char) → ℕ → List SemanticUnit → List SemanticUnit × ℕ
  | [], off, units => (units, off)
  | raw :: rest, off, units =>
    if raw.isEmpty then segmentGo text rest off units
    else
      match jsIndexOf text raw off with
      | none => segmentGo text rest off units
      | some idx =>
        let ws := extractWS raw
        let norm := jsTrim ws.2.1
        if norm.isEmpty then segmentGo text rest off units
        else
          segmentGo text rest (idx + raw.length)
            (units ++ [⟨⟨norm⟩, createHash (normalizeForHash norm),
              units.length, idx, idx + raw.length,
              ⟨(text.drop off).take (idx - off) ++ ws.1⟩, ⟨ws.2.2⟩⟩])

/-- Append trailing original text to a unit's suffix
(`lastUnit.suffix += text.slice(currentOffset)`). -/
def appendSuf (u : SemanticUnit) (extra : List Char) : SemanticUnit :=
  { u with suf := ⟨u.suf.data ++ extra⟩ }

/-- `segment` with the default options (`granularity: "sentence"`,
`preserveMarkdown: true`), returning the `units` of the
`SegmentationResult` (the `original` field is the input itself). -/
def segment (text : String) : List SemanticUnit :=
  let res := segmentGo text.data (splitPreservingCodeBlocksL text.data) 0 []
  if res.2 < text.data.length then
    match res.1.getLast? with
    | none => res.1
    | some last => res.1.dropLast ++ [appendSuf last (text.data.drop res.2)]
  else res.1

/-- `/\s/.test(s)`: the string contains a whitespace character. -/
def hasWS (l : List Char) : Bool := l.any isJsWS

/-- The loop of `reconstruct`: between consecutive units, insert a single
space when the accumulated result is non-empty and neither the previous
suffix nor the current prefix contains whitespace; `prevSuf` is `none`
exactly on the first iteration. -/
def reconstructGo : List Char → Option (List Char) → List SemanticUnit → List Char
  | result, _, [] => result
  | result, prevSuf, u :: rest =>
    let spaced :=
      match prevSuf with
      | none => result
      | some ps =>
        if !result.isEmpty && !(hasWS ps || hasWS u.pre.data) then
          result ++ [' ']
        else result
    reconstructGo (spaced ++ u.pre.data ++ u.content.data ++ u.suf.data)
      (some u.suf.data) rest

/-- `reconstruct` from `src/segmentation/index.ts`. -/
def reconstruct (units : List SemanticUnit) : String :=
  ⟨reconstructGo [] none units⟩

/-- **C1.** The claimed segmentation round-trip
`reconstruct(segment(text).units).trim() === text.trim()` (default
options) FAILS on `"Mr.  Smith went."` (two spaces after the
abbreviation): the boundary regex splits after `"Mr."`, the
abbreviation-merge loop re-joins the parts with a SINGLE space, the
re-joined sentence no longer occurs in the original text, so
`indexOf` returns `-1`, the unit is silently dropped, `segment` returns
no units at all, and the reconstruction is empty. -/
theorem c1_roundtrip_failure :
    segment "Mr.  Smith went." = [] ∧
    jsTrim (reconstruct (segment "Mr.  Smith went.")).data ≠
      jsTrim ("Mr.  Smith went." : String).data := by
  decide

/-!
### Merge orchestrator — `src/merge/index.ts`

The merge is parameterised by the content-level similarity `simK`: the
source computes `similarityMatrix[i][j] =
cosineSimilarity(embed(src[i].content), embed(tgt[j].content))` from an
embedding provider, so the matrix is a function of the two contents;
`simK` is that function (`fun _ _ => 1` is realised by, e.g., a provider
embedding every text as the same non-zero vector).  `generateConflictId`
draws on `Date.now()`/`Math.random()`; the ids are opaque unique tokens
and are modelled by a deterministic counter.  `a.hash.localeCompare(b.hash)`
is modelled as code-point order on the hash strings (the two agree on the
`[0-9a-f]` hex alphabet produced by `createHash`).  The conflict unit's
`metadata` is dropped, as in the rest of the embedding.
-/

structure Conflict where
  id : String
  a : String
  b : String
  c : String
  ctxBefore : String
  ctxAfter : String
  simAToB : ℚ
  simAToC : ℚ
  simBToC : ℚ
  deriving DecidableEq, Repr

structure Resolution where
  conflictId : String
  resolved : String
  source : String
  confidence : ℚ
  deriving DecidableEq, Repr

structure MergeStats where
  unchanged : ℕ
  upgraded : ℕ
  preserved : ℕ
  removed : ℕ
  conflicts : ℕ
  autoResolved : ℕ
  deriving DecidableEq, Repr

structure MergeResult where
  merged : String
  conflicts : List Conflict
  resolutions : List Resolution
  stats : MergeStats
  deriving DecidableEq, Repr

/-- `Map.get` on a string-keyed `Map<string, AlignedPair>`. -/
def smGet (m : List (String × AlignedPair)) (k : String) : Option AlignedPair :=
  (m.find? (fun e => e.1 == k)).map (·.2)

/-- `Map.set`: overwrite the existing binding, else append. -/
def smSet (m : List (String × AlignedPair)) (k : String) (v : AlignedPair) :
    List (String × AlignedPair) :=
  if m.any (fun e => e.1 == k) then
    m.map (fun e => if e.1 == k then (k, v) else e)
  else m ++ [(k, v)]

/-- The `aToB`/`aToC` lookup maps keyed by `pair.source.hash` (later
pairs with the same source hash win, as with `Map.set`). -/
def buildSourceMap (pairs : List AlignedPair) : List (String × AlignedPair) :=
  pairs.foldl
    (fun m p => match p.source with
      | some s => smSet m s.hash p
      | none => m) []

/-- `Set.add` on a `Set<string>` (insert if absent). -/
def setAdd (s : List String) (x : String) : List String :=
  if s.contains x then s else s ++ [x]

/-- The `bChanged`/`cChanged` test: alignment type is `"modification"`
or `"deletion"`, or the aligned target's content differs from the A
unit's content (`bContentChanged`). -/
def sideChangedM (chg : Option AlignedPair) (aContent : String) : Bool :=
  match chg with
  | none => false
  | some p =>
    p.type == "modification" || p.type == "deletion" ||
      (match p.target with
       | some t => t.content != aContent
       | none => false)

/-- The first `find` of the deletion-fallback search: an unprocessed
insertion whose target sits at the A unit's index. -/
def findInsAt (pairs : List AlignedPair) (proc : List String) (idx : ℕ) :
    Option AlignedPair :=
  pairs.find? (fun p =>
    p.type == "insertion" &&
      (match p.target with
       | some t => !proc.contains t.hash && t.index == idx
       | none => false))

/-- The second `find` (the `??` fallback): any unprocessed insertion. -/
def findInsAny (pairs : List AlignedPair) (proc : List String) :
    Option AlignedPair :=
  pairs.find? (fun p =>
    p.type == "insertion" &&
      (match p.target with
       | some t => !proc.contains t.hash
       | none => false))

/-- JS `String.prototype.includes`. -/
def strIncludes (s sub : List Char) : Bool :=
  (jsIndexOf s sub 0).isSome

/-- `formatConflictMarker`. -/
def formatConflictMarker (b c : String) : String :=
  "<<<<<<< B\n" ++ b ++ "\n=======\n" ++ c ++ "\n>>>>>>> C"

/-- `tryAutoResolve`: subsumption first (only when both trimmed sides
are non-empty), then the strategy `switch` (`"defer"` and any other
value fall through to `null`). -/
def tryAutoResolve (conflict : Conflict) (strategy : String) :
    Option Resolution :=
  let bIsEmpty := (jsTrim conflict.b.data).isEmpty
  let cIsEmpty := (jsTrim conflict.c.data).isEmpty
  let bSubsumesC := strIncludes conflict.b.data conflict.c.data ||
    decide ((0.95 : ℚ) < conflict.simBToC)
  let cSubsumesB := strIncludes conflict.c.data conflict.b.data ||
    decide ((0.95 : ℚ) < conflict.simBToC)
  if !bIsEmpty && !cIsEmpty && bSubsumesC && !cSubsumesB then
    some ⟨conflict.id, conflict.b, "base", (0.9 : ℚ)⟩
  else if !bIsEmpty && !cIsEmpty && cSubsumesB && !bSubsumesC then
    some ⟨conflict.id, conflict.c, "user", (0.9 : ℚ)⟩
  else if strategy == "prefer-a" then
    some ⟨conflict.id, conflict.a, "ancestor", (0.7 : ℚ)⟩
  else if strategy == "prefer-b" then
    some ⟨conflict.id, conflict.b, "base", (0.7 : ℚ)⟩
  else if strategy == "prefer-c" then
    some ⟨conflict.id, conflict.c, "user", (0.7 : ℚ)⟩
  else if strategy == "concatenate" then
    some ⟨conflict.id, conflict.b ++ "\n" ++ conflict.c, "merged", (0.5 : ℚ)⟩
  else none

/-- The accumulated state of the three `merge` loops (stats flattened;
`ctr` numbers the `generateConflictId` calls). -/
structure MergeState where
  mUnits : List SemanticUnit
  confs : List Conflict
  resols : List Resolution
  unchanged : ℕ
  upgraded : ℕ
  preserved : ℕ
  removed : ℕ
  conflictCt : ℕ
  autoResolved : ℕ
  procB : List String
  procC : List String
  ctr : ℕ
  deriving DecidableEq, Repr

/-- The resolved unit pushed by `merge`: content plus
`createHash(content.toLowerCase())`, index = current output length,
`start` 0, `end` the content length, whitespace context from the A
unit. -/
def resolvedUnitOf (content : String) (len : ℕ) (aUnit : SemanticUnit) :
    SemanticUnit :=
  ⟨content, createHash (content.data.map Char.toLower), len, 0,
    content.data.length, aUnit.pre, aUnit.suf⟩

/-- The body of `merge`'s main `for (const aUnit of segA.units)` loop
(cases 1-4 of the source). -/
def mergeStep (abPairs acPairs : List AlignedPair)
    (aToB aToC : List (String × AlignedPair)) (strategy : String)
    (st : MergeState) (aUnit : SemanticUnit) : MergeState :=
  let bChange := smGet aToB aUnit.hash
  let cChange := smGet aToC aUnit.hash
  let bChanged := sideChangedM bChange aUnit.content
  let cChanged := sideChangedM cChange aUnit.content
  let bTarget := bChange.bind (·.target)
  let cTarget := cChange.bind (·.target)
  if !bChanged && !cChanged then
    -- Case 1: no changes on either side → use B (might be identical)
    { st with
      mUnits := st.mUnits ++ [bTarget.getD aUnit],
      procB := match bTarget with
        | some t => setAdd st.procB t.hash
        | none => st.procB,
      unchanged := st.unchanged + 1 }
  else if bChanged && !cChanged then
    -- Case 2: only B changed → take the B upgrade (drop on deletion)
    match bTarget with
    | some t =>
      { st with
        mUnits := st.mUnits ++ [t],
        procB := setAdd st.procB t.hash,
        upgraded := st.upgraded + 1 }
    | none => st
  else if !bChanged && cChanged then
    -- Case 3: only C changed → preserve the customization / removal
    match cTarget with
    | some t =>
      { st with
        mUnits := st.mUnits ++ [t],
        procC := setAdd st.procC t.hash,
        preserved := st.preserved + 1 }
    | none => { st with removed := st.removed + 1 }
  else
    -- Case 4: both changed
    let bContent0 := (bTarget.map (·.content)).getD ""
    let cContent0 := (cTarget.map (·.content)).getD ""
    let bFall :=
      if (match bChange with
          | some p => p.type == "deletion" && p.target.isNone
          | none => false) then
        match findInsAt abPairs st.procB aUnit.index with
        | some p => some p
        | none => findInsAny abPairs st.procB
      else none
    let bContent := match bFall.bind (·.target) with
      | some t => t.content
      | none => bContent0
    let procB1 := match bFall.bind (·.target) with
      | some t => setAdd st.procB t.hash
      | none => st.procB
    let cFall :=
      if (match cChange with
          | some p => p.type == "deletion" && p.target.isNone
          | none => false) then
        match findInsAt acPairs st.procC aUnit.index with
        | some p => some p
        | none => findInsAny acPairs st.procC
      else none
    let cContent := match cFall.bind (·.target) with
      | some t => t.content
      | none => cContent0
    let procC1 := match cFall.bind (·.target) with
      | some t => setAdd st.procC t.hash
      | none => st.procC
    let cRemoved := cContent == "" ||
      (match cChange with
       | some p => decide (p.similarity < (0.5 : ℚ))
       | none => false)
    let w := wordMerge3Way aUnit.content bContent cContent
    let eqB := w.merged == bContent
    let eqC := w.merged == cContent
    let isClean := !w.hasConflict && (eqB || eqC)
    if !w.hasConflict && isClean then
      let mergedContent :=
        if strategy == "prefer-b" && eqC && !eqB then bContent
        else if strategy == "prefer-c" && eqB && !eqC then cContent
        else w.merged
      { st with
        mUnits := if mergedContent != "" then
            st.mUnits ++ [resolvedUnitOf mergedContent st.mUnits.length aUnit]
          else st.mUnits,
        removed := if mergedContent != "" then
            (if cRemoved && eqC then st.removed + 1 else st.removed)
          else (if cRemoved then st.removed + 1 else st.removed),
        autoResolved := st.autoResolved + 1,
        procB := procB1,
        procC := match cTarget with
          | some t => setAdd procC1 t.hash
          | none => procC1 }
    else if !w.hasConflict && strategy == "defer" then
      { st with
        mUnits := if w.merged != "" then
            st.mUnits ++ [resolvedUnitOf w.merged st.mUnits.length aUnit]
          else st.mUnits,
        resols := if w.merged != "" then
            st.resols ++ [⟨"conflict-" ++ toString st.ctr, w.merged,
              "merged", (0.85 : ℚ)⟩]
          else st.resols,
        ctr := if w.merged != "" then st.ctr + 1 else st.ctr,
        removed := if w.merged != "" then st.removed
          else (if cRemoved then st.removed + 1 else st.removed),
        autoResolved := st.autoResolved + 1,
        procB := procB1,
        procC := match cTarget with
          | some t => setAdd procC1 t.hash
          | none => procC1 }
    else
      let conflict : Conflict :=
        ⟨"conflict-" ++ toString st.ctr, aUnit.content, bContent, cContent,
          aUnit.pre, aUnit.suf,
          (bChange.map (·.similarity)).getD 0,
          (cChange.map (·.similarity)).getD 0, 0⟩
      match tryAutoResolve conflict strategy with
      | some r =>
        { st with
          mUnits := if r.resolved != "" then
              st.mUnits ++ [resolvedUnitOf r.resolved st.mUnits.length aUnit]
            else st.mUnits,
          resols := st.resols ++ [r],
          removed := if r.resolved != "" then
              (if cRemoved && r.source == "user" then st.removed + 1
               else st.removed)
            else (if cRemoved then st.removed + 1 else st.removed),
          conflictCt := st.conflictCt + 1,
          autoResolved := st.autoResolved + 1,
          ctr := st.ctr + 1,
          procB := match bTarget with
            | some t => setAdd procB1 t.hash
            | none => procB1,
          procC := match cTarget with
            | some t => setAdd procC1 t.hash
            | none => procC1 }
      | none =>
        let mk := formatConflictMarker bContent cContent
        { st with
          mUnits := st.mUnits ++
            [⟨mk, createHash mk.data, st.mUnits.length, 0, mk.data.length,
              aUnit.pre, aUnit.suf⟩],
          confs := st.confs ++ [conflict],
          conflictCt := st.conflictCt + 1,
          ctr := st.ctr + 1,
          procB := procB1,
          procC := match cTarget with
            | some t => setAdd procC1 t.hash
            | none => procC1 }

/-- The C-insertion loop body ("new content that wasn't in A"), with the
`prefer-b` nearby-deletion suppression. -/
def cInsStep (abPairs acPairs : List AlignedPair) (strategy : String)
    (st : MergeState) (p : AlignedPair) : MergeState :=
  if p.type == "insertion" then
    match p.target with
    | some t =>
      if st.procC.contains t.hash then st
      else
        let nearby := acPairs.find? (fun q =>
          q.type == "deletion" &&
            (match q.source with
             | some s => s.index ≤ t.index + 1 && t.index ≤ s.index + 1
             | none => false))
        let bDel := match nearby with
          | some q =>
            match q.source with
            | some s => abPairs.any (fun r =>
                r.type == "deletion" &&
                  (match r.source with
                   | some s2 => s2.hash == s.hash
                   | none => false))
            | none => false
          | none => false
        if bDel && strategy == "prefer-b" then
          { st with procC := setAdd st.procC t.hash }
        else
          { st with
            mUnits := st.mUnits ++ [t],
            procC := setAdd st.procC t.hash,
            preserved := st.preserved + 1 }
    | none => st
  else st

/-- The B-insertion loop body ("new content in B"), with the `prefer-c`
nearby-deletion suppression and the `cHasSimilar` duplicate check
against the segmented C units. -/
def bInsStep (abPairs acPairs : List AlignedPair)
    (segCUnits : List SemanticUnit) (strategy : String)
    (st : MergeState) (p : AlignedPair) : MergeState :=
  if p.type == "insertion" then
    match p.target with
    | some t =>
      if st.procB.contains t.hash then st
      else
        let nearby := abPairs.find? (fun q =>
          q.type == "deletion" &&
            (match q.source with
             | some s => s.index ≤ t.index + 1 && t.index ≤ s.index + 1
             | none => false))
        let cDel := match nearby with
          | some q =>
            match q.source with
            | some s => acPairs.any (fun r =>
                r.type == "deletion" &&
                  (match r.source with
                   | some s2 => s2.hash == s.hash
                   | none => false))
            | none => false
          | none => false
        if cDel && strategy == "prefer-c" then
          { st with procB := setAdd st.procB t.hash }
        else if segCUnits.any (fun u => u.hash == t.hash) then st
        else
          { st with
            mUnits := st.mUnits ++ [t],
            procB := setAdd st.procB t.hash,
            upgraded := st.upgraded + 1 }
    | none => st
  else st

/-- The similarity matrix handed to `align`: `simK` on the contents at
the two positions, `0` out of range (the `undefined` embedding guard). -/
def mergeSimM (simK : String → String → ℚ)
    (src tgt : List SemanticUnit) : ℕ → ℕ → ℚ :=
  fun i j =>
    match src[i]?, tgt[j]? with
    | some u, some v => simK u.content v.content
    | _, _ => 0

/-- The state after `merge`'s three loops, before sorting: segmentation,
the two alignments (default options: `"hybrid"`, threshold `0.75`), the
per-A-unit loop, then the C- and B-insertion loops. -/
def mergeState (a b c : String) (strategy : String)
    (simK : String → String → ℚ) : MergeState :=
  let segA := segment a
  let segB := segment b
  let segC := segment c
  let ab := align segA segB "hybrid" (mergeSimM simK segA segB) (0.75 : ℚ)
  let ac := align segA segC "hybrid" (mergeSimM simK segA segC) (0.75 : ℚ)
  let aToB := buildSourceMap ab.pairs
  let aToC := buildSourceMap ac.pairs
  let st1 := segA.foldl (mergeStep ab.pairs ac.pairs aToB aToC strategy)
    ⟨[], [], [], 0, 0, 0, 0, 0, 0, [], [], 0⟩
  let st2 := ac.pairs.foldl (cInsStep ab.pairs ac.pairs strategy) st1
  ab.pairs.foldl (bInsStep ab.pairs ac.pairs segC strategy) st2

/-- The final sort's comparator `(a, b) => a.index - b.index ||
a.hash.localeCompare(b.hash)`, as a `≤`-test (`x` may precede `y`). -/
def unitLE (x y : SemanticUnit) : Bool :=
  x.index < y.index || (x.index == y.index && decide (x.hash ≤ y.hash))

/-- `merge(a, b, c, { conflictStrategy: strategy })`: the stable sort of
the emitted units by index-then-hash, reconstructed; conflicts,
resolutions and stats from the loop state. -/
def merge (a b c : String) (strategy : String)
    (simK : String → String → ℚ) : MergeResult :=
  ⟨reconstruct ((mergeState a b c strategy simK).mUnits.mergeSort unitLE),
    (mergeState a b c strategy simK).confs,
    (mergeState a b c strategy simK).resols,
    ⟨(mergeState a b c strategy simK).unchanged,
      (mergeState a b c strategy simK).upgraded,
      (mergeState a b c strategy simK).preserved,
      (mergeState a b c strategy simK).removed,
      (mergeState a b c strategy simK).conflictCt,
      (mergeState a b c strategy simK).autoResolved⟩⟩

/-- The sort comparator is transitive. -/
theorem unitLE_trans (x y z : SemanticUnit) (h1 : unitLE x y)
    (h2 : unitLE y z) : unitLE x z := by
  simp only [unitLE, Bool.or_eq_true, Bool.and_eq_true, beq_iff_eq,
    decide_eq_true_eq] at h1 h2 ⊢
  rcases h1 with h1 | ⟨e1, l1⟩ <;> rcases h2 with h2 | ⟨e2, l2⟩
  · exact Or.inl (h1.trans h2)
  · exact Or.inl (e2 ▸ h1)
  · exact Or.inl (by rw [e1]; exact h2)
  · exact Or.inr ⟨e1.trans e2, le_trans l1 l2⟩

/-- The sort comparator is total. -/
theorem unitLE_total (x y : SemanticUnit) : unitLE x y || unitLE y x := by
  simp only [unitLE, Bool.or_eq_true, Bool.and_eq_true, beq_iff_eq,
    decide_eq_true_eq]
  rcases Nat.lt_trichotomy x.index y.index with h | h | h
  · exact Or.inl (Or.inl h)
  · rcases le_total x.hash y.hash with hh | hh
    · exact Or.inl (Or.inr ⟨h, hh⟩)
    · exact Or.inr (Or.inr ⟨h.symm, hh⟩)
  · exact Or.inr (Or.inl h)

/-- Aligning a one-element list with itself under the default options,
when the similarity of the diagonal entry is 1: the DP takes the match
transition and the hybrid post-processing is the identity, so the result
is a single `"match"` pair. -/
theorem align_single_identity (u : SemanticUnit) (simM : ℕ → ℕ → ℚ)
    (h1 : simM 0 0 = 1) :
    align [u] [u] "hybrid" simM (0.75 : ℚ) =
      ⟨[⟨some u, some u, 1, "match"⟩], [], []⟩ := by
  have hbtS : btSpec simM (0.75 : ℚ) (0 + 1) (0 + 1) = "match" := by
    rw [← btA_eq_btSpec, btA_succ_eq, dpA_zero_left, dpA_zero_left,
      dpA_zero_right, h1]
    norm_num
  have hps : pairsSpec [u] [u] simM (0.75 : ℚ) (0 + 1) (0 + 1) =
      [⟨some u, some u, 1, "match"⟩] := by
    rw [pairsSpec_succ, if_pos hbtS, pairsSpec_zero, h1]
    simp only [List.nil_append, List.getElem?_cons_zero]
    norm_num
  have hseqp : (sequentialAlign [u] [u] simM (0.75 : ℚ)).pairs =
      [⟨some u, some u, 1, "match"⟩] := by
    have h2 := btkA_eq_pairsSpecN [u] [u] simM (0.75 : ℚ) 2 1 1 (by omega)
    calc (sequentialAlign [u] [u] simM (0.75 : ℚ)).pairs
        = btkA [u] [u] simM (0.75 : ℚ) 1 1 := rfl
      _ = pairsSpec [u] [u] simM (0.75 : ℚ) 1 1 := h2
      _ = [⟨some u, some u, 1, "match"⟩] := hps
  have hd : hybridIdxs [u] [u] simM (0.75 : ℚ) "deletion" = [] := by
    rw [hybridIdxs, hseqp]
    rfl
  have hmut : hybridMutated [u] [u] simM (0.75 : ℚ) =
      [⟨some u, some u, 1, "match"⟩] := by
    rw [hybridMutated, hd]
    simp only [List.foldl_nil]
    exact hseqp
  have hh : hybridAlign [u] [u] simM (0.75 : ℚ) =
      ⟨[⟨some u, some u, 1, "match"⟩], [], []⟩ := by
    rw [hybridAlign, hmut]
    rfl
  rw [align, if_neg (by simp), if_neg (by simp), if_neg (by simp),
    if_neg (by decide), if_neg (by decide)]
  exact hh

/-- The merge on three copies of `"  Hello.  "` (all similarities 1, the
default `prefer-c`): a single unchanged unit with its original
whitespace context, so `merged = "  Hello.  "`. -/
theorem merge_identity_hello :
    (merge "  Hello.  " "  Hello.  " "  Hello.  " "prefer-c"
      (fun _ _ => 1)).merged = "  Hello.  " := by
  have hseg : segment "  Hello.  " =
      [⟨"Hello.", "4f9f2cab", 0, 0, 8, "  ", "  "⟩] := by decide
  have hal := align_single_identity
    (⟨"Hello.", "4f9f2cab", 0, 0, 8, "  ", "  "⟩ : SemanticUnit)
    (mergeSimM (fun _ _ => 1)
      [⟨"Hello.", "4f9f2cab", 0, 0, 8, "  ", "  "⟩]
      [⟨"Hello.", "4f9f2cab", 0, 0, 8, "  ", "  "⟩]) rfl
  have hst : mergeState "  Hello.  " "  Hello.  " "  Hello.  " "prefer-c"
      (fun _ _ => 1) =
      ⟨[⟨"Hello.", "4f9f2cab", 0, 0, 8, "  ", "  "⟩], [], [], 1, 0, 0, 0,
        0, 0, ["4f9f2cab"], [], 0⟩ := by
    simp only [mergeState]
    rw [hseg, hal]
    decide
  show reconstruct ((mergeState "  Hello.  " "  Hello.  " "  Hello.  "
    "prefer-c" (fun _ _ => 1)).mUnits.mergeSort unitLE) = "  Hello.  "
  rw [hst]
  show reconstruct
    (([⟨"Hello.", "4f9f2cab", 0, 0, 8, "  ", "  "⟩] :
      List SemanticUnit).mergeSort unitLE) = "  Hello.  "
  rw [List.mergeSort_singleton]
  decide

/-- **C5** (counterexample). The claim that the merged text is trimmed —
"the merged string never has leading or trailing whitespace" — is FALSE:
`merge("  Hello.  ", "  Hello.  ", "  Hello.  ")` returns
`"  Hello.  "` verbatim (the source reconstructs the sorted units and
returns the result without any trim). -/
theorem c5_untrimmed_counterexample :
    (merge "  Hello.  " "  Hello.  " "  Hello.  " "prefer-c"
        (fun _ _ => 1)).merged = "  Hello.  " ∧
    jsTrim ((merge "  Hello.  " "  Hello.  " "  Hello.  " "prefer-c"
        (fun _ _ => 1)).merged).data ≠
      ((merge "  Hello.  " "  Hello.  " "  Hello.  " "prefer-c"
        (fun _ _ => 1)).merged).data :=
  ⟨merge_identity_hello, by rw [merge_identity_hello]; decide⟩

/-- **C5** (amended). Final assembly without the claimed trim: the
merged text is the reconstruction of a sorted permutation of the emitted
units — sorted by original index with the hash as tie-break (the stable
`mergeSort` under the comparator `unitLE`), reconstructed, and returned
as is. -/
theorem merge_final_assembly (a b c strategy : String)
    (simK : String → String → ℚ) :
    ∃ us : List SemanticUnit,
      us.Perm (mergeState a b c strategy simK).mUnits ∧
      us.Pairwise (fun x y => unitLE x y = true) ∧
      (merge a b c strategy simK).merged = reconstruct us :=
  ⟨(mergeState a b c strategy simK).mUnits.mergeSort unitLE,
    List.mergeSort_perm _ _,
    List.sorted_mergeSort unitLE_trans unitLE_total _,
    rfl⟩

/-!
### `resolveConflict` — manual conflict resolution

`result.merged.replace(marker, resolution)` is JS
`String.prototype.replace` with a *string* pattern: it rewrites the
first occurrence only, and the replacement string undergoes the
`GetSubstitution` `$`-escapes — `$$` (a dollar), `$&` (the match),
`` $` `` (the text before the match), `$'` (the text after).  With a
string pattern there are no capture groups, so `$1`, `$<...>` and any
other sequence stay literal.
-/

/-- The `GetSubstitution` scan of the replacement template: `matched`,
`bf` and `af` are the match, the text before it and the text after it.
A `$` followed by a non-escape stays literal and the following character
is rescanned. -/
def subDollarGo (matched bf af : List Char) : ℕ → List Char → List Char
  | 0, s => s
  | _ + 1, [] => []
  | fuel + 1, c :: cs =>
    if c == '$' then
      match cs with
      | [] => [c]
      | d :: rest =>
        if d == '$' then '$' :: subDollarGo matched bf af fuel rest
        else if d == '&' then matched ++ subDollarGo matched bf af fuel rest
        else if d.toNat == 96 then bf ++ subDollarGo matched bf af fuel rest
        else if d.toNat == 39 then af ++ subDollarGo matched bf af fuel rest
        else c :: subDollarGo matched bf af fuel cs
    else c :: subDollarGo matched bf af fuel cs

/-- JS `s.replace(search, repl)` with a string `search`: substitute the
`$`-escapes of `repl` at the first occurrence; `s` unchanged when
`search` does not occur. -/
def jsReplaceOnce (s search repl : List Char) : List Char :=
  match jsIndexOf s search 0 with
  | none => s
  | some i =>
    s.take i ++
      subDollarGo search (s.take i) (s.drop (i + search.length))
        (repl.length + 1) repl ++
      s.drop (i + search.length)

/-- `resolveConflict` from `src/merge/index.ts` (the `throw` modelled as
`Except.error`). -/
def resolveConflict (result : MergeResult) (conflictId resolutionText : String) :
    Except String MergeResult :=
  match result.conflicts.find? (fun cf => cf.id == conflictId) with
  | none => Except.error ("Conflict not found: " ++ conflictId)
  | some conflict =>
    Except.ok
      ⟨⟨jsReplaceOnce result.merged.data
          (formatConflictMarker conflict.b conflict.c).data
          resolutionText.data⟩,
        result.conflicts.filter (fun cf => !(cf.id == conflictId)),
        result.resolutions ++ [⟨conflictId, resolutionText, "external", 1⟩],
        result.stats⟩

/-- A `$`-free replacement template passes through the substitution scan
unchanged. -/
theorem subDollarGo_no_dollar (matched bf af : List Char) :
    ∀ (l : List Char) (fuel : ℕ), l.length ≤ fuel →
      (∀ ch ∈ l, ch ≠ '$') → subDollarGo matched bf af fuel l = l := by
  intro l
  induction l with
  | nil =>
    intro fuel _ _
    cases fuel <;> rfl
  | cons c cs ih =>
    intro fuel hlen hds
    cases fuel with
    | zero => simp at hlen
    | succ f =>
      have hc : ¬((c == '$') = true) := by
        simp only [beq_iff_eq]
        exact fun h => hds c (List.mem_cons_self c cs) h
      simp only [subDollarGo, if_neg hc]
      rw [ih f (by simpa using hlen)
        (fun ch hch => hds ch (List.mem_cons_of_mem c hch))]

/-- **C8** (counterexample). The claim that the marker block is
"replaced by text" is FALSE for replacement texts containing `$`:
resolving with the text `"$$"` produces a merged text `"$"` — JS
`String.replace` applies `$`-substitution to the replacement.  The rest
of the claim behaves as stated on this input: the conflict is removed
and an `external`/`1.0` resolution is appended. -/
theorem c8_dollar_counterexample :
    resolveConflict
        ⟨"<<<<<<< B\nB\n=======\nC\n>>>>>>> C",
          [⟨"c1", "A", "B", "C", "", "", 0, 0, 0⟩], [], ⟨0, 0, 0, 0, 1, 0⟩⟩
        "c1" "$$" =
      Except.ok ⟨"$", [], [⟨"c1", "$$", "external", 1⟩], ⟨0, 0, 0, 0, 1, 0⟩⟩ ∧
    ("$" : String) ≠ "$$" := by
  constructor
  · rfl
  · decide

/-- **C8** (amended). `resolveConflict(result, conflictId, text)`:
when no conflict has the given id the call fails with
`"Conflict not found: " ++ conflictId`; when one is found and the
replacement text is `$`-free, the returned result replaces the first
occurrence of the conflict's literal marker block by `text` in `merged`
(position `i` of the occurrence), removes exactly that conflict from the
unresolved list, appends a resolution with source `"external"` and
confidence `1.0`, and keeps the stats. -/
theorem resolveConflict_rule (result : MergeResult) (cid text : String) :
    ((result.conflicts.find? (fun x => x.id == cid) = none) →
      resolveConflict result cid text =
        Except.error ("Conflict not found: " ++ cid)) ∧
    (∀ cf i, result.conflicts.find? (fun x => x.id == cid) = some cf →
      (∀ ch ∈ text.data, ch ≠ '$') →
      jsIndexOf result.merged.data (formatConflictMarker cf.b cf.c).data 0 =
        some i →
      resolveConflict result cid text = Except.ok
        ⟨⟨result.merged.data.take i ++ text.data ++
            result.merged.data.drop
              (i + (formatConflictMarker cf.b cf.c).data.length)⟩,
          result.conflicts.filter (fun x => !(x.id == cid)),
          result.resolutions ++ [⟨cid, text, "external", 1⟩],
          result.stats⟩) := by
  constructor
  · intro h
    simp only [resolveConflict, h]
  · intro cf i hf hds hocc
    simp only [resolveConflict, hf]
    have hrepl : jsReplaceOnce result.merged.data
        (formatConflictMarker cf.b cf.c).data text.data =
        result.merged.data.take i ++ text.data ++
          result.merged.data.drop
            (i + (formatConflictMarker cf.b cf.c).data.length) := by
      simp only [jsReplaceOnce, hocc]
      rw [subDollarGo_no_dollar _ _ _ text.data (text.data.length + 1)
        (by omega) hds]
    rw [hrepl]

theorem resolveConflict_rule_witness :
    resolveConflict
        ⟨"<<<<<<< B\nB\n=======\nC\n>>>>>>> C",
          [⟨"c1", "A", "B", "C", "", "", 0, 0, 0⟩], [], ⟨0, 0, 0, 0, 1, 0⟩⟩
        "c1" "Fixed." =
      Except.ok ⟨"Fixed.", [], [⟨"c1", "Fixed.", "external", 1⟩],
        ⟨0, 0, 0, 0, 1, 0⟩⟩ :=
  ((resolveConflict_rule
      ⟨"<<<<<<< B\nB\n=======\nC\n>>>>>>> C",
        [⟨"c1", "A", "B", "C", "", "", 0, 0, 0⟩], [], ⟨0, 0, 0, 0, 1, 0⟩⟩
      "c1" "Fixed.").2 ⟨"c1", "A", "B", "C", "", "", 0, 0, 0⟩ 0
    (by decide) (by decide) (by decide)).trans
    (congrArg Except.ok (by decide))

end BetterPrompt
